import Mathlib

/-!
The CPU-profiler aggregation engine (`src/profiler/profile-generator.cc`).

A shallow embedding of the code map, the profile tree with its line ticks and its
depth-first traversal, the tick-sample attribution of the profile generator, the
source position table, the code entries, the trace events a profile streams and the
collection of profiles, followed by the properties proved about them.

Conventions of the embedding.

* A pointer is a natural number and `nullptr` is `0`; a `CodeEntry*` is the
  address of the entry, dereferenced through an explicit store.
* An `Address` is a machine word: sums of addresses are reduced modulo
  `kAddressSpace`.
* A `std::map` is the list of its key/value pairs in increasing key order; an
  iterator into it is a position in that list, `end()` being the length.
-/

namespace V8Profiler

/-! ## Pointers and addresses -/

/-- The null pointer. -/
def nullptr : Nat := 0

/-- Modelled from the spec: `Address` is declared outside `profile-generator.cc`; the
spec calls it "an opaque machine-word integer". The word is taken to be 64 bits wide,
so the address space holds `2 ^ 64` addresses. -/
def kAddressSpace : Nat := 2 ^ 64

/-- Addition of an offset to an `Address`, as the machine computes it. -/
def addrAdd (a off : Nat) : Nat := (a + off) % kAddressSpace

/-- Difference of two `Address` values, as the machine computes it. -/
def addrSub (a b : Nat) : Nat := (a + (kAddressSpace - b % kAddressSpace)) % kAddressSpace

/-! ## `std::map` as a sorted association list -/

/-- The content of a `std::map`, in iteration order. -/
abbrev StdMap (κ : Type) (V : Type) := List (κ × V)

namespace StdMap

variable {κ V : Type} [LinearOrder κ]

/-- The function `std::map::upper_bound`: the position of the first element whose key is
greater than `k` (`end()` when there is none). -/
def upper_bound : StdMap κ V → κ → Nat
  | [], _ => 0
  | p :: rest, k => if k < p.1 then 0 else upper_bound rest k + 1

/-- The function `std::map::insert`: puts the pair at its place in key order; a map that already
holds the key is left as it is. -/
def insert : StdMap κ V → κ → V → StdMap κ V
  | [], k, v => [(k, v)]
  | p :: rest, k, v =>
    if k < p.1 then (k, v) :: p :: rest
    else if k = p.1 then p :: rest
    else p :: insert rest k v

/-- The function `std::map::find`: the position of the element with key `k`, if there is one. -/
def find (m : StdMap κ V) (k : κ) : Option Nat :=
  let i := m.findIdx (fun p => decide (p.1 = k))
  if i < m.length then some i else none

/-- The function `std::map::erase(first, last)`: removes the elements at positions
`first ≤ i < last`. -/
def eraseRange (m : StdMap κ V) (first last : Nat) : StdMap κ V :=
  m.take first ++ m.drop last

end StdMap

/-! ## CodeMap -/

/-- The `CodeEntryInfo` of the code map: the entry and the size of its code. -/
structure CodeEntryInfo where
  entry : Nat
  size : Nat
  deriving DecidableEq, Repr

/-- The `code_map_` member: start address ↦ `CodeEntryInfo`. -/
abbrev CodeMap := StdMap Nat CodeEntryInfo

namespace CodeMap

/-- The first half of `DeleteAllCoveredCode`: the iterator `left`, which is the
predecessor of `start` when that element reaches past `start`, else `upper_bound(start)`. -/
def coveringLeft (m : CodeMap) (start : Nat) : Nat :=
  let left := StdMap.upper_bound m start
  if left ≠ 0 then
    match m[left - 1]? with
    | some p => if addrAdd p.1 p.2.size ≤ start then left else left - 1
    | none => left - 1
  else left

/-- The loop `while (right != code_map_.end() && right->first < end) ++right;`. -/
def advanceRight (m : CodeMap) (right : Nat) (end_ : Nat) : Nat :=
  right + ((m.drop right).takeWhile (fun p => decide (p.1 < end_))).length

/-- The function `CodeMap::DeleteAllCoveredCode(start, end)`. -/
def DeleteAllCoveredCode (m : CodeMap) (start end_ : Nat) : CodeMap :=
  let left := coveringLeft m start
  let right := advanceRight m left end_
  StdMap.eraseRange m left right

/-- The function `CodeMap::AddCode(addr, entry, size)`. -/
def AddCode (m : CodeMap) (addr : Nat) (entry : Nat) (size : Nat) : CodeMap :=
  let m := DeleteAllCoveredCode m addr (addrAdd addr size)
  StdMap.insert m addr ⟨entry, size⟩

/-- The function `CodeMap::FindEntry(addr)`. -/
def FindEntry (m : CodeMap) (addr : Nat) : Nat :=
  let it := StdMap.upper_bound m addr
  if it = 0 then nullptr
  else
    match m[it - 1]? with
    | some p =>
      let end_address := addrAdd p.1 p.2.size
      if addr < end_address then p.2.entry else nullptr
    | none => nullptr

/-- The function `CodeMap::MoveCode(from, to)`. -/
def MoveCode (m : CodeMap) (from_ to_ : Nat) : CodeMap :=
  if from_ = to_ then m
  else
    match StdMap.find m from_ with
    | none => m
    | some it =>
      match m[it]? with
      | none => m
      | some p => AddCode (m.eraseIdx it) to_ p.2.entry p.2.size

end CodeMap

/-! ### The invariant of the code map -/

namespace CodeMap

/-- The half-open overlap predicate on two ranges `[s₁, s₁ + n₁)` and `[s₂, s₂ + n₂)`. -/
def Overlaps (s₁ n₁ s₂ n₂ : Nat) : Prop := s₁ < s₂ + n₂ ∧ s₂ < s₁ + n₁

instance (s₁ n₁ s₂ n₂ : Nat) : Decidable (Overlaps s₁ n₁ s₂ n₂) := by
  unfold Overlaps; infer_instance

/-- The keys of a `std::map` are strictly increasing. -/
def Sorted (m : CodeMap) : Prop := m.Pairwise (fun x y => x.1 < y.1)

/-- Every stored range lies inside the address space: its end does not wrap around. -/
def InRange (m : CodeMap) : Prop := ∀ x ∈ m, x.1 + x.2.size < kAddressSpace

/-- The stored half-open ranges `[start, start + size)` are pairwise disjoint. -/
def Disjoint (m : CodeMap) : Prop :=
  m.Pairwise (fun x y => ¬ Overlaps x.1 x.2.size y.1 y.2.size)

/-- The invariant of the code map: a sorted map of ranges inside the address space
that are pairwise disjoint. -/
def Inv (m : CodeMap) : Prop := Sorted m ∧ InRange m ∧ Disjoint m

instance (m : CodeMap) : Decidable (Sorted m) := by
  unfold Sorted; infer_instance

instance (m : CodeMap) : Decidable (InRange m) := by
  unfold InRange; infer_instance

instance (m : CodeMap) : Decidable (Disjoint m) := by
  unfold Disjoint; infer_instance

instance (m : CodeMap) : Decidable (Inv m) := by
  unfold Inv; infer_instance

/-- The strengthened form of the invariant used in the proofs: each stored range ends
at or before the start of every later one. -/
def Chained (m : CodeMap) : Prop :=
  m.Pairwise (fun x y => x.1 < y.1 ∧ x.1 + x.2.size ≤ y.1)

/-- The code maps reachable from the empty map by `AddCode` and `MoveCode` calls, whatever
their arguments. -/
inductive Reachable : CodeMap → Prop
  | empty : Reachable []
  | addCode {m : CodeMap} (addr entry size : Nat) :
      Reachable m → Reachable (AddCode m addr entry size)
  | moveCode {m : CodeMap} (from_ to_ : Nat) :
      Reachable m → Reachable (MoveCode m from_ to_)

/-- The code maps reachable from the empty map by `AddCode` and `MoveCode` calls none of
which wraps: the end `addr + size` of the range that a call registers is below the size
of the address space. -/
inductive ReachableInRange : CodeMap → Prop
  | empty : ReachableInRange []
  | addCode {m : CodeMap} (addr entry size : Nat) :
      ReachableInRange m → addr + size < kAddressSpace →
      ReachableInRange (AddCode m addr entry size)
  | moveCode {m : CodeMap} (from_ to_ : Nat) :
      ReachableInRange m → (∀ p ∈ m, p.1 = from_ → to_ + p.2.size < kAddressSpace) →
      ReachableInRange (MoveCode m from_ to_)

end CodeMap

/-! ## Hash maps -/

/-- The content of a `std::unordered_map`, as the list of its key/value pairs. -/
abbrev UnorderedMap (κ : Type) (V : Type) := List (κ × V)

namespace UnorderedMap

variable {κ V : Type} [DecidableEq κ]

/-- The function `std::unordered_map::find`: the value stored under `k`, if there is one. -/
def find : UnorderedMap κ V → κ → Option V
  | [], _ => none
  | p :: rest, k => if p.1 = k then some p.2 else find rest k

/-- The assignment `map[k] = v`: replaces the value stored under `k`, or adds the pair. -/
def set : UnorderedMap κ V → κ → V → UnorderedMap κ V
  | [], k, v => [(k, v)]
  | p :: rest, k, v => if p.1 = k then (k, v) :: rest else p :: set rest k v

end UnorderedMap

/-! ## SourcePositionTable -/

/-- The constant `v8::CpuProfileNode::kNoLineNumberInfo`. -/
def kNoLineNumberInfo : Int := 0

/-- The `pc_offset_map_` member of `SourcePositionTable`: pc offset ↦ source line. -/
abbrev SourcePositionTable := StdMap Int Int

namespace SourcePositionTable

/-- The function `SourcePositionTable::GetSourceLineNumber(pc_offset)`. -/
def GetSourceLineNumber (t : SourcePositionTable) (pc_offset : Int) : Int :=
  if t.isEmpty then kNoLineNumberInfo
  else
    let it := StdMap.upper_bound t pc_offset
    if it ≠ 0 then
      match t[it - 1]? with
      | some p => p.2
      | none => kNoLineNumberInfo
    else
      match t[it]? with
      | some p => p.2
      | none => kNoLineNumberInfo

/-- The function `SourcePositionTable::SetPosition(pc_offset, line)`. -/
def SetPosition (t : SourcePositionTable) (pc_offset line : Int) : SourcePositionTable :=
  if GetSourceLineNumber t pc_offset ≠ line then StdMap.insert t pc_offset line else t

/-- The keys of the `std::map` of a source position table are strictly increasing. -/
def Sorted (t : SourcePositionTable) : Prop := t.Pairwise (fun x y => x.1 < y.1)

instance (t : SourcePositionTable) : Decidable (Sorted t) := by
  unfold Sorted; infer_instance

end SourcePositionTable

/-! ## CodeEntry -/

/-- Modelled from the spec: the enumeration `Builtins::Name` is declared outside
`profile-generator.cc`; the two names the profile generator tests for are kept apart
from all the others. -/
inductive BuiltinsName where
  | kFunctionPrototypeApply
  | kFunctionPrototypeCall
  | other (id : Nat)
  deriving DecidableEq, Repr

/-- The record `CpuProfileDeoptFrame`. -/
structure CpuProfileDeoptFrame where
  script_id : Int
  position : Nat
  deriving DecidableEq, Repr

/-- The record `CpuProfileDeoptInfo`. -/
structure CpuProfileDeoptInfo where
  deopt_reason : String
  stack : List CpuProfileDeoptFrame
  deriving DecidableEq, Repr

/-- Modelled from the spec: the sentinel `kNoDeoptimizationId` is declared outside
`profile-generator.cc`; it is "distinct from any valid id". -/
def kNoDeoptimizationId : Int := -1

/-- The constant `CodeEntry::kNoDeoptReason`. -/
def kNoDeoptReason : String := ""

/-- The members of a `CodeEntry`. Names are interned strings, so equality of the
`const char*` members is equality of the strings. The inline stacks hold the addresses
of the entries they own. -/
structure CodeEntry where
  tag : Nat
  builtin_id : BuiltinsName
  name_prefix_ : String
  name : String
  resource_name : String
  line_number : Int
  column_number : Int
  script_id : Int
  position : Int
  bailout_reason : String
  deopt_reason : String
  deopt_id : Int
  instruction_start : Nat
  line_info : Option SourcePositionTable
  inline_locations : StdMap Int (List Nat)
  deopt_inlined_frames : StdMap Int (List CpuProfileDeoptFrame)
  deriving Repr

namespace CodeEntry

/-- The function `CodeEntry::GetSourceLine(pc_offset)`. -/
def GetSourceLine (e : CodeEntry) (pc_offset : Int) : Int :=
  match e.line_info with
  | some line_info => SourcePositionTable.GetSourceLineNumber line_info pc_offset
  | none => kNoLineNumberInfo

/-- The function `CodeEntry::GetInlineStack(pc_offset)`: the stack stored under `pc_offset`, or
`none` for the null pointer. -/
def GetInlineStack (e : CodeEntry) (pc_offset : Int) : Option (List Nat) :=
  match StdMap.find e.inline_locations pc_offset with
  | some it => (e.inline_locations[it]?).map (fun p => p.2)
  | none => none

/-- Modelled from the spec: `CodeEntry::has_deopt_info` is defined outside
`profile-generator.cc`: "`has_deopt_info()` iff `deopt_id != kNoDeoptimizationId`". -/
def has_deopt_info (e : CodeEntry) : Bool := decide (e.deopt_id ≠ kNoDeoptimizationId)

/-- Modelled from the spec: `CodeEntry::clear_deopt_info` is defined outside
`profile-generator.cc`; it resets the deopt reason and the deopt id. -/
def clear_deopt_info (e : CodeEntry) : CodeEntry :=
  { e with deopt_reason := kNoDeoptReason, deopt_id := kNoDeoptimizationId }

/-- The function `CodeEntry::GetDeoptInfo()`. -/
def GetDeoptInfo (e : CodeEntry) : CpuProfileDeoptInfo :=
  match StdMap.find e.deopt_inlined_frames e.deopt_id with
  | none =>
    { deopt_reason := e.deopt_reason,
      stack := [{ script_id := e.script_id, position := (max 0 e.position).toNat }] }
  | some it =>
    { deopt_reason := e.deopt_reason,
      stack := ((e.deopt_inlined_frames[it]?).map (fun p => p.2)).getD [] }

end CodeEntry

/-- The store of code entries: the entry at each address. -/
abbrev CodeEntryStore := Nat → CodeEntry

/-- Modelled from the spec: the constant `v8::UnboundScript::kNoScriptId` is declared
outside `profile-generator.cc`; it is a sentinel "distinct from any valid id". -/
def kNoScriptId : Int := 0

/-- The conversion `static_cast<uint32_t>`: the low 32 bits. -/
def toUInt32 (x : Int) : Nat := (x % 2 ^ 32).toNat

namespace CodeEntry

/-- The function `CodeEntry::IsSameFunctionAs(entry)`, called on the entry at the address
`this_` of the store. -/
def IsSameFunctionAs (store : CodeEntryStore) (this_ entry : Nat) : Bool :=
  if this_ = entry then true
  else if (store this_).script_id ≠ kNoScriptId then
    decide ((store this_).script_id = (store entry).script_id) &&
      decide ((store this_).position = (store entry).position)
  else
    decide (CodeEntry.name_prefix_ (store this_) = CodeEntry.name_prefix_ (store entry)) &&
      decide ((store this_).name = (store entry).name) &&
      decide ((store this_).resource_name = (store entry).resource_name) &&
      decide ((store this_).line_number = (store entry).line_number)

/-- The function `CodeEntry::GetHash()`. The function `ComputeIntegerHash` is defined
outside `profile-generator.cc` and is a parameter, as is `addressOf`, which gives the
address at which an interned string is kept. -/
def GetHash (ComputeIntegerHash : Nat → Nat) (addressOf : String → Nat) (e : CodeEntry) : Nat :=
  let hash := ComputeIntegerHash e.tag
  if e.script_id ≠ kNoScriptId then
    let hash := hash ^^^ ComputeIntegerHash (toUInt32 e.script_id)
    hash ^^^ ComputeIntegerHash (toUInt32 e.position)
  else
    let hash := hash ^^^ ComputeIntegerHash (toUInt32 (addressOf (CodeEntry.name_prefix_ e)))
    let hash := hash ^^^ ComputeIntegerHash (toUInt32 (addressOf e.name))
    let hash := hash ^^^ ComputeIntegerHash (toUInt32 (addressOf e.resource_name))
    hash ^^^ ComputeIntegerHash (toUInt32 e.line_number)

/-- The identity of functions as the spec words it: "either (i) both have script ids
and their `(script_id, position)` pair matches, or (ii) both lack script ids and
`(name_prefix, name, resource_name, line_number)` match". -/
def specSameFunction (a b : CodeEntry) : Prop :=
  (a.script_id ≠ kNoScriptId ∧ b.script_id ≠ kNoScriptId ∧
    a.script_id = b.script_id ∧ a.position = b.position) ∨
  (a.script_id = kNoScriptId ∧ b.script_id = kNoScriptId ∧
    CodeEntry.name_prefix_ a = CodeEntry.name_prefix_ b ∧ a.name = b.name ∧
    a.resource_name = b.resource_name ∧ a.line_number = b.line_number)

instance (a b : CodeEntry) : Decidable (specSameFunction a b) := by
  unfold specSameFunction; infer_instance

end CodeEntry

/-! ## ProfileNode and ProfileTree -/

/-- Modelled from the spec: the type of the member `children_` of `ProfileNode` is
declared outside `profile-generator.cc`; the spec has the children "keyed by CodeEntry
identity (pointer identity in this design)" and a "pointer-identity lookup in the child
map", so the map goes from the address of the entry to the node. -/
abbrev ChildrenMap := UnorderedMap Nat Nat

/-- The members of a `ProfileNode`. A `ProfileNode*` is the position of the node in the
node store of its tree; the null parent of the root is `none`. The counters are
numbers without a bound. -/
structure ProfileNode where
  entry : Nat
  self_ticks : Nat
  children : ChildrenMap
  children_list : List Nat
  parent : Option Nat
  id : Nat
  line_ticks : UnorderedMap Int Int
  deopt_infos : List CpuProfileDeoptInfo
  deriving DecidableEq, Repr

/-- The members of a `ProfileTree`, with the store `nodes` of the nodes it has
allocated; `root_` is the node at position `0`. -/
structure ProfileTree where
  root_entry : Nat
  next_node_id : Nat
  nodes : List ProfileNode
  pending_nodes : List Nat
  next_function_id : Nat
  function_ids : UnorderedMap Nat Nat
  deriving DecidableEq, Repr

namespace ProfileTree

/-- The pointer `root_`. -/
def root_ : Nat := 0

/-- Modelled from the spec: the constructor of `ProfileNode` is defined outside
`profile-generator.cc`; the node takes "a freshly minted tree-wide id" and is pushed
"onto the tree's pending queue". The result is the tree and the pointer to the new node. -/
def newProfileNode (t : ProfileTree) (entry : Nat) (parent : Option Nat) :
    ProfileTree × Nat :=
  let node : ProfileNode :=
    { entry := entry, self_ticks := 0, children := [], children_list := [],
      parent := parent, id := t.next_node_id, line_ticks := [], deopt_infos := [] }
  ({ t with next_node_id := t.next_node_id + 1,
            nodes := t.nodes ++ [node],
            pending_nodes := t.pending_nodes ++ [t.nodes.length] },
   t.nodes.length)

/-- The constructor `ProfileTree::ProfileTree`: ids start at `1` and the root is the first node; the
address of the member `root_entry_` is given. -/
def new (root_entry : Nat) : ProfileTree :=
  (newProfileNode
    { root_entry := root_entry, next_node_id := 1, nodes := [], pending_nodes := [],
      next_function_id := 1, function_ids := [] }
    root_entry none).1

/-- An assignment to members of the node `node`. -/
def updateNode (t : ProfileTree) (node : Nat) (f : ProfileNode → ProfileNode) : ProfileTree :=
  { t with nodes := List.modify f node t.nodes }

/-- The function `ProfileNode::FindChild(entry)` on the node `node`. -/
def FindChild (t : ProfileTree) (node : Nat) (entry : Nat) : Option Nat :=
  match t.nodes[node]? with
  | some nd => UnorderedMap.find nd.children entry
  | none => none

/-- The function `ProfileNode::FindOrAddChild(entry)` on the node `node`. -/
def FindOrAddChild (t : ProfileTree) (node : Nat) (entry : Nat) : ProfileTree × Nat :=
  match FindChild t node entry with
  | none =>
    let (t, child) := newProfileNode t entry (some node)
    (updateNode t node (fun nd =>
        { nd with children := UnorderedMap.set nd.children entry child,
                  children_list := nd.children_list ++ [child] }),
     child)
  | some child => (t, child)

/-- Modelled from the spec: `ProfileNode::IncrementSelfTicks` is defined outside
`profile-generator.cc`; it adds one to the self-tick counter. -/
def nodeIncrementSelfTicks (nd : ProfileNode) : ProfileNode :=
  { nd with self_ticks := nd.self_ticks + 1 }

/-- The function `ProfileNode::IncrementLineTicks(src_line)`. -/
def nodeIncrementLineTicks (nd : ProfileNode) (src_line : Int) : ProfileNode :=
  if src_line = kNoLineNumberInfo then nd
  else
    match UnorderedMap.find nd.line_ticks src_line with
    | none => { nd with line_ticks := UnorderedMap.set nd.line_ticks src_line 1 }
    | some count => { nd with line_ticks := UnorderedMap.set nd.line_ticks src_line (count + 1) }

/-- The type `v8::CpuProfileNode::LineTick`: a source line and its hit counter. -/
structure LineTick where
  line : Int
  hit_count : Int
  deriving DecidableEq, Repr

/-- The loop of `GetLineTicks`, over the pairs of `line_ticks_` that are left: each one is
written to the slot `entry` of the array, and `entry` moves on by one. -/
def writeLineTicks : List (Int × Int) → Nat → List LineTick → List LineTick
  | [], _, buffer => buffer
  | p :: rest, entry, buffer =>
    writeLineTicks rest (entry + 1) (buffer.set entry { line := p.1, hit_count := p.2 })

/-- The function `ProfileNode::GetLineTicks(entries, length)` on the node `nd`, `buffer`
being the array that `entries` points to when it is not null: the value returned and the
array after the call. -/
def nodeGetLineTicks (nd : ProfileNode) (entries : Nat) (buffer : List LineTick)
    (length : Nat) : Bool × List LineTick :=
  if entries = nullptr ∨ length = 0 then (false, buffer)
  else
    let line_count := nd.line_ticks.length % 2 ^ 32
    if line_count = 0 then (true, buffer)
    else if length < line_count then (false, buffer)
    else (true, writeLineTicks nd.line_ticks 0 buffer)

/-- The lines that a sequence of `IncrementLineTicks` calls records, each once: the
arguments other than `kNoLineNumberInfo`. -/
def recordedLines (lines : List Int) : List Int :=
  (lines.filter (fun l => decide (l ≠ kNoLineNumberInfo))).dedup

/-- The call `node->IncrementSelfTicks()`. -/
def IncrementSelfTicks (t : ProfileTree) (node : Nat) : ProfileTree :=
  updateNode t node nodeIncrementSelfTicks

/-- The call `node->IncrementLineTicks(src_line)`. -/
def IncrementLineTicks (t : ProfileTree) (node : Nat) (src_line : Int) : ProfileTree :=
  updateNode t node (fun nd => nodeIncrementLineTicks nd src_line)

/-- The function `ProfileNode::CollectDeoptInfo(entry)` on the node `node`. -/
def CollectDeoptInfo (store : CodeEntryStore) (t : ProfileTree) (node : Nat) (entry : Nat) :
    CodeEntryStore × ProfileTree :=
  let info := CodeEntry.GetDeoptInfo (store entry)
  (Function.update store entry (CodeEntry.clear_deopt_info (store entry)),
   updateNode t node (fun nd => { nd with deopt_infos := nd.deopt_infos ++ [info] }))

/-- The state of the loop of `AddPathFromEnd`: the tree, `node` and `last_entry`. -/
structure PathState where
  tree : ProfileTree
  node : Nat
  last_entry : Nat

/-- The body of the loop of `AddPathFromEnd`, at the path element `e`. -/
def addPathStep (st : PathState) (e : Nat) : PathState :=
  if e = nullptr then st
  else
    let r := FindOrAddChild st.tree st.node e
    { tree := r.1, node := r.2, last_entry := e }

/-- The loop of `AddPathFromEnd`, over the path from its last element to its first. -/
def pathLoop (t : ProfileTree) (path : List Nat) : PathState :=
  path.reverse.foldl addPathStep { tree := t, node := root_, last_entry := nullptr }

/-- The part of `AddPathFromEnd` up to the collection of the deopt information: the
store of code entries and the tree after it. -/
def afterDeopt (store : CodeEntryStore) (t : ProfileTree) (path : List Nat) :
    CodeEntryStore × ProfileTree :=
  let st := pathLoop t path
  if st.last_entry ≠ nullptr ∧ CodeEntry.has_deopt_info (store st.last_entry) = true then
    CollectDeoptInfo store st.tree st.node st.last_entry
  else (store, st.tree)

/-- The function `ProfileTree::AddPathFromEnd(path, src_line, update_stats)`: the store of code
entries and the tree after the call, and the node returned. -/
def AddPathFromEnd (store : CodeEntryStore) (t : ProfileTree) (path : List Nat)
    (src_line : Int) (update_stats : Bool) : CodeEntryStore × ProfileTree × Nat :=
  let node := (pathLoop t path).node
  let r := afterDeopt store t path
  let t :=
    if update_stats then
      let t := IncrementSelfTicks r.2 node
      if src_line ≠ kNoLineNumberInfo then IncrementLineTicks t node src_line else t
    else r.2
  (r.1, t, node)

/-- The walk from a node up the `parent` pointers, with the entries met on the way in
root-to-node order; `none` when the walk does not end at the root within `fuel` steps. -/
def entryChainAux (nodes : List ProfileNode) : Nat → Nat → Option (List Nat)
  | 0, _ => none
  | fuel + 1, n =>
    match nodes[n]? with
    | none => none
    | some nd =>
      match nd.parent with
      | none => if n = root_ then some [] else none
      | some p => (entryChainAux nodes fuel p).map (fun l => l ++ [nd.entry])

/-- The chain of code entries read from the child of the root down to the node `n`. -/
def entryChain (t : ProfileTree) (n : Nat) : Option (List Nat) :=
  entryChainAux t.nodes t.nodes.length n

/-- The self-tick counter of the node `n`; a node the tree does not have counts `0`. -/
def selfTicks (t : ProfileTree) (n : Nat) : Nat :=
  match t.nodes[n]? with
  | some nd => nd.self_ticks
  | none => 0

/-- The tick counter of the node `n` for the line `line`; a line the node has no
counter for, and a node the tree does not have, count `0`. -/
def lineTicks (t : ProfileTree) (n : Nat) (line : Int) : Int :=
  match t.nodes[n]? with
  | some nd => (UnorderedMap.find nd.line_ticks line).getD 0
  | none => 0

/-- The shape of a profile tree: the root is allocated and has no parent, a parent is
allocated before its children, and each pair of a child map is the entry and the
address of an allocated node with that entry and that parent. -/
def WF (t : ProfileTree) : Prop :=
  (∃ r : ProfileNode, t.nodes[root_]? = some r ∧ r.parent = none) ∧
  (∀ (i : Nat) (nd : ProfileNode) (p : Nat),
    t.nodes[i]? = some nd → nd.parent = some p → p < i) ∧
  (∀ (p : Nat) (nd : ProfileNode) (e c : Nat),
    t.nodes[p]? = some nd → UnorderedMap.find nd.children e = some c →
    ∃ cd : ProfileNode, t.nodes[c]? = some cd ∧ cd.parent = some p ∧ cd.entry = e)

/-- A parent is allocated before its children. -/
def ParentBelow (nodes : List ProfileNode) : Prop :=
  ∀ (i : Nat) (nd : ProfileNode) (p : Nat), nodes[i]? = some nd → nd.parent = some p → p < i

/-- What a step of `AddPathFromEnd` keeps of the tree `t` in the tree `t'`: the nodes of
`t` are nodes of `t'` with the same parent and entry, and every counter has the value
it had, those of the nodes added being `0`. -/
def Preserves (t t' : ProfileTree) : Prop :=
  t.nodes.length ≤ t'.nodes.length ∧
  (∀ i, i < t.nodes.length → (t'.nodes[i]?).map (fun nd => (nd.parent, nd.entry))
      = (t.nodes[i]?).map (fun nd => (nd.parent, nd.entry))) ∧
  (∀ i, selfTicks t' i = selfTicks t i) ∧
  (∀ i line, lineTicks t' i line = lineTicks t i line)

/-- What `AddPathFromEnd` keeps of the ids and of the queue of pending nodes of the tree
`t` in the tree `t'`: the nodes of `t` are nodes of `t'` with the same id, and the queue
has grown by the nodes added, in the order of their creation. -/
def Extends (t t' : ProfileTree) : Prop :=
  t.nodes.length ≤ t'.nodes.length ∧
  (∀ i, i < t.nodes.length →
    (t'.nodes[i]?).map (fun nd => nd.id) = (t.nodes[i]?).map (fun nd => nd.id)) ∧
  t'.pending_nodes
    = t.pending_nodes ++ List.range' t.nodes.length (t'.nodes.length - t.nodes.length)

/-- The links of a profile tree: ids are given in the order of creation, starting at `1`;
every node other than the root is stored in the child map of its parent under its entry;
and for every node the child list holds the nodes of the child map, in the order of
their insertion, the keys of the map being distinct. -/
def Linked (t : ProfileTree) : Prop :=
  t.next_node_id = t.nodes.length + 1 ∧
  (∀ (i : Nat) (nd : ProfileNode), t.nodes[i]? = some nd → nd.id = i + 1) ∧
  (∀ (i : Nat) (nd : ProfileNode), t.nodes[i]? = some nd → i ≠ root_ →
    ∃ (p : Nat) (pd : ProfileNode), nd.parent = some p ∧ t.nodes[p]? = some pd ∧
      UnorderedMap.find pd.children nd.entry = some i) ∧
  (∀ (p : Nat) (pd : ProfileNode), t.nodes[p]? = some pd →
    pd.children.map Prod.snd = pd.children_list ∧ (pd.children.map Prod.fst).Nodup ∧
    pd.children_list.Pairwise (fun a b => a < b))

/-- The class `Position`: a node and the index of its current child. -/
structure Position where
  node : Nat
  child_idx : Nat
  deriving DecidableEq, Repr

/-- The calls that `TraverseDepthFirst` makes on its callback. -/
inductive CallbackCall where
  | BeforeTraversingChild (parent child : Nat)
  | AfterAllChildrenTraversed (node : Nat)
  | AfterChildTraversed (parent child : Nat)
  deriving DecidableEq, Repr

/-- The expression `node->children()`: the child list of the node; a node that the tree
does not have has no children. -/
def childrenOf (t : ProfileTree) (node : Nat) : List Nat :=
  match t.nodes[node]? with
  | some nd => nd.children_list
  | none => []

/-- The expression `node->parent()`. -/
def parentOf (t : ProfileTree) (node : Nat) : Option Nat :=
  match t.nodes[node]? with
  | some nd => nd.parent
  | none => none

/-- The body of the loop of `TraverseDepthFirst`, on the stack (its back is the head of
the list) and the calls made so far; with an empty stack the loop is over and nothing
changes. -/
def traverseStep (t : ProfileTree) (s : List Position × List CallbackCall) :
    List Position × List CallbackCall :=
  match s.1 with
  | [] => s
  | current :: below =>
    if current.child_idx < (childrenOf t current.node).length then
      let child := (childrenOf t current.node).getD current.child_idx nullptr
      (Position.mk child 0 :: current :: below,
       s.2 ++ [CallbackCall.BeforeTraversingChild current.node child])
    else
      match below with
      | [] => ([], s.2 ++ [CallbackCall.AfterAllChildrenTraversed current.node])
      | parent :: rest =>
        ({ parent with child_idx := parent.child_idx + 1 } :: rest,
         s.2 ++ [CallbackCall.AfterAllChildrenTraversed current.node,
                 CallbackCall.AfterChildTraversed parent.node current.node])

/-- The loop of `TraverseDepthFirst`, for at most `fuel` rounds: the calls made when the
stack gets empty within them, else `none`. -/
def traverseLoop (t : ProfileTree) :
    Nat → List Position × List CallbackCall → Option (List CallbackCall)
  | 0, s => if s.1.isEmpty then some s.2 else none
  | fuel + 1, s => if s.1.isEmpty then some s.2 else traverseLoop t fuel (traverseStep t s)

/-- The function `ProfileTree::TraverseDepthFirst(callback)`, for at most `fuel` rounds of
its loop: the calls made on the callback, in their order. -/
def TraverseDepthFirst (t : ProfileTree) (fuel : Nat) : Option (List CallbackCall) :=
  traverseLoop t fuel ([Position.mk root_ 0], [])

/-- The recursive post-order traversal, as the spec words it, from the node `node` and
down to the depth `depth`: for each child in the order of insertion the call
`BeforeTraversingChild`, the traversal of the child and the call `AfterChildTraversed`,
and then the call `AfterAllChildrenTraversed` of the node. -/
def specPostOrder (t : ProfileTree) : Nat → Nat → List CallbackCall
  | 0, node => [CallbackCall.AfterAllChildrenTraversed node]
  | depth + 1, node =>
    (childrenOf t node).flatMap (fun child =>
      CallbackCall.BeforeTraversingChild node child :: specPostOrder t depth child
        ++ [CallbackCall.AfterChildTraversed node child])
    ++ [CallbackCall.AfterAllChildrenTraversed node]

/-- The nodes of the calls `AfterAllChildrenTraversed` among a list of calls, in their
order. -/
def visited : List CallbackCall → List Nat
  | [] => []
  | CallbackCall.AfterAllChildrenTraversed node :: rest => node :: visited rest
  | _ :: rest => visited rest

/-- The profile trees reachable from a new tree by `AddPathFromEnd` calls. -/
inductive ReachableTree : ProfileTree → Prop
  | create (root_entry : Nat) : ReachableTree (ProfileTree.new root_entry)
  | addPath {t : ProfileTree} (store : CodeEntryStore) (path : List Nat) (src_line : Int)
      (update_stats : Bool) :
      ReachableTree t → ReachableTree (AddPathFromEnd store t path src_line update_stats).2.1

end ProfileTree

/-! ## ProfileGenerator -/

/-- Modelled from the spec: the enumeration `StateTag` is declared outside
`profile-generator.cc`; these are the states `EntryForVMState` tells apart. -/
inductive StateTag where
  | JS | GC | PARSER | BYTECODE_COMPILER | COMPILER | OTHER | EXTERNAL | IDLE
  deriving DecidableEq, Repr

/-- Modelled from the spec: the record `TickSample` is declared outside
`profile-generator.cc`; these are the members the spec lists. The array `stack` is the
list of its slots, and a slot the list does not have reads as the null address. -/
structure TickSample where
  pc : Nat
  tos : Nat
  external_callback_entry : Nat
  has_external_callback : Bool
  state : StateTag
  timestamp : Nat
  frames_count : Nat
  stack : List Nat
  update_stats : Bool
  deriving DecidableEq, Repr

/-- The conversion `static_cast<int>` of a machine word: its low 32 bits, as a signed
number. -/
def toInt32 (x : Nat) : Int :=
  if x % 2 ^ 32 < 2 ^ 31 then ((x % 2 ^ 32 : Nat) : Int) else ((x % 2 ^ 32 : Nat) : Int) - 2 ^ 32

/-- The expression `static_cast<int>(pos - entry->instruction_start())`. -/
def pcOffset (pos instruction_start : Nat) : Int := toInt32 (addrSub pos instruction_start)

/-- What `RecordTickSample` reads: the code map, the store of code entries, the
well-known entries `CodeEntry::program_entry()`, `gc_entry()`, `idle_entry()` and
`unresolved_entry()`, and the flag `FLAG_prof_browser_mode`. -/
structure ProfileGenerator where
  code_map : CodeMap
  store : CodeEntryStore
  program_entry : Nat
  gc_entry : Nat
  idle_entry : Nat
  unresolved_entry : Nat
  FLAG_prof_browser_mode : Bool

/-- The arguments with which `RecordTickSample` calls `AddPathToCurrentProfiles`. -/
structure PathSubmission where
  timestamp : Nat
  path : List Nat
  src_line : Int
  update_stats : Bool

namespace ProfileGenerator

/-- The function `ProfileGenerator::EntryForVMState(tag)`. -/
def EntryForVMState (g : ProfileGenerator) (tag : StateTag) : Nat :=
  match tag with
  | StateTag.GC => g.gc_entry
  | StateTag.JS => g.program_entry
  | StateTag.PARSER => g.program_entry
  | StateTag.COMPILER => g.program_entry
  | StateTag.BYTECODE_COMPILER => g.program_entry
  | StateTag.OTHER => g.program_entry
  | StateTag.EXTERNAL => g.program_entry
  | StateTag.IDLE => g.idle_entry

/-- Modelled from the spec: `ProfileGenerator::FindEntry` is defined outside
`profile-generator.cc`; it is the lookup `find_entry` in the code map. -/
def FindEntry (g : ProfileGenerator) (address : Nat) : Nat :=
  CodeMap.FindEntry g.code_map address

/-- The locals `entries`, `src_line` and `src_line_not_found` of `RecordTickSample`. -/
structure SampleState where
  entries : List Nat
  src_line : Int
  src_line_not_found : Bool

/-- The statements `src_line = entry->GetSourceLine(pc_offset);
if (src_line == kNoLineNumberInfo) src_line = entry->line_number();`. -/
def sourceLine (e : CodeEntry) (pc_offset : Int) : Int :=
  let src_line := CodeEntry.GetSourceLine e pc_offset
  if src_line = kNoLineNumberInfo then e.line_number else src_line

/-- The first part of `RecordTickSample`, inside `if (sample.pc != nullptr)`: the
resolution of the top of the stack. -/
def topOfStack (g : ProfileGenerator) (sample : TickSample) (st : SampleState) : SampleState :=
  if sample.has_external_callback = true ∧ sample.state = StateTag.EXTERNAL then
    { st with entries := st.entries ++ [FindEntry g sample.external_callback_entry] }
  else
    let pc_entry := FindEntry g sample.pc
    let pc_entry :=
      if pc_entry = nullptr ∧ sample.has_external_callback = false then FindEntry g sample.tos
      else pc_entry
    if pc_entry ≠ nullptr then
      let pc_offset := pcOffset sample.pc (g.store pc_entry).instruction_start
      let st : SampleState :=
        { entries := st.entries ++ [pc_entry],
          src_line := sourceLine (g.store pc_entry) pc_offset,
          src_line_not_found := false }
      if (g.store pc_entry).builtin_id = BuiltinsName.kFunctionPrototypeApply ∨
          (g.store pc_entry).builtin_id = BuiltinsName.kFunctionPrototypeCall then
        if sample.has_external_callback = false then
          { st with entries := st.entries ++ [g.unresolved_entry] }
        else st
      else st
    else st

/-- The body of the loop over the stack frames, at `stack_pos = sample.stack[i]`. -/
def stackFrame (g : ProfileGenerator) (st : SampleState) (stack_pos : Nat) : SampleState :=
  let entry := FindEntry g stack_pos
  let st :=
    if entry ≠ nullptr then
      let pc_offset := pcOffset stack_pos (g.store entry).instruction_start
      let st :=
        match CodeEntry.GetInlineStack (g.store entry) pc_offset with
        | some inline_stack => { st with entries := st.entries ++ inline_stack.reverse }
        | none => st
      if st.src_line_not_found = true then
        { st with src_line := sourceLine (g.store entry) pc_offset,
                  src_line_not_found := false }
      else st
    else st
  { st with entries := st.entries ++ [entry] }

/-- The addresses `sample.stack[i]` for `i < sample.frames_count`, in index order. -/
def sampleFrames (sample : TickSample) : List Nat :=
  (List.range sample.frames_count).map (fun i => sample.stack.getD i nullptr)

/-- The loop `for (unsigned i = 0; i < sample.frames_count; ++i)`. -/
def stackWalk (g : ProfileGenerator) (sample : TickSample) (st : SampleState) : SampleState :=
  (sampleFrames sample).foldl (stackFrame g) st

/-- The entries that the part under `if (FLAG_prof_browser_mode)` pushes after
`entries`. -/
def vmStateEntries (g : ProfileGenerator) (sample : TickSample) (entries : List Nat) :
    List Nat :=
  if g.FLAG_prof_browser_mode = true then
    let no_symbolized_entries := entries.all (fun e => decide (e = nullptr))
    if no_symbolized_entries = true then [EntryForVMState g sample.state] else []
  else []

/-- The function `ProfileGenerator::RecordTickSample(sample)`, up to the call of
`AddPathToCurrentProfiles`: the arguments of that call. -/
def RecordTickSample (g : ProfileGenerator) (sample : TickSample) : PathSubmission :=
  let st : SampleState :=
    { entries := [], src_line := kNoLineNumberInfo, src_line_not_found := true }
  let st := if sample.pc ≠ nullptr then stackWalk g sample (topOfStack g sample st) else st
  let entries := st.entries ++ vmStateEntries g sample st.entries
  { timestamp := sample.timestamp, path := entries, src_line := st.src_line,
    update_stats := sample.update_stats }

/-! ### The attribution as the spec words it -/

/-- The `pc_entry` of the spec: "`pc_entry = find_entry(pc)`; if none and no external
callback, try `find_entry(tos)`". -/
def specPcEntry (g : ProfileGenerator) (sample : TickSample) : Nat :=
  if FindEntry g sample.pc = nullptr ∧ sample.has_external_callback = false then
    FindEntry g sample.tos
  else FindEntry g sample.pc

/-- The entries that the resolution of the top of the stack contributes, as the spec
words them: the entry of the external callback alone in an external callback in state
`EXTERNAL`; else nothing without a `pc_entry`, the `pc_entry` and the unresolved entry
at the `apply` and `call` builtins outside an external callback, and the `pc_entry`
alone in every other case. -/
def specTopEntries (g : ProfileGenerator) (sample : TickSample) : List Nat :=
  if sample.has_external_callback = true ∧ sample.state = StateTag.EXTERNAL then
    [FindEntry g sample.external_callback_entry]
  else if specPcEntry g sample = nullptr then []
  else if ((g.store (specPcEntry g sample)).builtin_id = BuiltinsName.kFunctionPrototypeApply ∨
      (g.store (specPcEntry g sample)).builtin_id = BuiltinsName.kFunctionPrototypeCall) ∧
      sample.has_external_callback = false then
    [specPcEntry g sample, g.unresolved_entry]
  else [specPcEntry g sample]

/-- The inline stack `[I1, ..., In]` stored for the frame at `stack_pos`, empty when the
frame resolves to no entry or the entry has no inline stack at that offset. -/
def specInlineStack (g : ProfileGenerator) (stack_pos : Nat) : List Nat :=
  if FindEntry g stack_pos = nullptr then []
  else
    (CodeEntry.GetInlineStack (g.store (FindEntry g stack_pos))
      (pcOffset stack_pos (g.store (FindEntry g stack_pos)).instruction_start)).getD []

/-- The entries that the stack frame at `stack_pos` contributes to the path, as the spec
words them: `In, ..., I1, E` for an entry `E` with the inline stack `[I1, ..., In]`,
just `E` without an inline stack, and null without an entry. -/
def specFrameEntries (g : ProfileGenerator) (stack_pos : Nat) : List Nat :=
  (specInlineStack g stack_pos).reverse ++ [FindEntry g stack_pos]

/-- The part of the tree chain that belongs to the stack frame at `stack_pos`, read from
the root side: `E, I1, ..., In`. -/
def specFrameChain (g : ProfileGenerator) (stack_pos : Nat) : List Nat :=
  FindEntry g stack_pos :: specInlineStack g stack_pos

/-- The source line of the frame at `pos` that resolves to `entry`: the line the
entry has for the pc offset, replaced by the line number of the entry when that is
`kNoLineNumberInfo`. -/
def specFrameLine (g : ProfileGenerator) (pos entry : Nat) : Int :=
  if CodeEntry.GetSourceLine (g.store entry) (pcOffset pos (g.store entry).instruction_start)
      = kNoLineNumberInfo then
    (g.store entry).line_number
  else
    CodeEntry.GetSourceLine (g.store entry) (pcOffset pos (g.store entry).instruction_start)

/-- The `src_line` as C10 words it, with no regard to `sample.pc` being null: the line
of the `pc_entry` if one was found outside the external-callback branch, else the line
of the first stack frame that resolves to an entry, else `kNoLineNumberInfo`. -/
def specSrcLine (g : ProfileGenerator) (sample : TickSample) : Int :=
  if ¬ (sample.has_external_callback = true ∧ sample.state = StateTag.EXTERNAL) ∧
      specPcEntry g sample ≠ nullptr then
    specFrameLine g sample.pc (specPcEntry g sample)
  else
    match (sampleFrames sample).find? (fun pos => decide (FindEntry g pos ≠ nullptr)) with
    | some pos => specFrameLine g pos (FindEntry g pos)
    | none => kNoLineNumberInfo

end ProfileGenerator

/-! ## CpuProfile -/

namespace ProfileTree

/-- The expression `node->id()`; a node the tree does not have reads `0`. -/
def nodeId (t : ProfileTree) (node : Nat) : Nat :=
  match t.nodes[node]? with
  | some nd => nd.id
  | none => 0

/-- Modelled from the spec: `ProfileTree::TakePendingNodes` is defined outside
`profile-generator.cc`; it is to "drain and return the pending queue (in creation
order)". The result is the tree and the queue returned. -/
def TakePendingNodes (t : ProfileTree) : ProfileTree × List Nat :=
  ({ t with pending_nodes := [] }, t.pending_nodes)

/-- Modelled from the spec: `ProfileTree::pending_nodes_count` is defined outside
`profile-generator.cc`; it is the length of the queue of pending nodes. -/
def pending_nodes_count (t : ProfileTree) : Nat := t.pending_nodes.length

end ProfileTree

/-- The dictionary that `BuildNodeValue` writes for a node; a key that is left out is
`none`. -/
structure NodeValue where
  functionName : String
  url : Option String
  scriptId : Int
  lineNumber : Option Int
  columnNumber : Option Int
  id : Nat
  parent : Option Nat
  deoptReason : Option String
  deriving DecidableEq, Repr

/-- The dictionary `cpuProfile` of a `ProfileChunk` event. -/
structure CpuProfileValue where
  nodes : Option (List NodeValue)
  samples : Option (List Nat)
  deriving DecidableEq, Repr

/-- The value `data` of a `ProfileChunk` event. -/
structure ChunkData where
  cpuProfile : Option CpuProfileValue
  timeDeltas : Option (List Int)
  endTime : Option Int
  deriving DecidableEq, Repr

/-- The trace events of a profile: `Profile` with its `startTime`, and `ProfileChunk`. -/
inductive TraceEvent where
  | Profile (startTime : Int)
  | ProfileChunk (data : ChunkData)
  deriving DecidableEq, Repr

/-- The function `BuildNodeValue(node, value)`: the dictionary written for the node `node`
of the tree `t`. -/
def BuildNodeValue (store : CodeEntryStore) (t : ProfileTree) (node : Nat) : NodeValue :=
  match t.nodes[node]? with
  | none =>
    { functionName := "", url := none, scriptId := 0, lineNumber := none,
      columnNumber := none, id := 0, parent := none, deoptReason := none }
  | some nd =>
    let entry := store nd.entry
    { functionName := entry.name,
      url := if entry.resource_name ≠ "" then some entry.resource_name else none,
      scriptId := entry.script_id,
      lineNumber := if entry.line_number ≠ 0 then some (entry.line_number - 1) else none,
      columnNumber := if entry.column_number ≠ 0 then some (entry.column_number - 1) else none,
      id := nd.id,
      parent := nd.parent.map (ProfileTree.nodeId t),
      deoptReason :=
        if entry.bailout_reason ≠ "" ∧ entry.bailout_reason ≠ "no reason" then
          some entry.bailout_reason
        else none }

/-- The members of a `CpuProfile`. A time is a number of microseconds, the null time
being `0`. -/
structure CpuProfile where
  title : String
  record_samples : Bool
  start_time : Int
  end_time : Int
  top_down : ProfileTree
  timestamps : List Int
  samples : List Nat
  streaming_next_sample : Nat
  deriving DecidableEq, Repr

namespace CpuProfile

/-- The constant `kSamplesFlushCount` of `AddPath`. -/
def kSamplesFlushCount : Nat := 100

/-- The constant `kNodesFlushCount` of `AddPath`. -/
def kNodesFlushCount : Nat := 10

/-- The constructor `CpuProfile::CpuProfile`, at the time `now`, with the address of the
root entry of its tree: the profile and the `Profile` event it emits. -/
def new (title : String) (record_samples : Bool) (now : Int) (root_entry : Nat) :
    CpuProfile × List TraceEvent :=
  ({ title := title, record_samples := record_samples, start_time := now, end_time := 0,
     top_down := ProfileTree.new root_entry, timestamps := [], samples := [],
     streaming_next_sample := 0 },
   [TraceEvent.Profile now])

/-- The loop that fills `timeDeltas`: for each timestamp the difference to the one before
it, `lastTimestamp` at first, converted by `static_cast<int>`. -/
def timeDeltas (lastTimestamp : Int) : List Int → List Int
  | [] => []
  | t :: ts => toInt32 (toUInt32 (t - lastTimestamp)) :: timeDeltas t ts

/-- The function `CpuProfile::StreamPendingTraceEvents()`: the profile after the call and
the events emitted. -/
def StreamPendingTraceEvents (store : CodeEntryStore) (p : CpuProfile) :
    CpuProfile × List TraceEvent :=
  let r := ProfileTree.TakePendingNodes p.top_down
  let pending_nodes := r.2
  let p := { p with top_down := r.1 }
  if pending_nodes.isEmpty = true ∧ p.samples.isEmpty = true then (p, [])
  else
    let cpuProfile : Option CpuProfileValue :=
      if pending_nodes.isEmpty = false ∨ p.streaming_next_sample ≠ p.samples.length then
        some
          { nodes :=
              if pending_nodes.isEmpty = false then
                some (pending_nodes.map (BuildNodeValue store p.top_down))
              else none,
            samples :=
              if p.streaming_next_sample ≠ p.samples.length then
                some ((p.samples.drop p.streaming_next_sample).map
                  (ProfileTree.nodeId p.top_down))
              else none }
      else none
    if p.streaming_next_sample ≠ p.samples.length then
      let lastTimestamp :=
        if p.streaming_next_sample ≠ 0 then p.timestamps.getD (p.streaming_next_sample - 1) 0
        else p.start_time
      ({ p with streaming_next_sample := p.samples.length },
       [TraceEvent.ProfileChunk
          { cpuProfile := cpuProfile,
            timeDeltas := some (timeDeltas lastTimestamp
              (p.timestamps.drop p.streaming_next_sample)),
            endTime := none }])
    else
      (p, [TraceEvent.ProfileChunk
          { cpuProfile := cpuProfile, timeDeltas := none, endTime := none }])

/-- The function `CpuProfile::AddPath(timestamp, path, src_line, update_stats)`: the
store of code entries and the profile after the call and the events emitted. -/
def AddPath (store : CodeEntryStore) (p : CpuProfile) (timestamp : Int) (path : List Nat)
    (src_line : Int) (update_stats : Bool) : CodeEntryStore × CpuProfile × List TraceEvent :=
  let r := ProfileTree.AddPathFromEnd store p.top_down path src_line update_stats
  let top_frame_node := r.2.2
  let p := { p with top_down := r.2.1 }
  let p :=
    if p.record_samples = true ∧ timestamp ≠ 0 then
      { p with timestamps := p.timestamps ++ [timestamp],
               samples := p.samples ++ [top_frame_node] }
    else p
  if addrSub p.samples.length p.streaming_next_sample ≥ kSamplesFlushCount ∨
      ProfileTree.pending_nodes_count p.top_down ≥ kNodesFlushCount then
    (r.1, StreamPendingTraceEvents r.1 p)
  else (r.1, p, [])

/-- The function `CpuProfile::FinishProfile()`, at the time `now`: the profile after the
call and the events emitted. -/
def FinishProfile (store : CodeEntryStore) (p : CpuProfile) (now : Int) :
    CpuProfile × List TraceEvent :=
  let r := StreamPendingTraceEvents store { p with end_time := now }
  (r.1, r.2 ++ [TraceEvent.ProfileChunk
      { cpuProfile := none, timeDeltas := none, endTime := some now }])

/-- The arguments of a call of `AddPath`. -/
structure PathCall where
  timestamp : Int
  path : List Nat
  src_line : Int
  update_stats : Bool
  deriving DecidableEq, Repr

/-- The state of a run of a profile: the store of code entries, the profile and the
events emitted so far. -/
structure Run where
  store : CodeEntryStore
  profile : CpuProfile
  events : List TraceEvent

/-- A call of `AddPath` in a run. -/
def Run.addPath (r : Run) (c : PathCall) : Run :=
  let a := AddPath r.store r.profile c.timestamp c.path c.src_line c.update_stats
  { store := a.1, profile := a.2.1, events := r.events ++ a.2.2 }

/-- The call of `FinishProfile` in a run. -/
def Run.finish (r : Run) (now : Int) : Run :=
  let f := FinishProfile r.store r.profile now
  { store := r.store, profile := f.1, events := r.events ++ f.2 }

/-- The run of a profile from its construction through a sequence of `AddPath` calls to
`FinishProfile`. -/
def record (store : CodeEntryStore) (title : String) (record_samples : Bool) (start : Int)
    (root_entry : Nat) (calls : List PathCall) (finish : Int) : Run :=
  Run.finish
    (calls.foldl Run.addPath
      { store := store, profile := (new title record_samples start root_entry).1,
        events := (new title record_samples start root_entry).2 })
    finish

end CpuProfile

/-! ### The stream of trace events -/

/-- The array `samples` of a trace event, empty for an event without one. -/
def chunkSamples : TraceEvent → List Nat
  | TraceEvent.Profile _ => []
  | TraceEvent.ProfileChunk data =>
    match data.cpuProfile with
    | some cpuProfile => cpuProfile.samples.getD []
    | none => []

/-- The array `nodes` of a trace event, empty for an event without one. -/
def chunkNodes : TraceEvent → List NodeValue
  | TraceEvent.Profile _ => []
  | TraceEvent.ProfileChunk data =>
    match data.cpuProfile with
    | some cpuProfile => cpuProfile.nodes.getD []
    | none => []

/-- The array `timeDeltas` of a trace event, empty for an event without one. -/
def chunkTimeDeltas : TraceEvent → List Int
  | TraceEvent.Profile _ => []
  | TraceEvent.ProfileChunk data => data.timeDeltas.getD []

/-- An item of the stream that names a node: a node record, or the id in a `samples`
array. -/
inductive Emission where
  | node (value : NodeValue)
  | sample (id : Nat)
  deriving DecidableEq, Repr

/-- The node records and sample ids of a sequence of trace events in the order of
emission, the node records of a chunk before its sample ids. -/
def emissions (events : List TraceEvent) : List Emission :=
  events.flatMap (fun ev =>
    (chunkNodes ev).map Emission.node ++ (chunkSamples ev).map Emission.sample)

/-- The ids of the node records among a list of emissions. -/
def emittedIds : List Emission → List Nat
  | [] => []
  | Emission.node value :: rest => value.id :: emittedIds rest
  | Emission.sample _ :: rest => emittedIds rest

/-- The emissions `l`, coming after node records of the ids `seen`, name emitted nodes
only: the `parent` of a node record is the id of a record before it, and a sample id is
the id of a record before it. -/
def closedFrom (seen : List Nat) : List Emission → Prop
  | [] => True
  | Emission.node value :: rest =>
    (∀ pid, value.parent = some pid → pid ∈ seen) ∧ closedFrom (seen ++ [value.id]) rest
  | Emission.sample id :: rest => id ∈ seen ∧ closedFrom seen rest

/-- Every difference between a timestamp of the list and the one before it,
`lastTimestamp` at first, is a value of the type `int`. -/
def gapsFit (lastTimestamp : Int) : List Int → Prop
  | [] => True
  | t :: ts =>
    -(2 : Int) ^ 31 ≤ t - lastTimestamp ∧ t - lastTimestamp < (2 : Int) ^ 31 ∧ gapsFit t ts

instance decGapsFit : ∀ (lastTimestamp : Int) (ts : List Int),
    Decidable (gapsFit lastTimestamp ts)
  | _, [] => isTrue trivial
  | lastTimestamp, t :: ts =>
    have := decGapsFit t ts
    inferInstanceAs (Decidable
      (-(2 : Int) ^ 31 ≤ t - lastTimestamp ∧ t - lastTimestamp < (2 : Int) ^ 31 ∧ gapsFit t ts))

/-- What holds of a profile and of the events it has emitted between the calls of its
member functions. The tree is well shaped and every sample is a node of it; each sample
has its timestamp; the samples and time deltas emitted are those of the samples before
`streaming_next_sample`; the node records emitted are those of the nodes that are no
more pending, the pending ones being the nodes created since; and the emissions name
emitted nodes only. -/
def StreamInv (p : CpuProfile) (events : List TraceEvent) : Prop :=
  ProfileTree.WF p.top_down ∧
  p.timestamps.length = p.samples.length ∧
  p.streaming_next_sample ≤ p.samples.length ∧
  (∀ s ∈ p.samples, s < p.top_down.nodes.length) ∧
  events.flatMap chunkSamples
    = (p.samples.take p.streaming_next_sample).map (ProfileTree.nodeId p.top_down) ∧
  events.flatMap chunkTimeDeltas
    = CpuProfile.timeDeltas p.start_time (p.timestamps.take p.streaming_next_sample) ∧
  (∀ ev ∈ events, (chunkTimeDeltas ev).length = (chunkSamples ev).length) ∧
  (∃ k, k ≤ p.top_down.nodes.length ∧
    p.top_down.pending_nodes = List.range' k (p.top_down.nodes.length - k) ∧
    emittedIds (emissions events) = (List.range' 0 k).map (ProfileTree.nodeId p.top_down)) ∧
  closedFrom [] (emissions events)

/-! ## CpuProfilesCollection -/

/-- Modelled from the spec: the constant `kMaxSimultaneousProfiles` is declared outside
`profile-generator.cc`; the spec has "`kMaxSimultaneousProfiles` (recommended 100)". -/
def kMaxSimultaneousProfiles : Nat := 100

/-- The members `current_profiles_` and `finished_profiles_` of a
`CpuProfilesCollection`. -/
structure CpuProfilesCollection where
  current_profiles : List CpuProfile
  finished_profiles : List CpuProfile
  deriving DecidableEq, Repr

namespace CpuProfilesCollection

/-- The function `CpuProfilesCollection::StartProfiling(title, record_samples)`, at the
time `now`, with the address of the root entry of the tree of a new profile: the
collection after the call, the value returned and the events emitted. -/
def StartProfiling (c : CpuProfilesCollection) (title : String) (record_samples : Bool)
    (now : Int) (root_entry : Nat) : CpuProfilesCollection × Bool × List TraceEvent :=
  if c.current_profiles.length ≥ kMaxSimultaneousProfiles then (c, false, [])
  else if c.current_profiles.any (fun profile => decide (profile.title = title)) = true then
    (c, true, [])
  else
    let r := CpuProfile.new title record_samples now root_entry
    ({ c with current_profiles := c.current_profiles ++ [r.1] }, true, r.2)

/-- The predicate of the search of `StopProfiling`: the title asked for is empty or is
the title of the profile. -/
def matchesTitle (title : String) (p : CpuProfile) : Bool :=
  decide (title.length = 0 ∨ p.title = title)

/-- The function `CpuProfilesCollection::StopProfiling(title)`, at the time `now`: the
collection after the call, the profile returned (`none` for the null pointer) and the
events emitted. -/
def StopProfiling (store : CodeEntryStore) (c : CpuProfilesCollection) (title : String)
    (now : Int) : CpuProfilesCollection × Option CpuProfile × List TraceEvent :=
  let it := c.current_profiles.reverse.findIdx (matchesTitle title)
  if it < c.current_profiles.length then
    let pos := c.current_profiles.length - 1 - it
    match c.current_profiles[pos]? with
    | some p =>
      let r := CpuProfile.FinishProfile store p now
      ({ current_profiles := c.current_profiles.eraseIdx pos,
         finished_profiles := c.finished_profiles ++ [r.1] },
       some r.1, r.2)
    | none => (c, none, [])
  else (c, none, [])

end CpuProfilesCollection

/-! ## The entries of the scenarios -/

/-- A code entry with a name and a line number and nothing else: no script, no
builtin id, no source position table, no inline stack and no deopt information. -/
def plainEntry (name : String) (line_number : Int) (instruction_start : Nat) : CodeEntry :=
  { tag := 0, builtin_id := BuiltinsName.other 0, name_prefix_ := "", name := name,
    resource_name := "", line_number := line_number, column_number := 0,
    script_id := kNoScriptId, position := 0, bailout_reason := "",
    deopt_reason := kNoDeoptReason, deopt_id := kNoDeoptimizationId,
    instruction_start := instruction_start, line_info := none, inline_locations := [],
    deopt_inlined_frames := [] }

/-- A store in which every address holds a plain entry named `f`. -/
def plainStore : CodeEntryStore := fun _ => plainEntry "f" 0 0

/-- The code entries of scenario S2: the entry `A` at address `1`, whose code starts at
`0x1000` and has the inline stack `[I1, I2]` at pc offset `0x10`, and the inlined
entries `I1` at address `2` and `I2` at address `3`. -/
def storeS2 : CodeEntryStore := fun p =>
  if p = 1 then
    { plainEntry "A" 7 0x1000 with inline_locations := [(0x10, [2, 3])] }
  else if p = 2 then plainEntry "I1" 0 0
  else plainEntry "I2" 0 0

/-- The profile generator of scenario S2: `A` covers `[0x1000, 0x1100)`; browser mode is
off. -/
def generatorS2 : ProfileGenerator :=
  { code_map := CodeMap.AddCode [] 0x1000 1 0x100, store := storeS2, program_entry := 10,
    gc_entry := 11, idle_entry := 12, unresolved_entry := 13,
    FLAG_prof_browser_mode := false }

/-- The sample of scenario S2: `pc = 0x1020` and one stack frame at `0x1010`. -/
def sampleS2 : TickSample :=
  { pc := 0x1020, tos := 0, external_callback_entry := 0, has_external_callback := false,
    state := StateTag.JS, timestamp := 100, frames_count := 1, stack := [0x1010],
    update_stats := true }

/-- A profile generator whose code map has the entry `A`, at address `1`, for
`[0x1000, 0x1010)`, with line number `7` and no source position table. -/
def generatorA : ProfileGenerator :=
  { code_map := CodeMap.AddCode [] 0x1000 1 0x10, store := fun _ => plainEntry "A" 7 0x1000,
    program_entry := 10, gc_entry := 11, idle_entry := 12, unresolved_entry := 13,
    FLAG_prof_browser_mode := false }

/-- A sample whose `pc` is null and whose one stack frame, at `0x1004`, lies in the
code of `A`. -/
def sampleNullPc : TickSample :=
  { pc := nullptr, tos := 0, external_callback_entry := 0, has_external_callback := false,
    state := StateTag.JS, timestamp := 100, frames_count := 1, stack := [0x1004],
    update_stats := true }

/-- A store with two entries for one name: the entry at address `1` is `f`, at line `3`,
without a script id; the entry at address `2` has the same name, resource name and line
and the script id `5`. -/
def storeHalfScripted : CodeEntryStore := fun p =>
  if p = 1 then plainEntry "f" 3 0
  else { plainEntry "f" 3 0 with script_id := 5, position := 10 }

/-- A store with two entries for the function at position `10` of script `5`: the entry
at address `1` has the tag `1`, every other entry the tag `2`. -/
def storeTwoTags : CodeEntryStore := fun p =>
  if p = 1 then { plainEntry "f" 3 0 with tag := 1, script_id := 5, position := 10 }
  else { plainEntry "f" 3 0 with tag := 2, script_id := 5, position := 10 }

/-! # Properties -/

/-! ## CodeMap -/

namespace CodeMap

theorem addrAdd_of_lt {a n : Nat} (h : a + n < kAddressSpace) : addrAdd a n = a + n :=
  Nat.mod_eq_of_lt h

theorem chained_of_inv {m : CodeMap} (h : Inv m) : Chained m := by
  obtain ⟨hs, -, hd⟩ := h
  have h2 := List.pairwise_and_iff.mpr ⟨hs, hd⟩
  refine h2.imp ?_
  rintro x y ⟨hlt, hno⟩
  refine ⟨hlt, ?_⟩
  by_contra hc
  exact hno ⟨by omega, by omega⟩

theorem inv_of_chained {m : CodeMap} (h : Chained m) (hr : InRange m) : Inv m := by
  refine ⟨h.imp (fun hxy => hxy.1), hr, h.imp ?_⟩
  rintro x y ⟨-, hle⟩ ⟨-, h2⟩
  omega

theorem upper_bound_eq_zero_of_forall {m : CodeMap} {k : Nat}
    (h : ∀ y ∈ m, k < y.1) : StdMap.upper_bound m k = 0 := by
  cases m with
  | nil => rfl
  | cons p rest => simp [StdMap.upper_bound, h p (List.mem_cons_self _ _)]

theorem forall_lt_of_upper_bound_eq_zero {m : CodeMap} {k : Nat} (hs : Sorted m)
    (h : StdMap.upper_bound m k = 0) : ∀ y ∈ m, k < y.1 := by
  cases m with
  | nil => simp
  | cons p rest =>
    have hp : k < p.1 := by
      by_contra hc
      simp [StdMap.upper_bound, hc] at h
    intro y hy
    rcases List.mem_cons.mp hy with rfl | hy
    · exact hp
    · exact lt_trans hp ((List.pairwise_cons.mp hs).1 y hy)

theorem FindEntry_nil (a : Nat) : FindEntry [] a = nullptr := by
  simp [FindEntry, StdMap.upper_bound]

theorem FindEntry_cons_lt {p : Nat × CodeEntryInfo} {rest : CodeMap} {a : Nat}
    (h : a < p.1) : FindEntry (p :: rest) a = nullptr := by
  simp [FindEntry, StdMap.upper_bound, h]

theorem FindEntry_cons_this {p : Nat × CodeEntryInfo} {rest : CodeMap} {a : Nat}
    (h : ¬ a < p.1) (h0 : StdMap.upper_bound rest a = 0) :
    FindEntry (p :: rest) a = if a < addrAdd p.1 p.2.size then p.2.entry else nullptr := by
  simp [FindEntry, StdMap.upper_bound, h, h0]

theorem FindEntry_cons_next {p : Nat × CodeEntryInfo} {rest : CodeMap} {a : Nat}
    (h : ¬ a < p.1) (h0 : StdMap.upper_bound rest a ≠ 0) :
    FindEntry (p :: rest) a = FindEntry rest a := by
  obtain ⟨n, hn⟩ := Nat.exists_eq_succ_of_ne_zero h0
  simp [FindEntry, StdMap.upper_bound, h, hn]

/-- Lookup inside a stored range finds the entry of that range. -/
theorem FindEntry_of_mem {m : CodeMap} (hc : Chained m) (hr : InRange m) {a : Nat}
    {x : Nat × CodeEntryInfo} (hx : x ∈ m) (h1 : x.1 ≤ a) (h2 : a < x.1 + x.2.size) :
    FindEntry m a = x.2.entry := by
  induction m with
  | nil => simp at hx
  | cons p rest ih =>
    obtain ⟨hp, hrest⟩ := List.pairwise_cons.mp hc
    have hr' : InRange rest := fun y hy => hr y (List.mem_cons_of_mem _ hy)
    have hnlt : ¬ a < p.1 := by
      rcases List.mem_cons.mp hx with rfl | hx'
      · omega
      · have := (hp x hx').1
        omega
    by_cases h0 : StdMap.upper_bound rest a = 0
    · have hall := forall_lt_of_upper_bound_eq_zero (hrest.imp (fun h => h.1)) h0
      have hxp : x = p := by
        rcases List.mem_cons.mp hx with rfl | hx'
        · rfl
        · have := hall x hx'
          omega
      subst hxp
      rw [FindEntry_cons_this hnlt h0, addrAdd_of_lt (hr x (List.mem_cons_self _ _)), if_pos h2]
    · rw [FindEntry_cons_next hnlt h0]
      rcases List.mem_cons.mp hx with rfl | hx'
      · exfalso
        apply h0
        apply upper_bound_eq_zero_of_forall
        intro y hy
        have := (hp y hy).2
        omega
      · exact ih hrest hr' hx'

/-- Lookup outside every stored range finds nothing. -/
theorem FindEntry_of_not_mem {m : CodeMap} (hc : Chained m) (hr : InRange m) {a : Nat}
    (h : ∀ x ∈ m, ¬ (x.1 ≤ a ∧ a < x.1 + x.2.size)) : FindEntry m a = nullptr := by
  induction m with
  | nil => exact FindEntry_nil a
  | cons p rest ih =>
    obtain ⟨-, hrest⟩ := List.pairwise_cons.mp hc
    have hr' : InRange rest := fun y hy => hr y (List.mem_cons_of_mem _ hy)
    by_cases hlt : a < p.1
    · exact FindEntry_cons_lt hlt
    · by_cases h0 : StdMap.upper_bound rest a = 0
      · rw [FindEntry_cons_this hlt h0, addrAdd_of_lt (hr p (List.mem_cons_self _ _))]
        have := h p (List.mem_cons_self _ _)
        rw [if_neg]
        omega
      · rw [FindEntry_cons_next hlt h0]
        exact ih hrest hr' (fun x hx => h x (List.mem_cons_of_mem _ hx))

/-! ### `DeleteAllCoveredCode` as a filter -/

theorem drop_length_takeWhile {α : Type} (P : α → Bool) (l : List α) :
    l.drop (l.takeWhile P).length = l.dropWhile P := by
  induction l with
  | nil => rfl
  | cons x xs ih =>
    by_cases hx : P x = true
    · simp [List.takeWhile, List.dropWhile, hx, ih]
    · simp [List.takeWhile, List.dropWhile, hx]

theorem dropWhile_eq_filter {m : CodeMap} (hs : Sorted m) (e : Nat) :
    m.dropWhile (fun p => decide (p.1 < e)) = m.filter (fun p => !decide (p.1 < e)) := by
  induction m with
  | nil => rfl
  | cons p rest ih =>
    obtain ⟨hp, hrest⟩ := List.pairwise_cons.mp hs
    by_cases hlt : p.1 < e
    · simp [List.dropWhile, List.filter, hlt, ih hrest]
    · have hall : rest.filter (fun p => !decide (p.1 < e)) = rest := by
        rw [List.filter_eq_self]
        intro y hy
        have := hp y hy
        simp
        omega
      simp [List.dropWhile, List.filter, hlt, hall]

theorem coveringLeft_nil (s : Nat) : coveringLeft [] s = 0 := by
  simp [coveringLeft, StdMap.upper_bound]

theorem coveringLeft_cons_lt {p : Nat × CodeEntryInfo} {rest : CodeMap} {s : Nat}
    (h : s < p.1) : coveringLeft (p :: rest) s = 0 := by
  simp [coveringLeft, StdMap.upper_bound, h]

theorem coveringLeft_cons_this {p : Nat × CodeEntryInfo} {rest : CodeMap} {s : Nat}
    (h : ¬ s < p.1) (h0 : StdMap.upper_bound rest s = 0) :
    coveringLeft (p :: rest) s = if addrAdd p.1 p.2.size ≤ s then 1 else 0 := by
  simp [coveringLeft, StdMap.upper_bound, h, h0]

theorem coveringLeft_cons_next {p : Nat × CodeEntryInfo} {rest : CodeMap} {s : Nat}
    (h : ¬ s < p.1) (h0 : StdMap.upper_bound rest s ≠ 0) :
    coveringLeft (p :: rest) s = coveringLeft rest s + 1 := by
  obtain ⟨n, hn⟩ := Nat.exists_eq_succ_of_ne_zero h0
  simp only [coveringLeft, StdMap.upper_bound, h, hn, if_false]
  simp only [Nat.succ_eq_add_one, ne_eq, Nat.add_one_ne_zero, not_false_eq_true, if_true,
    Nat.add_sub_cancel, List.getElem?_cons_succ]
  cases rest[n]? with
  | none => rfl
  | some q => by_cases hq : addrAdd q.1 q.2.size ≤ s <;> simp [hq]

theorem DeleteAllCoveredCode_of_left_zero (m : CodeMap) (s e : Nat)
    (h : coveringLeft m s = 0) :
    DeleteAllCoveredCode m s e = m.dropWhile (fun p => decide (p.1 < e)) := by
  simp [DeleteAllCoveredCode, advanceRight, StdMap.eraseRange, h, drop_length_takeWhile]

theorem DeleteAllCoveredCode_of_left_succ (p : Nat × CodeEntryInfo) (rest : CodeMap)
    (s e n : Nat) (h : coveringLeft (p :: rest) s = n + 1) (h' : coveringLeft rest s = n) :
    DeleteAllCoveredCode (p :: rest) s e = p :: DeleteAllCoveredCode rest s e := by
  simp only [DeleteAllCoveredCode, advanceRight, StdMap.eraseRange, h, h', List.drop_succ_cons,
    List.take_succ_cons, List.cons_append]
  have harith : ∀ k : Nat, n + 1 + k = (n + k) + 1 := fun k => by omega
  rw [harith, List.drop_succ_cons]

theorem DeleteAllCoveredCode_nil (s e : Nat) : DeleteAllCoveredCode [] s e = [] := by
  simp [DeleteAllCoveredCode, StdMap.eraseRange]

/-- On a map that satisfies the invariant, `DeleteAllCoveredCode(start, end)` removes
the elements `x` with `x.start < end` and `start < x.start + x.size`, and only those. -/
theorem DeleteAllCoveredCode_eq_filter {m : CodeMap} (hc : Chained m) (hr : InRange m)
    (s e : Nat) :
    DeleteAllCoveredCode m s e
      = m.filter (fun x => !decide (x.1 < e ∧ s < x.1 + x.2.size)) := by
  induction m with
  | nil => simp [DeleteAllCoveredCode_nil]
  | cons p rest ih =>
    obtain ⟨hp, hrest⟩ := List.pairwise_cons.mp hc
    have hr' : InRange rest := fun y hy => hr y (List.mem_cons_of_mem _ hy)
    have hsorted : Sorted (p :: rest) := hc.imp (fun h => h.1)
    have hsrest : Sorted rest := hrest.imp (fun h => h.1)
    have hpend := addrAdd_of_lt (hr p (List.mem_cons_self _ _))
    -- on a sorted list whose keys all exceed `s`, the two filters agree
    have key : ∀ l : CodeMap, Sorted l → (∀ y ∈ l, s < y.1) →
        l.dropWhile (fun p => decide (p.1 < e))
          = l.filter (fun x => !decide (x.1 < e ∧ s < x.1 + x.2.size)) := by
      intro l hl hall
      rw [dropWhile_eq_filter hl]
      apply List.filter_congr
      intro y hy
      have := hall y hy
      have h3 : s < y.1 + y.2.size := by omega
      simp [h3]
    by_cases hlt : s < p.1
    · rw [DeleteAllCoveredCode_of_left_zero _ _ _ (coveringLeft_cons_lt hlt)]
      apply key _ hsorted
      intro y hy
      rcases List.mem_cons.mp hy with rfl | hy
      · exact hlt
      · exact lt_trans hlt (hp y hy).1
    · by_cases h0 : StdMap.upper_bound rest s = 0
      · have hall := forall_lt_of_upper_bound_eq_zero hsrest h0
        have hl := coveringLeft_cons_this (p := p) hlt h0
        have hl' : coveringLeft rest s = 0 := by
          cases rest with
          | nil => exact coveringLeft_nil s
          | cons q rest' => exact coveringLeft_cons_lt (hall q (List.mem_cons_self _ _))
        by_cases hcov : addrAdd p.1 p.2.size ≤ s
        · rw [if_pos hcov] at hl
          rw [DeleteAllCoveredCode_of_left_succ p rest s e 0 hl hl',
            DeleteAllCoveredCode_of_left_zero _ _ _ hl', key rest hsrest hall]
          rw [hpend] at hcov
          have : ¬ (p.1 < e ∧ s < p.1 + p.2.size) := by omega
          simp [List.filter, this]
        · rw [if_neg hcov] at hl
          rw [DeleteAllCoveredCode_of_left_zero _ _ _ hl]
          rw [hpend] at hcov
          by_cases hpe : p.1 < e
          · have : (p.1 < e ∧ s < p.1 + p.2.size) := ⟨hpe, by omega⟩
            simp only [List.dropWhile, hpe, decide_True, List.filter, this, Bool.not_true]
            exact key rest hsrest hall
          · have : ¬ (p.1 < e ∧ s < p.1 + p.2.size) := fun h => hpe h.1
            simp only [List.dropWhile, hpe, decide_False, List.filter, this, Bool.not_false]
            congr 1
            symm
            rw [List.filter_eq_self]
            intro y hy
            have := (hp y hy).1
            simp
            omega
      · have hl := coveringLeft_cons_next (p := p) hlt h0
        rw [DeleteAllCoveredCode_of_left_succ p rest s e _ hl rfl, ih hrest hr']
        have hne : rest ≠ [] := by
          rintro rfl
          exact h0 rfl
        obtain ⟨q, rest', rfl⟩ := List.exists_cons_of_ne_nil hne
        have hq : ¬ s < q.1 := by
          intro hq
          exact h0 (by simp [StdMap.upper_bound, hq])
        have := (hp q (List.mem_cons_self _ _)).2
        have : ¬ (p.1 < e ∧ s < p.1 + p.2.size) := by omega
        simp [List.filter, this]

/-! ### `std::map::insert` -/

theorem mem_insert_of_mem {m : CodeMap} {k : Nat} {v : CodeEntryInfo}
    {x : Nat × CodeEntryInfo} (h : x ∈ m) : x ∈ StdMap.insert m k v := by
  induction m with
  | nil => simp at h
  | cons p rest ih =>
    unfold StdMap.insert
    split_ifs
    · exact List.mem_cons_of_mem _ h
    · exact h
    · rcases List.mem_cons.mp h with rfl | h
      · exact List.mem_cons_self _ _
      · exact List.mem_cons_of_mem _ (ih h)

theorem mem_of_mem_insert {m : CodeMap} {k : Nat} {v : CodeEntryInfo}
    {x : Nat × CodeEntryInfo} (h : x ∈ StdMap.insert m k v) : x ∈ m ∨ x = (k, v) := by
  induction m with
  | nil => simpa [StdMap.insert] using h
  | cons p rest ih =>
    unfold StdMap.insert at h
    split_ifs at h
    · rcases List.mem_cons.mp h with rfl | h
      · exact Or.inr rfl
      · exact Or.inl h
    · exact Or.inl h
    · rcases List.mem_cons.mp h with rfl | h
      · exact Or.inl (List.mem_cons_self _ _)
      · rcases ih h with h | h
        · exact Or.inl (List.mem_cons_of_mem _ h)
        · exact Or.inr h

theorem mem_insert_self {m : CodeMap} {k : Nat} {v : CodeEntryInfo}
    (h : ∀ y ∈ m, y.1 ≠ k) : (k, v) ∈ StdMap.insert m k v := by
  induction m with
  | nil => simp [StdMap.insert]
  | cons p rest ih =>
    unfold StdMap.insert
    have hp : ¬ k = p.1 := fun hk => h p (List.mem_cons_self _ _) hk.symm
    split_ifs
    · exact List.mem_cons_self _ _
    · exact List.mem_cons_of_mem _ (ih (fun y hy => h y (List.mem_cons_of_mem _ hy)))

theorem chained_insert {m : CodeMap} {k : Nat} {v : CodeEntryInfo} (hc : Chained m)
    (h1 : ∀ y ∈ m, y.1 < k → y.1 + y.2.size ≤ k)
    (h2 : ∀ y ∈ m, k < y.1 → k + v.size ≤ y.1) : Chained (StdMap.insert m k v) := by
  induction m with
  | nil => simp [StdMap.insert, Chained]
  | cons p rest ih =>
    obtain ⟨hp, hrest⟩ := List.pairwise_cons.mp hc
    unfold StdMap.insert
    split_ifs with hlt heq
    · refine List.pairwise_cons.mpr ⟨?_, hc⟩
      intro y hy
      have hky : k < y.1 := by
        rcases List.mem_cons.mp hy with rfl | hy
        · exact hlt
        · exact lt_trans hlt (hp y hy).1
      exact ⟨hky, h2 y hy hky⟩
    · exact hc
    · have hpk : p.1 < k := by omega
      refine List.pairwise_cons.mpr ⟨?_, ?_⟩
      · intro z hz
        rcases mem_of_mem_insert hz with hz | rfl
        · exact hp z hz
        · exact ⟨hpk, h1 p (List.mem_cons_self _ _) hpk⟩
      · exact ih hrest (fun y hy => h1 y (List.mem_cons_of_mem _ hy))
          (fun y hy => h2 y (List.mem_cons_of_mem _ hy))

/-! ### The invariant is kept by `AddCode` and `MoveCode` -/

theorem mem_DeleteAllCoveredCode {m : CodeMap} (hm : Inv m) (addr size : Nat)
    (hsz : addr + size < kAddressSpace) (x : Nat × CodeEntryInfo) :
    x ∈ DeleteAllCoveredCode m addr (addrAdd addr size)
      ↔ x ∈ m ∧ ¬ Overlaps x.1 x.2.size addr size := by
  rw [DeleteAllCoveredCode_eq_filter (chained_of_inv hm) hm.2.1, addrAdd_of_lt hsz]
  simp only [List.mem_filter, Overlaps, Bool.not_eq_true', decide_eq_false_iff_not]

theorem inv_AddCode {m : CodeMap} (hm : Inv m) (addr entry size : Nat)
    (hsz : addr + size < kAddressSpace) : Inv (AddCode m addr entry size) := by
  have hc := chained_of_inv hm
  have hr := hm.2.1
  have hmem := mem_DeleteAllCoveredCode hm addr size hsz
  unfold AddCode
  apply inv_of_chained
  · apply chained_insert
    · rw [DeleteAllCoveredCode_eq_filter hc hr]
      exact List.Pairwise.filter _ hc
    · intro y hy hlt
      have h := ((hmem y).mp hy).2
      unfold Overlaps at h
      by_contra hcon
      exact h ⟨by omega, by omega⟩
    · intro y hy hlt
      have h := ((hmem y).mp hy).2
      unfold Overlaps at h
      by_contra hcon
      exact h ⟨by simp at hcon; omega, by omega⟩
  · intro x hx
    rcases mem_of_mem_insert hx with hx | rfl
    · exact hr x ((hmem x).mp hx).1
    · exact hsz

theorem find_some {m : CodeMap} {k it : Nat} (h : StdMap.find m k = some it) :
    ∃ p, m[it]? = some p ∧ p ∈ m ∧ p.1 = k := by
  unfold StdMap.find at h
  simp only at h
  split_ifs at h with hlt
  cases h
  refine ⟨m[m.findIdx (fun p => decide (p.1 = k))], ?_, List.getElem_mem _, ?_⟩
  · exact List.getElem?_eq_getElem hlt
  · have := List.findIdx_getElem (w := hlt)
    simpa using this

theorem inv_eraseIdx {m : CodeMap} (hm : Inv m) (i : Nat) : Inv (m.eraseIdx i) := by
  have hsub := List.eraseIdx_sublist m i
  exact ⟨hm.1.sublist hsub, fun x hx => hm.2.1 x (hsub.subset hx), hm.2.2.sublist hsub⟩

theorem inv_MoveCode {m : CodeMap} (hm : Inv m) (from_ to_ : Nat)
    (hsz : ∀ p ∈ m, p.1 = from_ → to_ + p.2.size < kAddressSpace) :
    Inv (MoveCode m from_ to_) := by
  unfold MoveCode
  split_ifs
  · exact hm
  · cases hf : StdMap.find m from_ with
    | none => exact hm
    | some it =>
      obtain ⟨p, hp, hpm, hpk⟩ := find_some hf
      simp only [hp]
      exact inv_AddCode (inv_eraseIdx hm it) _ _ _ (hsz p hpm hpk)

theorem inv_nil : Inv [] := by
  simp [Inv, Sorted, InRange, Disjoint]

theorem inv_of_reachable {m : CodeMap} (h : ReachableInRange m) : Inv m := by
  induction h with
  | empty => exact inv_nil
  | addCode addr entry size _ hsz ih => exact inv_AddCode ih addr entry size hsz
  | moveCode from_ to_ _ hsz ih => exact inv_MoveCode ih from_ to_ hsz

/-- On a map that satisfies the invariant and stores no empty range at `addr`, the
range registered by `AddCode(addr, entry, size)` is found at each of its addresses. -/
theorem FindEntry_AddCode {m : CodeMap} (hm : Inv m) (addr entry size : Nat)
    (hsz : addr + size < kAddressSpace) (hstale : ∀ y ∈ m, y.1 = addr → 0 < y.2.size)
    (k : Nat) (hk : k < size) : FindEntry (AddCode m addr entry size) (addr + k) = entry := by
  have hinv := inv_AddCode hm addr entry size hsz
  have hin : ((addr, ⟨entry, size⟩) : Nat × CodeEntryInfo) ∈ AddCode m addr entry size := by
    unfold AddCode
    apply mem_insert_self
    intro y hy hkey
    have h := (mem_DeleteAllCoveredCode hm addr size hsz y).mp hy
    have hpos := hstale y h.1 hkey
    apply h.2
    unfold Overlaps
    omega
  exact FindEntry_of_mem (chained_of_inv hinv) hinv.2.1 hin (by simp) (by simp; omega)

/-- C2 as stated fails: the call `AddCode(2^64 - 16, 7, 16)` on the empty map registers
the range `[2^64 - 16, 2^64)`, whose end wraps to `0`. The map is reachable, the stored
range holds the address `2^64 - 4`, and `FindEntry(2^64 - 4)` is `nullptr`, not the
entry `7`. -/
theorem FindEntry_wrapped_range_counterexample :
    Reachable (AddCode [] 0xfffffffffffffff0 7 16) ∧
    (((0xfffffffffffffff0, ⟨7, 16⟩) : Nat × CodeEntryInfo) ∈ AddCode [] 0xfffffffffffffff0 7 16) ∧
    0xfffffffffffffff0 ≤ 0xfffffffffffffffc ∧ 0xfffffffffffffffc < 0xfffffffffffffff0 + 16 ∧
    0xfffffffffffffffc < kAddressSpace ∧
    FindEntry (AddCode [] 0xfffffffffffffff0 7 16) 0xfffffffffffffffc = nullptr ∧
    nullptr ≠ 7 :=
  ⟨Reachable.addCode 0xfffffffffffffff0 7 16 Reachable.empty, by decide, by decide, by decide,
    by decide, by decide, by decide⟩

/-- C2, amended: in a code map reachable from the empty map by `AddCode` and `MoveCode`
calls none of which wraps (the end `addr + size` of each range registered is below
`2^64`), an address `a` that lies in a stored range `[start, start + size)` is looked up
to the entry of that range, which is the only stored range holding `a`; an address that
lies in no stored range is looked up to `nullptr`. -/
theorem FindEntry_reachable (m : CodeMap) (a : Nat) (hm : ReachableInRange m) :
    (∀ x ∈ m, x.1 ≤ a → a < x.1 + x.2.size →
      FindEntry m a = x.2.entry ∧ ∀ y ∈ m, y.1 ≤ a → a < y.1 + y.2.size → y = x) ∧
    ((∀ x ∈ m, ¬ (x.1 ≤ a ∧ a < x.1 + x.2.size)) → FindEntry m a = nullptr) := by
  have hinv := inv_of_reachable hm
  have hc := chained_of_inv hinv
  refine ⟨?_, FindEntry_of_not_mem hc hinv.2.1⟩
  intro x hx h1 h2
  refine ⟨FindEntry_of_mem hc hinv.2.1 hx h1 h2, ?_⟩
  intro y hy h3 h4
  by_contra hne
  have hsym : Symmetric (fun u v : Nat × CodeEntryInfo =>
      (u.1 < v.1 ∧ u.1 + u.2.size ≤ v.1) ∨ (v.1 < u.1 ∧ v.1 + v.2.size ≤ u.1)) :=
    fun u v h => h.symm
  have hpw : m.Pairwise (fun u v : Nat × CodeEntryInfo =>
      (u.1 < v.1 ∧ u.1 + u.2.size ≤ v.1) ∨ (v.1 < u.1 ∧ v.1 + v.2.size ≤ u.1)) :=
    hc.imp (fun h => Or.inl h)
  rcases hpw.forall hsym hy hx hne with h | h <;> omega

/-- The map with the range `[0x1000, 0x1010)` of entry `7` is reachable, and address
`0x1004` is looked up to `7` in it. -/
theorem FindEntry_reachable_witness :
    ReachableInRange (AddCode [] 0x1000 7 16) ∧
    FindEntry (AddCode [] 0x1000 7 16) 0x1004 = 7 :=
  ⟨ReachableInRange.addCode 0x1000 7 16 ReachableInRange.empty (by decide),
   ((FindEntry_reachable (AddCode [] 0x1000 7 16) 0x1004
      (ReachableInRange.addCode 0x1000 7 16 ReachableInRange.empty (by decide))).1
      (0x1000, ⟨7, 16⟩) (by decide) (by decide) (by decide)).1⟩

/-- C3 as stated fails, for calls that wrap. The map with the one range
`[2^64 - 8, 2^64 - 1)`, made by a call that does not wrap, is disjoint, and the call
`AddCode(2^64 - 16, 5, 16)`, whose end wraps to `0`, erases nothing and leaves two ranges
that overlap. And the map with the one range `[2^64 - 16, 2^64)`, made by a call that
wraps, is disjoint, and the call `AddCode(2^64 - 8, 2, 7)`, which does not wrap, takes
the stored range to end at `0`, erases nothing and leaves two ranges that overlap. -/
theorem wrapping_range_breaks_disjointness_counterexample :
    Reachable (AddCode [] 0xfffffffffffffff8 9 7) ∧
    Disjoint (AddCode [] 0xfffffffffffffff8 9 7) ∧
    ¬ Disjoint (AddCode (AddCode [] 0xfffffffffffffff8 9 7) 0xfffffffffffffff0 5 16) ∧
    Reachable (AddCode [] 0xfffffffffffffff0 1 16) ∧
    Disjoint (AddCode [] 0xfffffffffffffff0 1 16) ∧
    ¬ Disjoint (AddCode (AddCode [] 0xfffffffffffffff0 1 16) 0xfffffffffffffff8 2 7) :=
  ⟨Reachable.addCode 0xfffffffffffffff8 9 7 Reachable.empty, by decide, by decide,
    Reachable.addCode 0xfffffffffffffff0 1 16 Reachable.empty, by decide, by decide⟩

/-- C3, amended: pairwise disjointness of the stored half-open ranges is an invariant of
the code map for calls that do not wrap. It holds for the empty map; on a sorted map of
ranges inside the address space it is kept, together with sortedness and range
validity, by every `AddCode` and every `MoveCode` call whose new range lies inside the
address space (`addr + size < 2^64`); hence it holds in every code map reachable by
such calls. -/
theorem Disjoint_invariant :
    Disjoint ([] : CodeMap) ∧
    (∀ (m : CodeMap) (addr entry size : Nat), Sorted m → InRange m → Disjoint m →
      addr + size < kAddressSpace →
      Disjoint (AddCode m addr entry size) ∧ Sorted (AddCode m addr entry size) ∧
        InRange (AddCode m addr entry size)) ∧
    (∀ (m : CodeMap) (from_ to_ : Nat), Sorted m → InRange m → Disjoint m →
      (∀ p ∈ m, p.1 = from_ → to_ + p.2.size < kAddressSpace) →
      Disjoint (MoveCode m from_ to_) ∧ Sorted (MoveCode m from_ to_) ∧
        InRange (MoveCode m from_ to_)) ∧
    (∀ m : CodeMap, ReachableInRange m → Disjoint m) := by
  refine ⟨inv_nil.2.2, ?_, ?_, fun m hm => (inv_of_reachable hm).2.2⟩
  · intro m addr entry size hs hr hd hsz
    have h := inv_AddCode ⟨hs, hr, hd⟩ addr entry size hsz
    exact ⟨h.2.2, h.1, h.2.1⟩
  · intro m from_ to_ hs hr hd hsz
    have h := inv_MoveCode ⟨hs, hr, hd⟩ from_ to_ hsz
    exact ⟨h.2.2, h.1, h.2.1⟩

/-- The ranges `[0x1000, 0x1010)` and `[0x2000, 0x2010)` are disjoint, and stay so when
`[0x1008, 0x2004)` is added and when the range at `0x1000` is moved to `0x2008`. -/
theorem Disjoint_invariant_witness :
    Disjoint (AddCode [(0x1000, ⟨1, 16⟩), (0x2000, ⟨2, 16⟩)] 0x1008 3 0xffc) ∧
    Disjoint (MoveCode [(0x1000, ⟨1, 16⟩), (0x2000, ⟨2, 16⟩)] 0x1000 0x2008) :=
  ⟨(Disjoint_invariant.2.1 [(0x1000, ⟨1, 16⟩), (0x2000, ⟨2, 16⟩)] 0x1008 3 0xffc
      (by decide) (by decide) (by decide) (by decide)).1,
   (Disjoint_invariant.2.2.1 [(0x1000, ⟨1, 16⟩), (0x2000, ⟨2, 16⟩)] 0x1000 0x2008
      (by decide) (by decide) (by decide) (by decide)).1⟩

/-- C4 as stated fails, for calls that wrap. In the map with the one range
`[2^64 - 8, 2^64 - 1)` the call `AddCode(2^64 - 16, 5, 16)`, whose end wraps to `0`,
erases nothing: the stored range overlaps `[2^64 - 16, 2^64)` and is still stored. And in
the map with the one range `[2^64 - 16, 2^64)`, made by a call that wraps, the call
`AddCode(2^64 - 8, 2, 7)` takes the stored range to end at `0` and erases nothing: the
stored range overlaps `[2^64 - 8, 2^64 - 1)` and is still stored. -/
theorem wrapping_range_survives_AddCode_counterexample :
    Overlaps 0xfffffffffffffff8 7 0xfffffffffffffff0 16 ∧
    (((0xfffffffffffffff8, ⟨9, 7⟩) : Nat × CodeEntryInfo)
      ∈ AddCode (AddCode [] 0xfffffffffffffff8 9 7) 0xfffffffffffffff0 5 16) ∧
    Overlaps 0xfffffffffffffff0 16 0xfffffffffffffff8 7 ∧
    (((0xfffffffffffffff0, ⟨1, 16⟩) : Nat × CodeEntryInfo)
      ∈ AddCode (AddCode [] 0xfffffffffffffff0 1 16) 0xfffffffffffffff8 2 7) := by
  decide

/-- C4, amended: on a code map reachable from the empty map by `AddCode` and `MoveCode`
calls none of which wraps, a call `AddCode(addr, entry, size)` that does not wrap
(`addr + size < 2^64`) deletes exactly the stored ranges that overlap
`[addr, addr + size)` under the half-open overlap predicate: `DeleteAllCoveredCode` keeps a
stored range iff it does not overlap, every stored range that does not overlap is still
stored after `AddCode` with the same start, entry and size, and `AddCode` stores nothing
else but the new range. -/
theorem AddCode_deletes_exactly_overlapping (m : CodeMap) (addr entry size : Nat)
    (hm : ReachableInRange m) (hsz : addr + size < kAddressSpace) :
    (∀ x, x ∈ DeleteAllCoveredCode m addr (addrAdd addr size)
        ↔ x ∈ m ∧ ¬ Overlaps x.1 x.2.size addr size) ∧
    (∀ x ∈ m, ¬ Overlaps x.1 x.2.size addr size → x ∈ AddCode m addr entry size) ∧
    (∀ x ∈ AddCode m addr entry size,
        (x ∈ m ∧ ¬ Overlaps x.1 x.2.size addr size) ∨ x = (addr, ⟨entry, size⟩)) := by
  have hmem := mem_DeleteAllCoveredCode (inv_of_reachable hm) addr size hsz
  refine ⟨hmem, ?_, ?_⟩
  · intro x hx hno
    exact mem_insert_of_mem ((hmem x).mpr ⟨hx, hno⟩)
  · intro x hx
    rcases mem_of_mem_insert hx with h | h
    · exact Or.inl ((hmem x).mp h)
    · exact Or.inr h

/-- Adding `[0x1008, 0x2004)` to the map made of `[0x1000, 0x1010)`, `[0x2000, 0x2010)` and
`[0x3000, 0x3010)` deletes the first two ranges and keeps the third. -/
theorem AddCode_deletes_exactly_overlapping_witness :
    ReachableInRange (AddCode (AddCode (AddCode [] 0x1000 1 16) 0x2000 2 16) 0x3000 4 16) ∧
    0x1008 + 0xffc < kAddressSpace ∧
    ((0x3000, ⟨4, 16⟩) : Nat × CodeEntryInfo) ∈
      AddCode (AddCode (AddCode (AddCode [] 0x1000 1 16) 0x2000 2 16) 0x3000 4 16) 0x1008 3 0xffc ∧
    ((0x1000, ⟨1, 16⟩) : Nat × CodeEntryInfo) ∉
      DeleteAllCoveredCode (AddCode (AddCode (AddCode [] 0x1000 1 16) 0x2000 2 16) 0x3000 4 16)
        0x1008 (addrAdd 0x1008 0xffc) :=
  ⟨(ReachableInRange.addCode 0x3000 4 16
      (ReachableInRange.addCode 0x2000 2 16
        (ReachableInRange.addCode 0x1000 1 16 ReachableInRange.empty (by decide)) (by decide))
      (by decide)),
   by decide,
   (AddCode_deletes_exactly_overlapping
      (AddCode (AddCode (AddCode [] 0x1000 1 16) 0x2000 2 16) 0x3000 4 16) 0x1008 3 0xffc
      (ReachableInRange.addCode 0x3000 4 16
      (ReachableInRange.addCode 0x2000 2 16
        (ReachableInRange.addCode 0x1000 1 16 ReachableInRange.empty (by decide)) (by decide))
      (by decide))
      (by decide)).2.1 (0x3000, ⟨4, 16⟩) (by decide) (by decide),
   fun h => (((AddCode_deletes_exactly_overlapping
      (AddCode (AddCode (AddCode [] 0x1000 1 16) 0x2000 2 16) 0x3000 4 16) 0x1008 3 0xffc
      (ReachableInRange.addCode 0x3000 4 16
      (ReachableInRange.addCode 0x2000 2 16
        (ReachableInRange.addCode 0x1000 1 16 ReachableInRange.empty (by decide)) (by decide))
      (by decide))
      (by decide)).1 (0x1000, ⟨1, 16⟩)).mp h).2 (by decide)⟩

theorem nodup_of_sorted {m : CodeMap} (hs : Sorted m) : m.Nodup := by
  unfold Sorted at hs
  exact hs.imp (fun h hab => by rw [hab] at h; exact lt_irrefl _ h)

theorem eq_of_key_eq {m : CodeMap} (hs : Sorted m) {x y : Nat × CodeEntryInfo}
    (hx : x ∈ m) (hy : y ∈ m) (hk : x.1 = y.1) : x = y := by
  by_contra hne
  have hsym : Symmetric (fun u v : Nat × CodeEntryInfo => u.1 < v.1 ∨ v.1 < u.1) :=
    fun u v h => h.symm
  have hpw : m.Pairwise (fun u v : Nat × CodeEntryInfo => u.1 < v.1 ∨ v.1 < u.1) :=
    hs.imp (fun h => Or.inl h)
  rcases hpw.forall hsym hx hy hne with h | h <;> omega

/-- On a sorted map that holds `p`, `find` gives the position of `p` and erasing that
position removes `p` and nothing else. -/
theorem find_of_mem {m : CodeMap} (hs : Sorted m) {p : Nat × CodeEntryInfo} (hp : p ∈ m) :
    ∃ it, StdMap.find m p.1 = some it ∧ m[it]? = some p ∧
      ∀ x, x ∈ m.eraseIdx it ↔ x ∈ m ∧ x ≠ p := by
  have hlt : m.findIdx (fun q => decide (q.1 = p.1)) < m.length :=
    List.findIdx_lt_length_of_exists ⟨p, hp, by simp⟩
  have hfind : StdMap.find m p.1 = some (m.findIdx (fun q => decide (q.1 = p.1))) := by
    unfold StdMap.find
    simp [hlt]
  obtain ⟨q, hq, hqm, hqk⟩ := find_some hfind
  have hqp : q = p := eq_of_key_eq hs hqm hp hqk
  subst hqp
  refine ⟨_, hfind, hq, ?_⟩
  intro x
  have hget : m[m.findIdx (fun q' => decide (q'.1 = q.1))] = q :=
    List.getElem_eq_iff.mpr hq
  rw [List.mem_eraseIdx_iff_getElem]
  constructor
  · rintro ⟨i, hi, hik, rfl⟩
    refine ⟨List.getElem_mem _, ?_⟩
    intro heq
    rw [← hget] at heq
    exact hik (((nodup_of_sorted hs).getElem_inj_iff).mp heq)
  · rintro ⟨hx, hxq⟩
    obtain ⟨i, hi, rfl⟩ := List.getElem_of_mem hx
    refine ⟨i, hi, ?_, rfl⟩
    rintro rfl
    exact hxq hget

/-- On a map that satisfies the invariant, holds `(E, size)` at `from` and stores no
empty range at `to`, with `[to, to + size)` inside the address space and not
overlapping `[from, from + size)`: after `MoveCode(from, to)` the addresses of
`[from, from + size)` are looked up to `nullptr` and those of `[to, to + size)` to `E`. -/
theorem FindEntry_MoveCode {m : CodeMap} (hm : Inv m) {from_ to_ : Nat} {info : CodeEntryInfo}
    (hfrom : (from_, info) ∈ m) (hne : from_ ≠ to_)
    (hno : ¬ Overlaps to_ info.size from_ info.size)
    (hsz : to_ + info.size < kAddressSpace) (hstale : ∀ y ∈ m, y.1 = to_ → 0 < y.2.size)
    (k : Nat) (hk : k < info.size) :
    FindEntry (MoveCode m from_ to_) (from_ + k) = nullptr ∧
    FindEntry (MoveCode m from_ to_) (to_ + k) = info.entry := by
  obtain ⟨it, hfind, hget, hmem⟩ := find_of_mem hm.1 hfrom
  have hmove : MoveCode m from_ to_ = AddCode (m.eraseIdx it) to_ info.entry info.size := by
    unfold MoveCode
    simp only [if_neg hne]
    simp only [] at hfind hget
    rw [hfind]
    simp only [hget]
  have hinv' := inv_eraseIdx hm it
  rw [hmove]
  refine ⟨?_, ?_⟩
  · have hinv := inv_AddCode hinv' to_ info.entry info.size hsz
    apply FindEntry_of_not_mem (chained_of_inv hinv) hinv.2.1
    intro x hx
    unfold AddCode at hx
    rcases mem_of_mem_insert hx with hx | rfl
    · have hx' := ((mem_DeleteAllCoveredCode hinv' to_ info.size hsz x).mp hx).1
      obtain ⟨hxm, hxne⟩ := (hmem x).mp hx'
      have hsym : Symmetric (fun u v : Nat × CodeEntryInfo =>
          (u.1 < v.1 ∧ u.1 + u.2.size ≤ v.1) ∨ (v.1 < u.1 ∧ v.1 + v.2.size ≤ u.1)) :=
        fun u v h => h.symm
      have hpw : m.Pairwise (fun u v : Nat × CodeEntryInfo =>
          (u.1 < v.1 ∧ u.1 + u.2.size ≤ v.1) ∨ (v.1 < u.1 ∧ v.1 + v.2.size ≤ u.1)) :=
        (chained_of_inv hm).imp (fun h => Or.inl h)
      rcases hpw.forall hsym hxm hfrom hxne with h | h
      · simp only at h; omega
      · simp only at h; omega
    · unfold Overlaps at hno
      simp only
      omega
  · exact FindEntry_AddCode hinv' to_ info.entry info.size hsz
      (fun y hy => hstale y ((hmem y).mp hy).1) k hk

end CodeMap

/-! ## ProfileTree -/

namespace UnorderedMap

theorem find_set {κ V : Type} [DecidableEq κ] (m : UnorderedMap κ V) (k k' : κ) (v : V) :
    find (set m k v) k' = if k = k' then some v else find m k' := by
  induction m with
  | nil => simp [set, find]
  | cons p rest ih =>
    unfold set
    by_cases hp : p.1 = k
    · by_cases hk : k = k'
      · simp [find, hp, hk]
      · have : ¬ p.1 = k' := fun h => hk (hp ▸ h)
        simp [find, hp, hk, this]
    · by_cases hk : k = k'
      · subst hk
        simp [find, hp, ih]
      · simp [find, hp, hk, ih]

end UnorderedMap

namespace ProfileTree

theorem getElem?_updateNode (t : ProfileTree) (n : Nat) (f : ProfileNode → ProfileNode)
    (i : Nat) :
    (updateNode t n f).nodes[i]? = (t.nodes[i]?).map (fun a => if n = i then f a else a) := by
  simp [updateNode, List.getElem?_modify]

theorem length_updateNode (t : ProfileTree) (n : Nat) (f : ProfileNode → ProfileNode) :
    (updateNode t n f).nodes.length = t.nodes.length := by
  simp [updateNode, List.length_modify]

theorem entryChainAux_fuel {nodes : List ProfileNode} (h : ParentBelow nodes) :
    ∀ (f₁ f₂ n : Nat), n < f₁ → n < f₂ →
      entryChainAux nodes f₁ n = entryChainAux nodes f₂ n := by
  intro f₁
  induction f₁ with
  | zero => intro f₂ n h1; omega
  | succ f₁ ih =>
    intro f₂ n h1 h2
    obtain ⟨g, rfl⟩ : ∃ g, f₂ = g + 1 := ⟨f₂ - 1, by omega⟩
    unfold entryChainAux
    cases hn : nodes[n]? with
    | none => rfl
    | some nd =>
      cases hp : nd.parent with
      | none => simp only [hp]
      | some p =>
        have := h n nd p hn hp
        simp only [hp]
        rw [ih g p (by omega) (by omega)]

/-- Two node stores whose nodes below `N` have the same parents and entries give the
same chains below `N`. -/
theorem entryChainAux_agree {nodes nodes' : List ProfileNode} (h : ParentBelow nodes) (N : Nat)
    (hag : ∀ i, i < N → (nodes'[i]?).map (fun nd => (nd.parent, nd.entry))
        = (nodes[i]?).map (fun nd => (nd.parent, nd.entry))) :
    ∀ (fuel n : Nat), n < N → entryChainAux nodes' fuel n = entryChainAux nodes fuel n := by
  intro fuel
  induction fuel with
  | zero => intro n _; rfl
  | succ fuel ih =>
    intro n hn
    have hagn := hag n hn
    unfold entryChainAux
    cases h1 : nodes[n]? with
    | none =>
      rw [h1] at hagn
      cases h2 : nodes'[n]? with
      | none => rfl
      | some nd' => rw [h2] at hagn; simp at hagn
    | some nd =>
      rw [h1] at hagn
      cases h2 : nodes'[n]? with
      | none => rw [h2] at hagn; simp at hagn
      | some nd' =>
        rw [h2] at hagn
        simp only [Option.map_some', Option.some.injEq, Prod.mk.injEq] at hagn
        obtain ⟨hpar, hent⟩ := hagn
        simp only [hpar, hent]
        cases hp : nd.parent with
        | none => rfl
        | some p =>
          have := h n nd p h1 hp
          simp only []
          rw [ih p (by omega)]

theorem entryChain_root {t : ProfileTree} (h : WF t) : entryChain t root_ = some [] := by
  obtain ⟨⟨r, hr, hpar⟩, -, -⟩ := h
  have hlen : 0 < t.nodes.length := by
    by_contra hc
    have : t.nodes[root_]? = none := List.getElem?_eq_none (by omega)
    rw [this] at hr
    cases hr
  unfold entryChain
  obtain ⟨g, hg⟩ : ∃ g, t.nodes.length = g + 1 := ⟨t.nodes.length - 1, by omega⟩
  rw [hg]
  unfold entryChainAux
  simp [hr, hpar]

theorem lt_length_of_getElem? {α : Type} {l : List α} {i : Nat} {a : α}
    (h : l[i]? = some a) : i < l.length := by
  by_contra hc
  rw [List.getElem?_eq_none (by omega)] at h
  cases h

theorem entryChain_child {t : ProfileTree} (h : WF t) {c p : Nat} {cd : ProfileNode}
    (hc : t.nodes[c]? = some cd) (hp : cd.parent = some p) :
    entryChain t c = (entryChain t p).map (fun l => l ++ [cd.entry]) := by
  have hlen := lt_length_of_getElem? hc
  have hpc := h.2.1 c cd p hc hp
  unfold entryChain
  obtain ⟨g, hg⟩ : ∃ g, t.nodes.length = g + 1 := ⟨t.nodes.length - 1, by omega⟩
  rw [hg]
  conv_lhs => unfold entryChainAux
  simp only [hc, hp]
  rw [entryChainAux_fuel h.2.1 g (g + 1) p (by omega) (by omega)]

theorem Preserves.refl (t : ProfileTree) : Preserves t t :=
  ⟨le_refl _, fun _ _ => rfl, fun _ => rfl, fun _ _ => rfl⟩

theorem Preserves.trans {t₁ t₂ t₃ : ProfileTree} (h₁ : Preserves t₁ t₂) (h₂ : Preserves t₂ t₃) :
    Preserves t₁ t₃ := by
  refine ⟨le_trans h₁.1 h₂.1, ?_, ?_, ?_⟩
  · intro i hi
    rw [h₂.2.1 i (lt_of_lt_of_le hi h₁.1), h₁.2.1 i hi]
  · intro i
    rw [h₂.2.2.1 i, h₁.2.2.1 i]
  · intro i line
    rw [h₂.2.2.2 i line, h₁.2.2.2 i line]

theorem entryChain_of_preserves {t t' : ProfileTree} (h : WF t) (hp : Preserves t t')
    {n : Nat} (hn : n < t.nodes.length) : entryChain t' n = entryChain t n := by
  unfold entryChain
  rw [entryChainAux_agree h.2.1 t.nodes.length hp.2.1 _ n hn]
  exact entryChainAux_fuel h.2.1 _ _ n (lt_of_lt_of_le hn hp.1) hn

/-- An assignment to members other than `parent`, `entry` and `children` keeps the
shape of the tree. -/
theorem WF_updateNode {t : ProfileTree} (h : WF t) (n : Nat) (f : ProfileNode → ProfileNode)
    (hf : ∀ nd, (f nd).parent = nd.parent ∧ (f nd).entry = nd.entry ∧
      (f nd).children = nd.children) : WF (updateNode t n f) := by
  have key : ∀ (i : Nat) (nd' : ProfileNode), (updateNode t n f).nodes[i]? = some nd' →
      ∃ nd : ProfileNode, t.nodes[i]? = some nd ∧ nd'.parent = nd.parent ∧ nd'.entry = nd.entry ∧
        nd'.children = nd.children := by
    intro i nd' hi
    rw [getElem?_updateNode] at hi
    cases hnd : t.nodes[i]? with
    | none => rw [hnd] at hi; cases hi
    | some nd =>
      rw [hnd] at hi
      simp only [Option.map_some', Option.some.injEq] at hi
      refine ⟨nd, rfl, ?_⟩
      subst hi
      split_ifs
      · exact hf nd
      · exact ⟨rfl, rfl, rfl⟩
  have key' : ∀ (i : Nat) (nd : ProfileNode), t.nodes[i]? = some nd →
      ∃ nd' : ProfileNode, (updateNode t n f).nodes[i]? = some nd' ∧ nd'.parent = nd.parent ∧
        nd'.entry = nd.entry := by
    intro i nd hi
    rw [getElem?_updateNode, hi]
    refine ⟨_, rfl, ?_⟩
    split_ifs
    · exact ⟨(hf nd).1, (hf nd).2.1⟩
    · exact ⟨rfl, rfl⟩
  obtain ⟨⟨r, hr, hrp⟩, h2, h3⟩ := h
  refine ⟨?_, ?_, ?_⟩
  · obtain ⟨r', hr', hpar, -⟩ := key' _ r hr
    exact ⟨r', hr', by rw [hpar, hrp]⟩
  · intro i nd' p hi hp
    obtain ⟨nd, hnd, hpar, -, -⟩ := key i nd' hi
    exact h2 i nd p hnd (by rw [← hpar, hp])
  · intro p nd' e c hi hfind
    obtain ⟨nd, hnd, -, -, hch⟩ := key p nd' hi
    rw [hch] at hfind
    obtain ⟨cd, hcd, hcp, hce⟩ := h3 p nd e c hnd hfind
    obtain ⟨cd', hcd', hpar, hent⟩ := key' c cd hcd
    exact ⟨cd', hcd', by rw [hpar, hcp], by rw [hent, hce]⟩

theorem Preserves_updateNode (t : ProfileTree) (n : Nat) (f : ProfileNode → ProfileNode)
    (hf : ∀ nd, (f nd).parent = nd.parent ∧ (f nd).entry = nd.entry ∧
      (f nd).self_ticks = nd.self_ticks ∧ (f nd).line_ticks = nd.line_ticks) :
    Preserves t (updateNode t n f) := by
  refine ⟨by rw [length_updateNode], ?_, ?_, ?_⟩
  · intro i _
    rw [getElem?_updateNode]
    cases t.nodes[i]? with
    | none => rfl
    | some nd =>
      simp only [Option.map_some', Option.some.injEq, Prod.mk.injEq]
      split_ifs
      · exact ⟨(hf nd).1, (hf nd).2.1⟩
      · exact ⟨rfl, rfl⟩
  · intro i
    unfold selfTicks
    rw [getElem?_updateNode]
    cases t.nodes[i]? with
    | none => rfl
    | some nd =>
      simp only [Option.map_some']
      split_ifs
      · exact (hf nd).2.2.1
      · rfl
  · intro i line
    unfold lineTicks
    rw [getElem?_updateNode]
    cases t.nodes[i]? with
    | none => rfl
    | some nd =>
      simp only [Option.map_some']
      split_ifs
      · rw [(hf nd).2.2.2]
      · rfl

/-- The node store after `FindOrAddChild` has added a child to `node`. -/
theorem FindOrAddChild_of_none {t : ProfileTree} {node e : Nat}
    (h : FindChild t node e = none) :
    FindOrAddChild t node e
      = (updateNode (newProfileNode t e (some node)).1 node (fun nd =>
          { nd with children := UnorderedMap.set nd.children e t.nodes.length,
                    children_list := nd.children_list ++ [t.nodes.length] }),
         t.nodes.length) := by
  simp [FindOrAddChild, h, newProfileNode]

theorem FindOrAddChild_spec {t : ProfileTree} (h : WF t) {node : Nat}
    (hn : node < t.nodes.length) (e : Nat) :
    WF (FindOrAddChild t node e).1 ∧ Preserves t (FindOrAddChild t node e).1 ∧
    ∃ cd : ProfileNode, (FindOrAddChild t node e).1.nodes[(FindOrAddChild t node e).2]? = some cd ∧
      cd.parent = some node ∧ cd.entry = e := by
  cases hfc : FindChild t node e with
  | some c =>
    have hres : FindOrAddChild t node e = (t, c) := by simp [FindOrAddChild, hfc]
    rw [hres]
    refine ⟨h, Preserves.refl t, ?_⟩
    unfold FindChild at hfc
    cases hnd : t.nodes[node]? with
    | none => rw [hnd] at hfc; cases hfc
    | some nd =>
      rw [hnd] at hfc
      exact h.2.2 node nd e c hnd hfc
  | none =>
    rw [FindOrAddChild_of_none hfc]
    obtain ⟨⟨r, hr, hrp⟩, h2, h3⟩ := h
    -- the node store before the assignment to `node`
    have hnodes : (newProfileNode t e (some node)).1.nodes
        = t.nodes ++ [ProfileNode.mk e 0 [] [] (some node) t.next_node_id [] []] := rfl
    -- the old nodes, after the call
    have hold : ∀ (i : Nat) (nd : ProfileNode), t.nodes[i]? = some nd →
        ∃ nd' : ProfileNode,
          (updateNode (newProfileNode t e (some node)).1 node (fun nd =>
            { nd with children := UnorderedMap.set nd.children e t.nodes.length,
                      children_list := nd.children_list ++ [t.nodes.length] })).nodes[i]?
            = some nd' ∧
          nd'.parent = nd.parent ∧ nd'.entry = nd.entry ∧ nd'.self_ticks = nd.self_ticks ∧
          nd'.line_ticks = nd.line_ticks ∧
          nd'.children = if node = i then UnorderedMap.set nd.children e t.nodes.length
            else nd.children := by
      intro i nd hi
      have hlt := lt_length_of_getElem? hi
      rw [getElem?_updateNode, hnodes, List.getElem?_append_left hlt, hi]
      refine ⟨_, rfl, ?_⟩
      by_cases hni : node = i <;> simp [hni]
    -- the new node, after the call
    have hnew : ∃ nd' : ProfileNode,
          (updateNode (newProfileNode t e (some node)).1 node (fun nd =>
            { nd with children := UnorderedMap.set nd.children e t.nodes.length,
                      children_list := nd.children_list ++ [t.nodes.length] })).nodes[t.nodes.length]?
            = some nd' ∧
          nd'.parent = some node ∧ nd'.entry = e ∧ nd'.self_ticks = 0 ∧
          nd'.line_ticks = [] ∧ nd'.children = [] := by
      rw [getElem?_updateNode, hnodes, List.getElem?_append_right (le_refl _)]
      have hne : ¬ node = t.nodes.length := by omega
      simp [hne]
    -- every node after the call is one of these
    have hcases : ∀ (i : Nat) (nd' : ProfileNode),
          (updateNode (newProfileNode t e (some node)).1 node (fun nd =>
            { nd with children := UnorderedMap.set nd.children e t.nodes.length,
                      children_list := nd.children_list ++ [t.nodes.length] })).nodes[i]?
            = some nd' →
          (∃ nd : ProfileNode, t.nodes[i]? = some nd) ∨ i = t.nodes.length := by
      intro i nd' hi
      have hlt := lt_length_of_getElem? hi
      rw [length_updateNode, hnodes, List.length_append] at hlt
      simp only [List.length_singleton] at hlt
      by_cases hlt' : i < t.nodes.length
      · exact Or.inl ⟨_, List.getElem?_eq_getElem hlt'⟩
      · exact Or.inr (by omega)
    refine ⟨⟨?_, ?_, ?_⟩, ⟨?_, ?_, ?_, ?_⟩, ?_⟩
    · obtain ⟨r', hr', hpar, -⟩ := hold _ r hr
      exact ⟨r', hr', by rw [hpar, hrp]⟩
    · intro i nd' p hi hp
      rcases hcases i nd' hi with ⟨nd, hnd⟩ | rfl
      · obtain ⟨nd'', hnd'', hpar, -⟩ := hold i nd hnd
        rw [hi] at hnd''
        cases hnd''
        exact h2 i nd p hnd (by rw [← hpar, hp])
      · obtain ⟨nd'', hnd'', hpar, -⟩ := hnew
        rw [hi] at hnd''
        cases hnd''
        rw [hpar] at hp
        cases hp
        exact hn
    · intro p nd' e' c hi hfind
      rcases hcases p nd' hi with ⟨nd, hnd⟩ | rfl
      · obtain ⟨nd'', hnd'', -, -, -, -, hch⟩ := hold p nd hnd
        rw [hi] at hnd''
        cases hnd''
        have hfind' : UnorderedMap.find nd.children e' = some c ∨
            (node = p ∧ e = e' ∧ c = t.nodes.length) := by
          rw [hch] at hfind
          by_cases hnp : node = p
          · rw [if_pos hnp, UnorderedMap.find_set] at hfind
            by_cases hee : e = e'
            · rw [if_pos hee] at hfind
              cases hfind
              exact Or.inr ⟨hnp, hee, rfl⟩
            · rw [if_neg hee] at hfind
              exact Or.inl hfind
          · rw [if_neg hnp] at hfind
            exact Or.inl hfind
        rcases hfind' with hfind' | ⟨hnp, hee, hc⟩
        · obtain ⟨cd, hcd, hcp, hce⟩ := h3 p nd e' c hnd hfind'
          obtain ⟨cd', hcd', hpar, hent, -⟩ := hold c cd hcd
          exact ⟨cd', hcd', by rw [hpar, hcp], by rw [hent, hce]⟩
        · obtain ⟨cd', hcd', hpar, hent, -⟩ := hnew
          subst hnp hee hc
          exact ⟨cd', hcd', hpar, hent⟩
      · obtain ⟨nd'', hnd'', -, -, -, -, hch⟩ := hnew
        rw [hi] at hnd''
        cases hnd''
        rw [hch] at hfind
        cases hfind
    · rw [length_updateNode, hnodes, List.length_append]
      omega
    · intro i hi
      obtain ⟨nd', hnd', hpar, hent, -⟩ := hold i _ (List.getElem?_eq_getElem hi)
      rw [hnd', List.getElem?_eq_getElem hi]
      simp [hpar, hent]
    · intro i
      unfold selfTicks
      by_cases hi : i < t.nodes.length
      · obtain ⟨nd', hnd', -, -, hst, -⟩ := hold i _ (List.getElem?_eq_getElem hi)
        rw [hnd', List.getElem?_eq_getElem hi]
        exact hst
      · rw [List.getElem?_eq_none (l := t.nodes) (by omega)]
        by_cases hi' : i = t.nodes.length
        · obtain ⟨nd', hnd', -, -, hst, -⟩ := hnew
          rw [hi', hnd']
          exact hst
        · rw [List.getElem?_eq_none]
          rw [length_updateNode, hnodes, List.length_append]
          simp only [List.length_singleton]
          omega
    · intro i line
      unfold lineTicks
      by_cases hi : i < t.nodes.length
      · obtain ⟨nd', hnd', -, -, -, hlt, -⟩ := hold i _ (List.getElem?_eq_getElem hi)
        rw [hnd', List.getElem?_eq_getElem hi]
        simp only [hlt]
      · rw [List.getElem?_eq_none (l := t.nodes) (by omega)]
        by_cases hi' : i = t.nodes.length
        · obtain ⟨nd', hnd', -, -, -, hlt, -⟩ := hnew
          rw [hi', hnd']
          simp [hlt, UnorderedMap.find]
        · rw [List.getElem?_eq_none]
          rw [length_updateNode, hnodes, List.length_append]
          simp only [List.length_singleton]
          omega
    · obtain ⟨cd', hcd', hpar, hent, -⟩ := hnew
      exact ⟨cd', hcd', hpar, hent⟩

theorem foldl_addPathStep (l : List Nat) :
    ∀ (st : PathState) (ch : List Nat), WF st.tree → st.node < st.tree.nodes.length →
      entryChain st.tree st.node = some ch →
      WF (l.foldl addPathStep st).tree ∧
      (l.foldl addPathStep st).node < (l.foldl addPathStep st).tree.nodes.length ∧
      Preserves st.tree (l.foldl addPathStep st).tree ∧
      entryChain (l.foldl addPathStep st).tree (l.foldl addPathStep st).node
        = some (ch ++ l.filter (fun e => decide (e ≠ nullptr))) ∧
      ((∀ e ∈ l, e = nullptr) → (l.foldl addPathStep st).node = st.node) := by
  induction l with
  | nil =>
    intro st ch hwf hn hch
    exact ⟨hwf, hn, Preserves.refl _, by simpa using hch, fun _ => rfl⟩
  | cons e l ih =>
    intro st ch hwf hn hch
    rw [List.foldl_cons]
    by_cases he : e = nullptr
    · have hstep : addPathStep st e = st := by simp [addPathStep, he]
      rw [hstep]
      obtain ⟨h1, h2, h3, h4, h5⟩ := ih st ch hwf hn hch
      refine ⟨h1, h2, h3, ?_, ?_⟩
      · rw [h4]
        simp [List.filter, he]
      · intro hall
        exact h5 (fun x hx => hall x (List.mem_cons_of_mem _ hx))
    · obtain ⟨hwf', hpres, cd, hcd, hcp, hce⟩ := FindOrAddChild_spec hwf hn e
      have hstep : addPathStep st e
          = { tree := (FindOrAddChild st.tree st.node e).1,
              node := (FindOrAddChild st.tree st.node e).2, last_entry := e } := by
        simp [addPathStep, he]
      rw [hstep]
      have hchain : entryChain (FindOrAddChild st.tree st.node e).1
          (FindOrAddChild st.tree st.node e).2 = some (ch ++ [e]) := by
        rw [entryChain_child hwf' hcd hcp, entryChain_of_preserves hwf hpres hn, hch, hce]
        rfl
      obtain ⟨h1, h2, h3, h4, -⟩ :=
        ih { tree := (FindOrAddChild st.tree st.node e).1,
             node := (FindOrAddChild st.tree st.node e).2, last_entry := e }
          (ch ++ [e]) hwf' (lt_length_of_getElem? hcd) hchain
      refine ⟨h1, h2, hpres.trans h3, ?_, ?_⟩
      · rw [h4]
        simp [List.filter, he]
      · intro hall
        exact absurd (hall e (List.mem_cons_self _ _)) he

theorem WF_new (root_entry : Nat) : WF (new root_entry) := by
  refine ⟨⟨_, rfl, rfl⟩, ?_, ?_⟩
  · intro i nd p hi hp
    have hlt := lt_length_of_getElem? hi
    have h0 : i = 0 := by
      simp [new, newProfileNode] at hlt
      exact hlt
    subst h0
    simp [new, newProfileNode] at hi
    subst hi
    cases hp
  · intro p nd e c hi hfind
    have hlt := lt_length_of_getElem? hi
    have h0 : p = 0 := by
      simp [new, newProfileNode] at hlt
      exact hlt
    subst h0
    simp [new, newProfileNode] at hi
    subst hi
    cases hfind

theorem AddPathFromEnd_node (store : CodeEntryStore) (t : ProfileTree) (path : List Nat)
    (src_line : Int) (update_stats : Bool) :
    (AddPathFromEnd store t path src_line update_stats).2.2 = (pathLoop t path).node := rfl

theorem AddPathFromEnd_tree (store : CodeEntryStore) (t : ProfileTree) (path : List Nat)
    (src_line : Int) (update_stats : Bool) :
    (AddPathFromEnd store t path src_line update_stats).2.1 =
      if update_stats = true then
        if src_line ≠ kNoLineNumberInfo then
          IncrementLineTicks
            (IncrementSelfTicks (afterDeopt store t path).2 (pathLoop t path).node)
            (pathLoop t path).node src_line
        else IncrementSelfTicks (afterDeopt store t path).2 (pathLoop t path).node
      else (afterDeopt store t path).2 := by
  unfold AddPathFromEnd
  simp only []

theorem pathLoop_spec {t : ProfileTree} (h : WF t) (path : List Nat) :
    WF (pathLoop t path).tree ∧
    (pathLoop t path).node < (pathLoop t path).tree.nodes.length ∧
    Preserves t (pathLoop t path).tree ∧
    entryChain (pathLoop t path).tree (pathLoop t path).node
      = some ((path.filter (fun e => decide (e ≠ nullptr))).reverse) ∧
    ((∀ e ∈ path, e = nullptr) → (pathLoop t path).node = root_) := by
  have hlen : root_ < t.nodes.length := by
    obtain ⟨⟨r, hr, -⟩, -, -⟩ := h
    exact lt_length_of_getElem? hr
  obtain ⟨h1, h2, h3, h4, h5⟩ :=
    foldl_addPathStep path.reverse { tree := t, node := root_, last_entry := nullptr } []
      h hlen (entryChain_root h)
  refine ⟨h1, h2, h3, ?_, ?_⟩
  · unfold pathLoop
    rw [h4, List.filter_reverse]
    rfl
  · intro hall
    exact h5 (fun e he => hall e (List.mem_reverse.mp he))

theorem afterDeopt_spec {t : ProfileTree} (h : WF t) (store : CodeEntryStore)
    (path : List Nat) :
    WF (afterDeopt store t path).2 ∧
    Preserves (pathLoop t path).tree (afterDeopt store t path).2 := by
  obtain ⟨h1, -, -, -, -⟩ := pathLoop_spec h path
  unfold afterDeopt
  simp only []
  split_ifs
  · exact ⟨WF_updateNode h1 _ _ (fun nd => ⟨rfl, rfl, rfl⟩),
      Preserves_updateNode _ _ _ (fun nd => ⟨rfl, rfl, rfl, rfl⟩)⟩
  · exact ⟨h1, Preserves.refl _⟩

/-! ### The tick counters -/

theorem nodeIncrementLineTicks_shape (nd : ProfileNode) (src_line : Int) :
    (nodeIncrementLineTicks nd src_line).parent = nd.parent ∧
    (nodeIncrementLineTicks nd src_line).entry = nd.entry ∧
    (nodeIncrementLineTicks nd src_line).children = nd.children ∧
    (nodeIncrementLineTicks nd src_line).self_ticks = nd.self_ticks := by
  unfold nodeIncrementLineTicks
  split_ifs
  · exact ⟨rfl, rfl, rfl, rfl⟩
  · cases UnorderedMap.find nd.line_ticks src_line <;> exact ⟨rfl, rfl, rfl, rfl⟩

theorem nodeIncrementLineTicks_find (nd : ProfileNode) {src_line : Int}
    (hs : src_line ≠ kNoLineNumberInfo) (line : Int) :
    (UnorderedMap.find (nodeIncrementLineTicks nd src_line).line_ticks line).getD 0
      = (UnorderedMap.find nd.line_ticks line).getD 0 + if line = src_line then 1 else 0 := by
  unfold nodeIncrementLineTicks
  rw [if_neg hs]
  cases hfind : UnorderedMap.find nd.line_ticks src_line with
  | none =>
    simp only [UnorderedMap.find_set]
    by_cases hl : line = src_line
    · subst hl
      simp [hfind]
    · have hl' : ¬ src_line = line := fun h => hl h.symm
      simp [hl, hl']
  | some count =>
    simp only [UnorderedMap.find_set]
    by_cases hl : line = src_line
    · subst hl
      simp [hfind]
    · have hl' : ¬ src_line = line := fun h => hl h.symm
      simp [hl, hl']

theorem selfTicks_IncrementSelfTicks (t : ProfileTree) {n : Nat} (hn : n < t.nodes.length)
    (i : Nat) :
    selfTicks (IncrementSelfTicks t n) i = selfTicks t i + if i = n then 1 else 0 := by
  unfold selfTicks IncrementSelfTicks
  rw [getElem?_updateNode]
  by_cases hi : i = n
  · subst hi
    rw [List.getElem?_eq_getElem hn]
    simp [nodeIncrementSelfTicks]
  · have hne : ¬ n = i := fun h => hi h.symm
    cases t.nodes[i]? with
    | none => simp [hi]
    | some nd => simp [hi, hne]

theorem lineTicks_IncrementSelfTicks (t : ProfileTree) (n i : Nat) (line : Int) :
    lineTicks (IncrementSelfTicks t n) i line = lineTicks t i line := by
  unfold lineTicks IncrementSelfTicks
  rw [getElem?_updateNode]
  cases t.nodes[i]? with
  | none => rfl
  | some nd =>
    simp only [Option.map_some']
    split_ifs <;> rfl

theorem selfTicks_IncrementLineTicks (t : ProfileTree) (n i : Nat) (src_line : Int) :
    selfTicks (IncrementLineTicks t n src_line) i = selfTicks t i := by
  unfold selfTicks IncrementLineTicks
  rw [getElem?_updateNode]
  cases t.nodes[i]? with
  | none => rfl
  | some nd =>
    simp only [Option.map_some']
    split_ifs
    · exact (nodeIncrementLineTicks_shape nd src_line).2.2.2
    · rfl

theorem lineTicks_IncrementLineTicks (t : ProfileTree) {n : Nat} (hn : n < t.nodes.length)
    {src_line : Int} (hs : src_line ≠ kNoLineNumberInfo) (i : Nat) (line : Int) :
    lineTicks (IncrementLineTicks t n src_line) i line
      = lineTicks t i line + if i = n ∧ line = src_line then 1 else 0 := by
  unfold lineTicks IncrementLineTicks
  rw [getElem?_updateNode]
  by_cases hi : i = n
  · subst hi
    rw [List.getElem?_eq_getElem hn]
    simp only [Option.map_some', if_true, true_and]
    exact nodeIncrementLineTicks_find _ hs line
  · have hne : ¬ n = i := fun h => hi h.symm
    cases t.nodes[i]? with
    | none => simp [hi]
    | some nd => simp [hi, hne]

theorem WF_IncrementSelfTicks {t : ProfileTree} (h : WF t) (n : Nat) :
    WF (IncrementSelfTicks t n) :=
  WF_updateNode h _ _ (fun _ => ⟨rfl, rfl, rfl⟩)

theorem WF_IncrementLineTicks {t : ProfileTree} (h : WF t) (n : Nat) (src_line : Int) :
    WF (IncrementLineTicks t n src_line) :=
  WF_updateNode h _ _ (fun nd =>
    ⟨(nodeIncrementLineTicks_shape nd src_line).1, (nodeIncrementLineTicks_shape nd src_line).2.1,
     (nodeIncrementLineTicks_shape nd src_line).2.2.1⟩)

/-- Two trees with the same nodes up to members other than `parent` and `entry` give the
same chains. -/
theorem entryChain_of_shape {t t' : ProfileTree} (h : WF t)
    (hlen : t'.nodes.length = t.nodes.length)
    (hag : ∀ i : Nat, (t'.nodes[i]?).map (fun nd : ProfileNode => (nd.parent, nd.entry))
        = (t.nodes[i]?).map (fun nd : ProfileNode => (nd.parent, nd.entry)))
    (n : Nat) : entryChain t' n = entryChain t n := by
  unfold entryChain
  rw [hlen]
  by_cases hn : n < t.nodes.length
  · exact entryChainAux_agree h.2.1 t.nodes.length (fun i _ => hag i) _ n hn
  · cases hl : t.nodes.length with
    | zero => rfl
    | succ g =>
      unfold entryChainAux
      rw [List.getElem?_eq_none (l := t.nodes) (by omega),
        List.getElem?_eq_none (l := t'.nodes) (by omega)]

theorem shape_updateNode (t : ProfileTree) (n : Nat) (f : ProfileNode → ProfileNode)
    (hf : ∀ nd, (f nd).parent = nd.parent ∧ (f nd).entry = nd.entry) :
    (updateNode t n f).nodes.length = t.nodes.length ∧
    ∀ i : Nat, ((updateNode t n f).nodes[i]?).map (fun nd : ProfileNode => (nd.parent, nd.entry))
        = (t.nodes[i]?).map (fun nd : ProfileNode => (nd.parent, nd.entry)) := by
  refine ⟨length_updateNode t n f, ?_⟩
  intro i
  rw [getElem?_updateNode]
  cases t.nodes[i]? with
  | none => rfl
  | some nd =>
    simp only [Option.map_some', Option.some.injEq, Prod.mk.injEq]
    split_ifs
    · exact hf nd
    · exact ⟨rfl, rfl⟩

theorem entryChain_IncrementSelfTicks {t : ProfileTree} (h : WF t) (n i : Nat) :
    entryChain (IncrementSelfTicks t n) i = entryChain t i := by
  obtain ⟨h1, h2⟩ := shape_updateNode t n nodeIncrementSelfTicks (fun _ => ⟨rfl, rfl⟩)
  exact entryChain_of_shape h h1 h2 i

theorem entryChain_IncrementLineTicks {t : ProfileTree} (h : WF t) (n i : Nat)
    (src_line : Int) :
    entryChain (IncrementLineTicks t n src_line) i = entryChain t i := by
  obtain ⟨h1, h2⟩ := shape_updateNode t n (fun nd => nodeIncrementLineTicks nd src_line)
    (fun nd => ⟨(nodeIncrementLineTicks_shape nd src_line).1,
      (nodeIncrementLineTicks_shape nd src_line).2.1⟩)
  exact entryChain_of_shape h h1 h2 i

/-- The shape, the chain of the node returned and the counters after `AddPathFromEnd`. -/
theorem AddPathFromEnd_spec {t : ProfileTree} (h : WF t) (store : CodeEntryStore)
    (path : List Nat) (src_line : Int) (update_stats : Bool) :
    WF (AddPathFromEnd store t path src_line update_stats).2.1 ∧
    entryChain (AddPathFromEnd store t path src_line update_stats).2.1
        (AddPathFromEnd store t path src_line update_stats).2.2
      = some ((path.filter (fun e => decide (e ≠ nullptr))).reverse) ∧
    ((∀ e ∈ path, e = nullptr) →
      (AddPathFromEnd store t path src_line update_stats).2.2 = root_) ∧
    (∀ i, selfTicks (AddPathFromEnd store t path src_line update_stats).2.1 i
      = selfTicks t i +
        if update_stats = true ∧ i = (AddPathFromEnd store t path src_line update_stats).2.2
        then 1 else 0) ∧
    (∀ i line, lineTicks (AddPathFromEnd store t path src_line update_stats).2.1 i line
      = lineTicks t i line +
        if update_stats = true ∧ src_line ≠ kNoLineNumberInfo ∧
          i = (AddPathFromEnd store t path src_line update_stats).2.2 ∧ line = src_line
        then 1 else 0) := by
  obtain ⟨hwf1, hn1, hpres1, hch1, hroot⟩ := pathLoop_spec h path
  obtain ⟨hwf2, hpres2⟩ := afterDeopt_spec h store path
  have hpres := hpres1.trans hpres2
  have hn2 : (pathLoop t path).node < (afterDeopt store t path).2.nodes.length :=
    lt_of_lt_of_le hn1 hpres2.1
  have hch2 : entryChain (afterDeopt store t path).2 (pathLoop t path).node
      = some ((path.filter (fun e => decide (e ≠ nullptr))).reverse) := by
    rw [entryChain_of_preserves hwf1 hpres2 hn1, hch1]
  rw [AddPathFromEnd_node, AddPathFromEnd_tree]
  refine ⟨?_, ?_, hroot, ?_, ?_⟩
  · split_ifs
    · exact WF_IncrementLineTicks (WF_IncrementSelfTicks hwf2 _) _ _
    · exact WF_IncrementSelfTicks hwf2 _
    · exact hwf2
  · split_ifs
    · rw [entryChain_IncrementLineTicks (WF_IncrementSelfTicks hwf2 _),
        entryChain_IncrementSelfTicks hwf2, hch2]
    · rw [entryChain_IncrementSelfTicks hwf2, hch2]
    · exact hch2
  · intro i
    by_cases hu : update_stats = true
    · by_cases hs : src_line ≠ kNoLineNumberInfo
      · rw [if_pos hu, if_pos hs, selfTicks_IncrementLineTicks,
          selfTicks_IncrementSelfTicks _ hn2, hpres.2.2.1 i]
        simp [hu]
      · rw [if_pos hu, if_neg hs, selfTicks_IncrementSelfTicks _ hn2, hpres.2.2.1 i]
        simp [hu]
    · rw [if_neg hu, hpres.2.2.1 i]
      simp [hu]
  · intro i line
    have hlen : (pathLoop t path).node
        < (IncrementSelfTicks (afterDeopt store t path).2 (pathLoop t path).node).nodes.length := by
      unfold IncrementSelfTicks
      rw [length_updateNode]
      exact hn2
    by_cases hu : update_stats = true
    · by_cases hs : src_line ≠ kNoLineNumberInfo
      · rw [if_pos hu, if_pos hs, lineTicks_IncrementLineTicks _ hlen hs,
          lineTicks_IncrementSelfTicks, hpres.2.2.2 i line]
        simp [hu, hs]
      · rw [if_pos hu, if_neg hs, lineTicks_IncrementSelfTicks, hpres.2.2.2 i line]
        simp [hs]
    · rw [if_neg hu, hpres.2.2.2 i line]
      simp [hu]

/-- C6: on every profile tree, `AddPathFromEnd` returns a node whose chain of code
entries, read from the child of the root down to that node, is the list of the non-null
entries of the path in reverse order; for a path that is empty or holds only nulls the
node returned is the root. The tree keeps its shape, so the same holds for the next call. -/
theorem AddPathFromEnd_chain (store : CodeEntryStore) (t : ProfileTree) (path : List Nat)
    (src_line : Int) (update_stats : Bool) (h : WF t) :
    entryChain (AddPathFromEnd store t path src_line update_stats).2.1
        (AddPathFromEnd store t path src_line update_stats).2.2
      = some ((path.filter (fun e => decide (e ≠ nullptr))).reverse) ∧
    ((∀ e ∈ path, e = nullptr) →
      (AddPathFromEnd store t path src_line update_stats).2.2 = root_) ∧
    WF (AddPathFromEnd store t path src_line update_stats).2.1 := by
  obtain ⟨h1, h2, h3, -, -⟩ := AddPathFromEnd_spec h store path src_line update_stats
  exact ⟨h2, h3, h1⟩

/-- On a new tree, the path `[5, nullptr, 3]` gives the chain `3, 5`. -/
theorem AddPathFromEnd_chain_witness :
    WF (new 100) ∧
    entryChain (AddPathFromEnd plainStore (new 100) [5, nullptr, 3] 7 true).2.1
        (AddPathFromEnd plainStore (new 100) [5, nullptr, 3] 7 true).2.2
      = some [3, 5] :=
  ⟨WF_new 100, (AddPathFromEnd_chain plainStore (new 100) [5, nullptr, 3] 7 true (WF_new 100)).1⟩

/-- C7: `AddPathFromEnd` changes the self-tick and line-tick counters of no node other
than the node it returns; with `update_stats` false it changes no counter; with
`update_stats` true it adds exactly `1` to the self ticks of the node returned and,
iff `src_line` is not `kNoLineNumberInfo`, exactly `1` to the count of that node for
`src_line`, leaving its counts for the other lines as they were. For a path that is empty
or holds only nulls the node returned, hence the only node updated, is the root. -/
theorem AddPathFromEnd_ticks (store : CodeEntryStore) (t : ProfileTree) (path : List Nat)
    (src_line : Int) (update_stats : Bool) (h : WF t) :
    (∀ i, i ≠ (AddPathFromEnd store t path src_line update_stats).2.2 →
      selfTicks (AddPathFromEnd store t path src_line update_stats).2.1 i = selfTicks t i ∧
      ∀ line, lineTicks (AddPathFromEnd store t path src_line update_stats).2.1 i line
        = lineTicks t i line) ∧
    (update_stats = false → ∀ i,
      selfTicks (AddPathFromEnd store t path src_line update_stats).2.1 i = selfTicks t i ∧
      ∀ line, lineTicks (AddPathFromEnd store t path src_line update_stats).2.1 i line
        = lineTicks t i line) ∧
    (update_stats = true →
      selfTicks (AddPathFromEnd store t path src_line update_stats).2.1
          (AddPathFromEnd store t path src_line update_stats).2.2
        = selfTicks t (AddPathFromEnd store t path src_line update_stats).2.2 + 1 ∧
      ∀ line, lineTicks (AddPathFromEnd store t path src_line update_stats).2.1
          (AddPathFromEnd store t path src_line update_stats).2.2 line
        = lineTicks t (AddPathFromEnd store t path src_line update_stats).2.2 line
          + if src_line ≠ kNoLineNumberInfo ∧ line = src_line then 1 else 0) ∧
    ((∀ e ∈ path, e = nullptr) →
      (AddPathFromEnd store t path src_line update_stats).2.2 = root_) := by
  obtain ⟨-, -, h3, h4, h5⟩ := AddPathFromEnd_spec h store path src_line update_stats
  refine ⟨?_, ?_, ?_, h3⟩
  · intro i hi
    refine ⟨?_, fun line => ?_⟩
    · rw [h4 i]; simp [hi]
    · rw [h5 i line]; simp [hi]
  · intro hu i
    refine ⟨?_, fun line => ?_⟩
    · rw [h4 i]; simp [hu]
    · rw [h5 i line]; simp [hu]
  · intro hu
    refine ⟨?_, fun line => ?_⟩
    · rw [h4]; simp [hu]
    · rw [h5]; simp [hu]

/-- On a new tree, the path `[5, nullptr, 3]` with line `7` and `update_stats` true gives
the node returned one self tick and one tick for line `7`. -/
theorem AddPathFromEnd_ticks_witness :
    WF (new 100) ∧
    selfTicks (AddPathFromEnd plainStore (new 100) [5, nullptr, 3] 7 true).2.1
        (AddPathFromEnd plainStore (new 100) [5, nullptr, 3] 7 true).2.2 = 1 ∧
    lineTicks (AddPathFromEnd plainStore (new 100) [5, nullptr, 3] 7 true).2.1
        (AddPathFromEnd plainStore (new 100) [5, nullptr, 3] 7 true).2.2 7 = 1 :=
  ⟨WF_new 100,
   ((AddPathFromEnd_ticks plainStore (new 100) [5, nullptr, 3] 7 true (WF_new 100)).2.2.1 rfl).1,
   ((AddPathFromEnd_ticks plainStore (new 100) [5, nullptr, 3] 7 true (WF_new 100)).2.2.1 rfl).2 7⟩

end ProfileTree

/-! ## ProfileGenerator -/

namespace ProfileGenerator

/-- The locals of `RecordTickSample` when it starts. -/
theorem RecordTickSample_eq (g : ProfileGenerator) (sample : TickSample) :
    RecordTickSample g sample =
      { timestamp := sample.timestamp,
        path := (if sample.pc ≠ nullptr then
              stackWalk g sample (topOfStack g sample ⟨[], kNoLineNumberInfo, true⟩)
            else ⟨[], kNoLineNumberInfo, true⟩).entries ++
          vmStateEntries g sample (if sample.pc ≠ nullptr then
              stackWalk g sample (topOfStack g sample ⟨[], kNoLineNumberInfo, true⟩)
            else ⟨[], kNoLineNumberInfo, true⟩).entries,
        src_line := (if sample.pc ≠ nullptr then
              stackWalk g sample (topOfStack g sample ⟨[], kNoLineNumberInfo, true⟩)
            else ⟨[], kNoLineNumberInfo, true⟩).src_line,
        update_stats := sample.update_stats } := rfl

theorem sourceLine_eq (g : ProfileGenerator) (pos entry : Nat) :
    sourceLine (g.store entry) (pcOffset pos (g.store entry).instruction_start)
      = specFrameLine g pos entry := rfl

theorem topOfStack_spec (g : ProfileGenerator) (sample : TickSample) (st : SampleState) :
    (topOfStack g sample st).entries = st.entries ++ specTopEntries g sample ∧
    (topOfStack g sample st).src_line =
      (if ¬ (sample.has_external_callback = true ∧ sample.state = StateTag.EXTERNAL) ∧
          specPcEntry g sample ≠ nullptr then
        specFrameLine g sample.pc (specPcEntry g sample) else st.src_line) ∧
    (topOfStack g sample st).src_line_not_found =
      (if ¬ (sample.has_external_callback = true ∧ sample.state = StateTag.EXTERNAL) ∧
          specPcEntry g sample ≠ nullptr then false else st.src_line_not_found) := by
  unfold topOfStack specTopEntries
  by_cases hext : sample.has_external_callback = true ∧ sample.state = StateTag.EXTERNAL
  · have hc : ¬ (¬ (sample.has_external_callback = true ∧ sample.state = StateTag.EXTERNAL) ∧
        specPcEntry g sample ≠ nullptr) := fun h => h.1 hext
    simp only [if_pos hext, if_neg hc, and_self]
  · have hpc : (if FindEntry g sample.pc = nullptr ∧ sample.has_external_callback = false then
        FindEntry g sample.tos else FindEntry g sample.pc) = specPcEntry g sample := rfl
    simp only [if_neg hext, hpc]
    by_cases hnull : specPcEntry g sample = nullptr
    · have hc : ¬ (¬ (sample.has_external_callback = true ∧
          sample.state = StateTag.EXTERNAL) ∧ specPcEntry g sample ≠ nullptr) :=
        fun h => h.2 hnull
      simp only [if_neg hc]
      simp [hnull]
    · have hc : ¬ (sample.has_external_callback = true ∧ sample.state = StateTag.EXTERNAL) ∧
          specPcEntry g sample ≠ nullptr := ⟨hext, hnull⟩
      rw [if_pos hc, if_pos hc]
      simp only [ne_eq, hnull, not_false_eq_true, if_true, if_false, sourceLine_eq]
      by_cases hb : (g.store (specPcEntry g sample)).builtin_id
            = BuiltinsName.kFunctionPrototypeApply ∨
          (g.store (specPcEntry g sample)).builtin_id = BuiltinsName.kFunctionPrototypeCall
      · by_cases hcb : sample.has_external_callback = false
        · simp [hb, hcb]
        · simp [hb, hcb]
      · simp [hb]

theorem stackFrame_spec (g : ProfileGenerator) (st : SampleState) (pos : Nat) :
    (stackFrame g st pos).entries = st.entries ++ specFrameEntries g pos ∧
    (stackFrame g st pos).src_line =
      (if st.src_line_not_found = true ∧ FindEntry g pos ≠ nullptr then
        specFrameLine g pos (FindEntry g pos) else st.src_line) ∧
    (stackFrame g st pos).src_line_not_found =
      (if FindEntry g pos ≠ nullptr then false else st.src_line_not_found) := by
  unfold stackFrame specFrameEntries specInlineStack
  by_cases hnull : FindEntry g pos = nullptr
  · simp [hnull]
  · simp only [ne_eq, hnull, not_false_eq_true, if_true, if_false, sourceLine_eq, and_true]
    cases hin : CodeEntry.GetInlineStack (g.store (FindEntry g pos))
        (pcOffset pos (g.store (FindEntry g pos)).instruction_start) with
    | none =>
      by_cases hnf : st.src_line_not_found = true
      · simp [hnf]
      · simp [hnf]
    | some inline_stack =>
      by_cases hnf : st.src_line_not_found = true
      · simp [hnf]
      · simp [hnf]

theorem foldl_stackFrame (g : ProfileGenerator) (frames : List Nat) :
    ∀ st : SampleState,
      (frames.foldl (stackFrame g) st).entries
        = st.entries ++ frames.flatMap (specFrameEntries g) ∧
      (frames.foldl (stackFrame g) st).src_line =
        (if st.src_line_not_found = true then
          match frames.find? (fun pos => decide (FindEntry g pos ≠ nullptr)) with
          | some pos => specFrameLine g pos (FindEntry g pos)
          | none => st.src_line
        else st.src_line) := by
  induction frames with
  | nil => intro st; simp
  | cons pos frames ih =>
    intro st
    obtain ⟨h1, h2, h3⟩ := stackFrame_spec g st pos
    obtain ⟨i1, i2⟩ := ih (stackFrame g st pos)
    rw [List.foldl_cons]
    refine ⟨?_, ?_⟩
    · rw [i1, h1]
      simp
    · rw [i2, h2, h3]
      by_cases hnull : FindEntry g pos = nullptr
      · simp [hnull, List.find?]
      · by_cases hnf : st.src_line_not_found = true
        · simp [hnull, hnf, List.find?]
        · simp [hnull, hnf]

/-- The path and the source line that `RecordTickSample` submits for a sample whose `pc`
is not null. -/
theorem RecordTickSample_spec (g : ProfileGenerator) (sample : TickSample)
    (hpc : sample.pc ≠ nullptr) :
    (RecordTickSample g sample).path
      = (specTopEntries g sample ++ (sampleFrames sample).flatMap (specFrameEntries g))
        ++ vmStateEntries g sample
          (specTopEntries g sample ++ (sampleFrames sample).flatMap (specFrameEntries g)) ∧
    (RecordTickSample g sample).src_line = specSrcLine g sample := by
  obtain ⟨t1, t2, t3⟩ := topOfStack_spec g sample ⟨[], kNoLineNumberInfo, true⟩
  obtain ⟨f1, f2⟩ := foldl_stackFrame g (sampleFrames sample)
    (topOfStack g sample ⟨[], kNoLineNumberInfo, true⟩)
  rw [RecordTickSample_eq]
  simp only [if_pos hpc]
  unfold stackWalk
  rw [f1, f2, t1, t2, t3]
  refine ⟨by simp, ?_⟩
  unfold specSrcLine
  by_cases hc : ¬ (sample.has_external_callback = true ∧ sample.state = StateTag.EXTERNAL) ∧
      specPcEntry g sample ≠ nullptr
  · simp only [if_pos hc]
    simp
  · simp only [if_neg hc]
    simp

/-- C8: for a sample with `pc != nullptr`, the entries that the resolution of the top
of the stack pushes are `[FindEntry(external_callback_entry)]` in an external callback
in state `EXTERNAL`; otherwise, with `pc_entry = FindEntry(pc)` replaced by
`FindEntry(tos)` only when it is null outside an external callback: nothing if
`pc_entry` is null, `[pc_entry, unresolved_entry]` at the builtins
`FunctionPrototypeApply` and `FunctionPrototypeCall` outside an external callback, and
`[pc_entry]` in every other case. The path submitted starts with these entries, goes on
with those of the stack walk and ends with those of the VM-state fallback. -/
theorem RecordTickSample_top_of_stack (g : ProfileGenerator) (sample : TickSample)
    (hpc : sample.pc ≠ nullptr) :
    (topOfStack g sample ⟨[], kNoLineNumberInfo, true⟩).entries = specTopEntries g sample ∧
    (RecordTickSample g sample).path
      = specTopEntries g sample
        ++ (stackWalk g sample ⟨[], kNoLineNumberInfo, true⟩).entries
        ++ vmStateEntries g sample
          (specTopEntries g sample
            ++ (stackWalk g sample ⟨[], kNoLineNumberInfo, true⟩).entries) := by
  obtain ⟨t1, -, -⟩ := topOfStack_spec g sample ⟨[], kNoLineNumberInfo, true⟩
  obtain ⟨f1, -⟩ := foldl_stackFrame g (sampleFrames sample) ⟨[], kNoLineNumberInfo, true⟩
  obtain ⟨h1, -⟩ := RecordTickSample_spec g sample hpc
  refine ⟨by simpa using t1, ?_⟩
  unfold stackWalk
  rw [h1, f1]
  simp

/-- In scenario S2 the top of the stack contributes the entry `A` alone. -/
theorem RecordTickSample_top_of_stack_witness :
    sampleS2.pc ≠ nullptr ∧
    (topOfStack generatorS2 sampleS2 ⟨[], kNoLineNumberInfo, true⟩).entries = [1] :=
  ⟨by decide, (RecordTickSample_top_of_stack generatorS2 sampleS2 (by decide)).1⟩

/-- C9: for a sample with `pc != nullptr`, the stack frames contribute to the path in
index order, the frame at `stack[i]` that resolves to the entry `E` with the inline
stack `[I1, ..., In]` contributing `In, ..., I1, E` (just `E` without an inline stack,
null without an entry); hence, in the chain of the node that `AddPathFromEnd` returns
for the path, the part of each frame reads `E, I1, ..., In` from the root side, the
frames coming in reverse index order between the VM-state entry and the entries of the
top of the stack, nulls left out. -/
theorem RecordTickSample_stack_frames (g : ProfileGenerator) (sample : TickSample)
    (t : ProfileTree) (hpc : sample.pc ≠ nullptr) (hwf : ProfileTree.WF t) :
    (RecordTickSample g sample).path
      = (topOfStack g sample ⟨[], kNoLineNumberInfo, true⟩).entries
        ++ (sampleFrames sample).flatMap (specFrameEntries g)
        ++ vmStateEntries g sample
          ((topOfStack g sample ⟨[], kNoLineNumberInfo, true⟩).entries
            ++ (sampleFrames sample).flatMap (specFrameEntries g)) ∧
    ProfileTree.entryChain
        (ProfileTree.AddPathFromEnd g.store t (RecordTickSample g sample).path
          (RecordTickSample g sample).src_line (RecordTickSample g sample).update_stats).2.1
        (ProfileTree.AddPathFromEnd g.store t (RecordTickSample g sample).path
          (RecordTickSample g sample).src_line (RecordTickSample g sample).update_stats).2.2
      = some (((vmStateEntries g sample
            ((topOfStack g sample ⟨[], kNoLineNumberInfo, true⟩).entries
              ++ (sampleFrames sample).flatMap (specFrameEntries g))).reverse
          ++ (sampleFrames sample).reverse.flatMap (specFrameChain g)
          ++ (topOfStack g sample ⟨[], kNoLineNumberInfo, true⟩).entries.reverse).filter
            (fun e => decide (e ≠ nullptr))) := by
  obtain ⟨t1, -, -⟩ := topOfStack_spec g sample ⟨[], kNoLineNumberInfo, true⟩
  obtain ⟨h1, -⟩ := RecordTickSample_spec g sample hpc
  have ht : (topOfStack g sample ⟨[], kNoLineNumberInfo, true⟩).entries
      = specTopEntries g sample := by simpa using t1
  have hrev : (List.reverse ∘ specFrameEntries g) = specFrameChain g := by
    funext pos
    simp [specFrameEntries, specFrameChain]
  refine ⟨by rw [h1, ht], ?_⟩
  rw [(ProfileTree.AddPathFromEnd_spec hwf g.store _ _ _).2.1, h1, ht, ← List.filter_reverse]
  simp only [List.reverse_append, List.reverse_flatMap, hrev, List.append_assoc]

/-- Scenario S2: the path `[A, I2, I1, A]` gives the chain `A, I1, I2, A` below the
root. -/
theorem RecordTickSample_stack_frames_witness :
    sampleS2.pc ≠ nullptr ∧ ProfileTree.WF (ProfileTree.new 100) ∧
    (RecordTickSample generatorS2 sampleS2).path = [1, 3, 2, 1] ∧
    ProfileTree.entryChain
        (ProfileTree.AddPathFromEnd generatorS2.store (ProfileTree.new 100)
          (RecordTickSample generatorS2 sampleS2).path
          (RecordTickSample generatorS2 sampleS2).src_line
          (RecordTickSample generatorS2 sampleS2).update_stats).2.1
        (ProfileTree.AddPathFromEnd generatorS2.store (ProfileTree.new 100)
          (RecordTickSample generatorS2 sampleS2).path
          (RecordTickSample generatorS2 sampleS2).src_line
          (RecordTickSample generatorS2 sampleS2).update_stats).2.2
      = some [1, 2, 3, 1] :=
  ⟨by decide, ProfileTree.WF_new 100,
   (RecordTickSample_stack_frames generatorS2 sampleS2 (ProfileTree.new 100) (by decide)
      (ProfileTree.WF_new 100)).1,
   (RecordTickSample_stack_frames generatorS2 sampleS2 (ProfileTree.new 100) (by decide)
      (ProfileTree.WF_new 100)).2⟩

/-- C10 as stated fails: for the sample with a null `pc` and one stack frame at `0x1004`,
inside the code of `A`, whose line number is `7`, no `pc_entry` was found and the first
stack frame resolves, so that the claim gives line `7`; `RecordTickSample` skips the
stack walk and submits `kNoLineNumberInfo`. -/
theorem null_pc_src_line_counterexample :
    specSrcLine generatorA sampleNullPc = 7 ∧
    (RecordTickSample generatorA sampleNullPc).src_line = kNoLineNumberInfo ∧
    (RecordTickSample generatorA sampleNullPc).src_line ≠ specSrcLine generatorA sampleNullPc := by
  decide

/-- C10, amended: for a sample with `pc != nullptr` the `src_line` submitted is the one
of the first resolved frame: the line of the `pc_entry` for `pc - instruction_start`,
replaced by the line number of the `pc_entry` when that is `kNoLineNumberInfo`, if a
`pc_entry` was found outside the external-callback branch; else the line computed in
the same way from the first stack frame whose `FindEntry` is not null; else
`kNoLineNumberInfo`. For a sample with a null `pc` it is `kNoLineNumberInfo`. Once the
line is found, a later frame of the stack walk does not change it. -/
theorem RecordTickSample_src_line (g : ProfileGenerator) (sample : TickSample) :
    (RecordTickSample g sample).src_line
      = (if sample.pc = nullptr then kNoLineNumberInfo else specSrcLine g sample) ∧
    ∀ (entries : List Nat) (src_line : Int) (stack_pos : Nat),
      (stackFrame g ⟨entries, src_line, false⟩ stack_pos).src_line = src_line ∧
      (stackFrame g ⟨entries, src_line, false⟩ stack_pos).src_line_not_found = false := by
  refine ⟨?_, ?_⟩
  · by_cases hpc : sample.pc = nullptr
    · rw [if_pos hpc, RecordTickSample_eq]
      simp [hpc]
    · rw [if_neg hpc]
      exact (RecordTickSample_spec g sample hpc).2
  · intro entries src_line stack_pos
    obtain ⟨-, h2, h3⟩ := stackFrame_spec g ⟨entries, src_line, false⟩ stack_pos
    rw [h2, h3]
    simp

theorem length_sampleFrames (sample : TickSample) :
    (sampleFrames sample).length = sample.frames_count := by
  simp [sampleFrames]

theorem map_FindEntry_sublist (g : ProfileGenerator) (frames : List Nat) :
    (frames.map (FindEntry g)).Sublist (frames.flatMap (specFrameEntries g)) := by
  induction frames with
  | nil => simp
  | cons pos frames ih =>
    simp only [List.map_cons, List.flatMap_cons]
    have h1 : [FindEntry g pos].Sublist (specFrameEntries g pos) :=
      List.sublist_append_right _ _
    exact h1.append ih

/-- C11 as stated fails: the sample with a null `pc` has one stack frame, at `0x1004`,
which `FindEntry` resolves to the entry `A` at address `1`; `RecordTickSample` skips the
stack walk and submits the empty path. -/
theorem null_pc_stack_walk_counterexample :
    sampleNullPc.pc = nullptr ∧ sampleNullPc.frames_count = 1 ∧
    FindEntry generatorA (sampleNullPc.stack.getD 0 nullptr) = 1 ∧
    (RecordTickSample generatorA sampleNullPc).path = [] ∧
    ¬ (sampleNullPc.frames_count ≤ (RecordTickSample generatorA sampleNullPc).path.length) := by
  decide

/-- C11, amended: `RecordTickSample` walks the stack of every sample whose `pc` is not
null: for every `i < frames_count` the entry `FindEntry(stack[i])`, null included, is
pushed onto the path, in index order, so that the path submitted has at least
`frames_count` entries. For a sample whose `pc` is null no stack frame is looked up: the
path is what the VM-state fallback pushes onto the empty list. -/
theorem RecordTickSample_stack_walk (g : ProfileGenerator) (sample : TickSample)
    (hpc : sample.pc ≠ nullptr) :
    ((sampleFrames sample).map (FindEntry g)).Sublist (RecordTickSample g sample).path ∧
    (∀ i, i < sample.frames_count →
      FindEntry g (sample.stack.getD i nullptr) ∈ (RecordTickSample g sample).path) ∧
    sample.frames_count ≤ (RecordTickSample g sample).path.length ∧
    (RecordTickSample g { sample with pc := nullptr }).path
      = vmStateEntries g { sample with pc := nullptr } [] := by
  obtain ⟨h1, -⟩ := RecordTickSample_spec g sample hpc
  have hsub : ((sampleFrames sample).map (FindEntry g)).Sublist
      (RecordTickSample g sample).path := by
    rw [h1]
    exact List.sublist_append_of_sublist_left
      (List.sublist_append_of_sublist_right (map_FindEntry_sublist g _))
  refine ⟨hsub, ?_, ?_, ?_⟩
  · intro i hi
    apply hsub.subset
    simp only [sampleFrames, List.map_map, List.mem_map, List.mem_range]
    exact ⟨i, hi, rfl⟩
  · have := hsub.length_le
    rw [List.length_map, length_sampleFrames] at this
    exact this
  · rw [RecordTickSample_eq]
    simp

/-- In scenario S2 the one stack frame resolves to `A`, which is on the path. -/
theorem RecordTickSample_stack_walk_witness :
    sampleS2.pc ≠ nullptr ∧
    sampleS2.frames_count ≤ (RecordTickSample generatorS2 sampleS2).path.length :=
  ⟨by decide, (RecordTickSample_stack_walk generatorS2 sampleS2 (by decide)).2.2.1⟩

end ProfileGenerator

/-! ## SourcePositionTable -/

namespace SourcePositionTable

theorem table_upper_bound_eq_zero_of_forall {t : SourcePositionTable} {q : Int}
    (h : ∀ p ∈ t, q < p.1) : StdMap.upper_bound t q = 0 := by
  cases t with
  | nil => rfl
  | cons p rest => simp [StdMap.upper_bound, h p (List.mem_cons_self _ _)]

theorem table_forall_lt_of_upper_bound_eq_zero {t : SourcePositionTable} {q : Int} (hs : Sorted t)
    (h : StdMap.upper_bound t q = 0) : ∀ p ∈ t, q < p.1 := by
  cases t with
  | nil => simp
  | cons p rest =>
    have hp : q < p.1 := by
      by_contra hc
      simp [StdMap.upper_bound, hc] at h
    intro y hy
    rcases List.mem_cons.mp hy with rfl | hy
    · exact hp
    · exact lt_trans hp ((List.pairwise_cons.mp hs).1 y hy)

theorem GetSourceLineNumber_nil (q : Int) :
    GetSourceLineNumber [] q = kNoLineNumberInfo := by
  simp [GetSourceLineNumber]

theorem GetSourceLineNumber_cons_lt {p : Int × Int} {rest : SourcePositionTable} {q : Int}
    (h : q < p.1) : GetSourceLineNumber (p :: rest) q = p.2 := by
  simp [GetSourceLineNumber, StdMap.upper_bound, h]

theorem GetSourceLineNumber_cons_this {p : Int × Int} {rest : SourcePositionTable} {q : Int}
    (h : ¬ q < p.1) (h0 : StdMap.upper_bound rest q = 0) :
    GetSourceLineNumber (p :: rest) q = p.2 := by
  simp [GetSourceLineNumber, StdMap.upper_bound, h, h0]

theorem GetSourceLineNumber_cons_next {p : Int × Int} {rest : SourcePositionTable} {q : Int}
    (h : ¬ q < p.1) (h0 : StdMap.upper_bound rest q ≠ 0) :
    GetSourceLineNumber (p :: rest) q = GetSourceLineNumber rest q := by
  obtain ⟨n, hn⟩ := Nat.exists_eq_succ_of_ne_zero h0
  have hne : rest ≠ [] := by
    rintro rfl
    exact h0 rfl
  obtain ⟨x, rest', rfl⟩ := List.exists_cons_of_ne_nil hne
  simp [GetSourceLineNumber, StdMap.upper_bound, h] at hn ⊢
  by_cases hx : q < x.1
  · simp [hx] at hn
  · have hx' : x.1 ≤ q := by omega
    simp [hx, hx']

/-- The lookup finds the line stored at the greatest stored offset that is at most the
query. -/
theorem GetSourceLineNumber_of_greatest {t : SourcePositionTable} (hs : Sorted t) {q : Int}
    {p : Int × Int} (hp : p ∈ t) (hle : p.1 ≤ q) (hmax : ∀ p' ∈ t, p'.1 ≤ q → p'.1 ≤ p.1) :
    GetSourceLineNumber t q = p.2 := by
  induction t with
  | nil => simp at hp
  | cons x rest ih =>
    obtain ⟨hx, hrest⟩ := List.pairwise_cons.mp hs
    have hnlt : ¬ q < x.1 := by
      rcases List.mem_cons.mp hp with rfl | hp'
      · omega
      · have := hx p hp'
        omega
    by_cases h0 : StdMap.upper_bound rest q = 0
    · have hall := table_forall_lt_of_upper_bound_eq_zero hrest h0
      have hpx : p = x := by
        rcases List.mem_cons.mp hp with rfl | hp'
        · rfl
        · have := hall p hp'
          omega
      subst hpx
      exact GetSourceLineNumber_cons_this hnlt h0
    · rw [GetSourceLineNumber_cons_next hnlt h0]
      rcases List.mem_cons.mp hp with rfl | hp'
      · exfalso
        apply h0
        apply table_upper_bound_eq_zero_of_forall
        intro y hy
        by_contra hc
        have h1 := hmax y (List.mem_cons_of_mem _ hy) (by omega)
        have h2 := hx y hy
        omega
      · exact ih hrest hp' (fun p' hp'' => hmax p' (List.mem_cons_of_mem _ hp''))

/-- C12: for every source position table and every query offset `q` for which some
stored offset is at most `q`, `GetSourceLineNumber(q)` is the line stored at the greatest
stored offset that is at most `q`; for the empty table it is `kNoLineNumberInfo`. -/
theorem GetSourceLineNumber_greatest_offset (t : SourcePositionTable) (q : Int)
    (p : Int × Int) (hs : Sorted t) (hp : p ∈ t) (hle : p.1 ≤ q)
    (hmax : ∀ p' ∈ t, p'.1 ≤ q → p'.1 ≤ p.1) :
    GetSourceLineNumber t q = p.2 ∧
    GetSourceLineNumber [] q = kNoLineNumberInfo :=
  ⟨GetSourceLineNumber_of_greatest hs hp hle hmax, GetSourceLineNumber_nil q⟩

/-- In the table with line `3` at offset `0`, line `5` at offset `10` and line `8` at
offset `20`, the query `15` gives line `5`. -/
theorem GetSourceLineNumber_greatest_offset_witness :
    Sorted [(0, 3), (10, 5), (20, 8)] ∧
    GetSourceLineNumber [(0, 3), (10, 5), (20, 8)] 15 = 5 :=
  ⟨by decide,
   (GetSourceLineNumber_greatest_offset [(0, 3), (10, 5), (20, 8)] 15 (10, 5)
      (by decide) (by decide) (by decide) (by decide)).1⟩

/-- C13 as stated fails: in the table with line `5` at offset `10` no stored offset is
at most `3`, and `GetSourceLineNumber(3)` is `5`, not `kNoLineNumberInfo`. -/
theorem query_before_first_offset_counterexample :
    (∀ p ∈ ([(10, 5)] : SourcePositionTable), ¬ p.1 ≤ 3) ∧
    GetSourceLineNumber [(10, 5)] 3 = 5 ∧
    GetSourceLineNumber [(10, 5)] 3 ≠ kNoLineNumberInfo := by
  decide

/-- C13, amended: for a query offset `q` such that no stored offset is at most `q`,
`GetSourceLineNumber(q)` is `kNoLineNumberInfo` for the empty table and, for a table that
is not empty, the line stored at its smallest offset. -/
theorem GetSourceLineNumber_before_first (t : SourcePositionTable) (q : Int)
    (hs : Sorted t) (hno : ∀ p ∈ t, ¬ p.1 ≤ q) :
    GetSourceLineNumber t q
      = (match t.head? with
        | none => kNoLineNumberInfo
        | some p => p.2) ∧
    ∀ p ∈ t.head?, ∀ p' ∈ t, p.1 ≤ p'.1 := by
  cases t with
  | nil => exact ⟨GetSourceLineNumber_nil q, by simp⟩
  | cons x rest =>
    have hx : q < x.1 := by
      have := hno x (List.mem_cons_self _ _)
      omega
    refine ⟨GetSourceLineNumber_cons_lt hx, ?_⟩
    intro p hp p' hp'
    simp only [List.head?_cons, Option.mem_def, Option.some.injEq] at hp
    subst hp
    rcases List.mem_cons.mp hp' with rfl | hp'
    · exact le_refl _
    · exact le_of_lt ((List.pairwise_cons.mp hs).1 p' hp')

/-- In the table with line `5` at offset `10` and line `8` at offset `20`, the query `3`
gives line `5`, the line at the smallest offset. -/
theorem GetSourceLineNumber_before_first_witness :
    Sorted [(10, 5), (20, 8)] ∧ GetSourceLineNumber [(10, 5), (20, 8)] 3 = 5 :=
  ⟨by decide,
   (GetSourceLineNumber_before_first [(10, 5), (20, 8)] 3 (by decide) (by decide)).1⟩

/-! ### Sequences of `SetPosition` calls -/

theorem upper_bound_le_length (t : SourcePositionTable) (q : Int) :
    StdMap.upper_bound t q ≤ t.length := by
  induction t with
  | nil => exact le_refl _
  | cons p rest ih =>
    unfold StdMap.upper_bound
    split_ifs
    · exact Nat.zero_le _
    · simpa using ih

theorem upper_bound_append_of_lt (t : SourcePositionTable) (x : Int × Int) {q : Int}
    (h : q < x.1) : StdMap.upper_bound (t ++ [x]) q = StdMap.upper_bound t q := by
  induction t with
  | nil => simp [StdMap.upper_bound, h]
  | cons p rest ih =>
    show StdMap.upper_bound (p :: (rest ++ [x])) q = StdMap.upper_bound (p :: rest) q
    unfold StdMap.upper_bound
    rw [ih]

theorem upper_bound_append_of_le (t : SourcePositionTable) (x : Int × Int)
    (h : ∀ p ∈ t, p.1 < x.1) : StdMap.upper_bound (t ++ [x]) x.1 = t.length + 1 := by
  induction t with
  | nil => simp [StdMap.upper_bound]
  | cons p rest ih =>
    have hp : ¬ x.1 < p.1 := by
      have := h p (List.mem_cons_self _ _)
      omega
    show StdMap.upper_bound (p :: (rest ++ [x])) x.1 = (p :: rest).length + 1
    unfold StdMap.upper_bound
    rw [if_neg hp, ih (fun y hy => h y (List.mem_cons_of_mem _ hy))]
    rfl

theorem insert_of_lt (t : SourcePositionTable) (o l : Int) (h : ∀ p ∈ t, p.1 < o) :
    StdMap.insert t o l = t ++ [(o, l)] := by
  induction t with
  | nil => rfl
  | cons p rest ih =>
    have hp := h p (List.mem_cons_self _ _)
    have h1 : ¬ o < p.1 := by omega
    have h2 : ¬ o = p.1 := by omega
    unfold StdMap.insert
    rw [if_neg h1, if_neg h2, ih (fun y hy => h y (List.mem_cons_of_mem _ hy))]
    rfl

/-- A pair added after the last element does not change the line of a smaller offset. -/
theorem GetSourceLineNumber_append_of_lt {t : SourcePositionTable} (ht : t ≠ [])
    (x : Int × Int) {q : Int} (h : q < x.1) :
    GetSourceLineNumber (t ++ [x]) q = GetSourceLineNumber t q := by
  have hle := upper_bound_le_length t q
  have hpos : 0 < t.length := List.length_pos.mpr ht
  have he1 : (t ++ [x]).isEmpty = false := by
    cases t with
    | nil => exact absurd rfl ht
    | cons p rest => rfl
  have he2 : t.isEmpty = false := by
    cases t with
    | nil => exact absurd rfl ht
    | cons p rest => rfl
  unfold GetSourceLineNumber
  simp only [he1, he2, upper_bound_append_of_lt t x h, Bool.false_eq_true, if_false]
  split_ifs with h0
  · rw [List.getElem?_append_left (by omega)]
  · rw [List.getElem?_append_left (by omega)]

/-- The line of the offset of a pair added after the last element is the line of the pair. -/
theorem GetSourceLineNumber_append_self (t : SourcePositionTable) (x : Int × Int)
    (h : ∀ p ∈ t, p.1 < x.1) : GetSourceLineNumber (t ++ [x]) x.1 = x.2 := by
  have he1 : (t ++ [x]).isEmpty = false := by
    cases t <;> rfl
  unfold GetSourceLineNumber
  simp only [he1, upper_bound_append_of_le t x h, Bool.false_eq_true, if_false]
  simp

/-- What a sequence of `SetPosition` calls with increasing offsets keeps: the offsets stored are
offsets of the calls made, the table is empty only if no call was made, and the table gives
each call its line. -/
theorem foldl_SetPosition (calls : List (Int × Int)) :
    ∀ (done : List (Int × Int)) (t : SourcePositionTable),
      (done ++ calls).Pairwise (fun a b => a.1 < b.1) →
      (∀ c ∈ calls, 1 ≤ c.2) →
      (∀ p ∈ t, ∃ c ∈ done, c.1 = p.1) → (done ≠ [] → t ≠ []) →
      (∀ c ∈ done, GetSourceLineNumber t c.1 = c.2) →
      ∀ c ∈ done ++ calls,
        GetSourceLineNumber (calls.foldl (fun t c => SetPosition t c.1 c.2) t) c.1 = c.2 := by
  induction calls with
  | nil =>
    intro done t _ _ _ _ hval c hc
    rw [List.append_nil] at hc
    exact hval c hc
  | cons x calls ih =>
    intro done t hinc hline hkeys hne hval
    have hsplit : done ++ x :: calls = (done ++ [x]) ++ calls := by simp
    rw [hsplit] at hinc ⊢
    have hinc1 : (done ++ [x]).Pairwise (fun a b => a.1 < b.1) :=
      (List.pairwise_append.mp hinc).1
    have hdone : ∀ d ∈ done, d.1 < x.1 := fun d hd =>
      (List.pairwise_append.mp hinc1).2.2 d hd x (List.mem_singleton_self x)
    have hlt : ∀ p ∈ t, p.1 < x.1 := by
      intro p hp
      obtain ⟨d, hd, hdp⟩ := hkeys p hp
      rw [← hdp]
      exact hdone d hd
    rw [List.foldl_cons]
    apply ih (done ++ [x]) (SetPosition t x.1 x.2) hinc
      (fun c hc => hline c (List.mem_cons_of_mem _ hc))
    · intro p hp
      unfold SetPosition at hp
      split_ifs at hp with hg
      · rw [insert_of_lt t x.1 x.2 hlt] at hp
        rcases List.mem_append.mp hp with hp | hp
        · obtain ⟨d, hd, hdp⟩ := hkeys p hp
          exact ⟨d, List.mem_append_left _ hd, hdp⟩
        · rw [List.mem_singleton] at hp
          exact ⟨x, List.mem_append_right _ (List.mem_singleton_self x), by rw [hp]⟩
      · obtain ⟨d, hd, hdp⟩ := hkeys p hp
        exact ⟨d, List.mem_append_left _ hd, hdp⟩
    · intro _
      unfold SetPosition
      split_ifs with hg
      · rw [insert_of_lt t x.1 x.2 hlt]
        simp
      · intro ht
        rw [ht, GetSourceLineNumber_nil] at hg
        have := hline x (List.mem_cons_self _ _)
        unfold kNoLineNumberInfo at hg
        omega
    · intro c hc
      unfold SetPosition
      split_ifs with hg
      · rw [insert_of_lt t x.1 x.2 hlt]
        rcases List.mem_append.mp hc with hc | hc
        · rw [GetSourceLineNumber_append_of_lt (hne (List.ne_nil_of_mem hc)) _ (hdone c hc)]
          exact hval c hc
        · rw [List.mem_singleton] at hc
          rw [hc]
          exact GetSourceLineNumber_append_self t (x.1, x.2) hlt
      · rcases List.mem_append.mp hc with hc | hc
        · exact hval c hc
        · rw [List.mem_singleton] at hc
          rw [hc]
          exact not_not.mp hg

/-- C24: for every sequence of calls `SetPosition(o_1, l_1)`, ..., `SetPosition(o_n, l_n)` on an
empty table, with offsets that increase strictly and lines that are at least `1`, the table
made gives `GetSourceLineNumber(o_i) = l_i` for every `i`. -/
theorem SetPosition_increasing_offsets (calls : List (Int × Int))
    (hinc : calls.Pairwise (fun a b => a.1 < b.1)) (hline : ∀ c ∈ calls, 1 ≤ c.2) :
    ∀ c ∈ calls,
      GetSourceLineNumber (calls.foldl (fun t c => SetPosition t c.1 c.2) []) c.1 = c.2 := by
  have h := foldl_SetPosition calls [] [] (by simpa using hinc) hline
    (fun p hp => by cases hp) (fun h => absurd rfl h) (fun c hc => by cases hc)
  simpa using h

/-- The calls with line `3` at offset `0`, line `3` at offset `10` and line `5` at offset
`20`: the offset `10` is not stored, and its line is `3`. -/
theorem SetPosition_increasing_offsets_witness :
    ([(0, 3), (10, 3), (20, 5)] : List (Int × Int)).Pairwise (fun a b => a.1 < b.1) ∧
    ([(0, 3), (10, 3), (20, 5)] : List (Int × Int)).foldl
      (fun t c => SetPosition t c.1 c.2) [] = [(0, 3), (20, 5)] ∧
    GetSourceLineNumber (([(0, 3), (10, 3), (20, 5)] : List (Int × Int)).foldl
      (fun t c => SetPosition t c.1 c.2) []) 10 = 3 :=
  ⟨by decide, by decide,
   SetPosition_increasing_offsets [(0, 3), (10, 3), (20, 5)] (by decide) (by decide) (10, 3)
     (by decide)⟩

end SourcePositionTable

/-! ## CodeEntry -/

namespace CodeEntry

/-- What `IsSameFunctionAs` computes for two distinct entries: only the script id of
`this` chooses between the comparison of scripts and the comparison of names. -/
theorem IsSameFunctionAs_iff (store : CodeEntryStore) {a b : Nat} (hne : a ≠ b) :
    IsSameFunctionAs store a b = true ↔
      ((store a).script_id ≠ kNoScriptId ∧ (store a).script_id = (store b).script_id ∧
        (store a).position = (store b).position) ∨
      ((store a).script_id = kNoScriptId ∧
        CodeEntry.name_prefix_ (store a) = CodeEntry.name_prefix_ (store b) ∧
        (store a).name = (store b).name ∧
        (store a).resource_name = (store b).resource_name ∧
        (store a).line_number = (store b).line_number) := by
  unfold IsSameFunctionAs
  rw [if_neg hne]
  by_cases hs : (store a).script_id = kNoScriptId
  · simp [hs, and_assoc]
  · simp [hs]

/-- Where the second entry has a script id only if the first has one,
`IsSameFunctionAs` is the identity of functions of the spec. -/
theorem IsSameFunctionAs_iff_spec (store : CodeEntryStore) {a b : Nat} (hne : a ≠ b)
    (h : (store a).script_id = kNoScriptId → (store b).script_id = kNoScriptId) :
    IsSameFunctionAs store a b = true ↔ specSameFunction (store a) (store b) := by
  rw [IsSameFunctionAs_iff store hne]
  unfold specSameFunction
  constructor
  · rintro (⟨h1, h2, h3⟩ | ⟨h1, h2⟩)
    · exact Or.inl ⟨h1, by rw [← h2]; exact h1, h2, h3⟩
    · exact Or.inr ⟨h1, h h1, h2⟩
  · rintro (⟨h1, -, h2, h3⟩ | ⟨h1, -, h2⟩)
    · exact Or.inl ⟨h1, h2, h3⟩
    · exact Or.inr ⟨h1, h2⟩

/-- C14 (the code departs from it): the entry `a` at address `1` has no script id, the
entry `b` at address `2` has the script id `5`, and both have the same name prefix, name,
resource name and line number. Exactly one of the two has a script id, so that the claim
gives false; `a.IsSameFunctionAs(b)` is true, while `b.IsSameFunctionAs(a)` is false. -/
theorem IsSameFunctionAs_half_scripted :
    (storeHalfScripted 1).script_id = kNoScriptId ∧
    (storeHalfScripted 2).script_id ≠ kNoScriptId ∧
    ¬ specSameFunction (storeHalfScripted 1) (storeHalfScripted 2) ∧
    IsSameFunctionAs storeHalfScripted 1 2 = true ∧
    IsSameFunctionAs storeHalfScripted 2 1 = false := by
  decide

theorem GetHash_scripted {h : Nat → Nat} {addressOf : String → Nat} {e : CodeEntry}
    (hs : e.script_id ≠ kNoScriptId) :
    GetHash h addressOf e
      = h e.tag ^^^ h (toUInt32 e.script_id) ^^^ h (toUInt32 e.position) := by
  simp [GetHash, hs]

theorem GetHash_unscripted {h : Nat → Nat} {addressOf : String → Nat} {e : CodeEntry}
    (hs : e.script_id = kNoScriptId) :
    GetHash h addressOf e
      = h e.tag ^^^ h (toUInt32 (addressOf (CodeEntry.name_prefix_ e)))
        ^^^ h (toUInt32 (addressOf e.name)) ^^^ h (toUInt32 (addressOf e.resource_name))
        ^^^ h (toUInt32 e.line_number) := by
  simp [GetHash, hs]

/-- Two entries that `IsSameFunctionAs` identifies have the same hash if they have the
same tag and the second has a script id only if the first has one. -/
theorem GetHash_eq_of_same_tag (h : Nat → Nat) (addressOf : String → Nat)
    (store : CodeEntryStore) (a b : Nat) (hsame : IsSameFunctionAs store a b = true)
    (htag : (store a).tag = (store b).tag)
    (hsid : (store a).script_id = kNoScriptId → (store b).script_id = kNoScriptId) :
    GetHash h addressOf (store a) = GetHash h addressOf (store b) := by
  by_cases hab : a = b
  · rw [hab]
  · rcases (IsSameFunctionAs_iff store hab).mp hsame with ⟨h1, h2, h3⟩ | ⟨h1, h2, h3, h4, h5⟩
    · have h1' : (store b).script_id ≠ kNoScriptId := by rw [← h2]; exact h1
      rw [GetHash_scripted h1, GetHash_scripted h1', htag, h2, h3]
    · rw [GetHash_unscripted h1, GetHash_unscripted (hsid h1), htag, h2, h3, h4, h5]

/-- C15 (the code departs from it): the entries at addresses `1` and `2` are the function
at position `10` of script `5` and differ only in their tags, `1` and `2`;
`IsSameFunctionAs` identifies them, and their hashes are equal only for a function
`ComputeIntegerHash` that gives the two tags the same value. -/
theorem GetHash_differs_by_tag :
    IsSameFunctionAs storeTwoTags 1 2 = true ∧
    ∀ (ComputeIntegerHash : Nat → Nat) (addressOf : String → Nat),
      (GetHash ComputeIntegerHash addressOf (storeTwoTags 1)
          = GetHash ComputeIntegerHash addressOf (storeTwoTags 2)
        ↔ ComputeIntegerHash 1 = ComputeIntegerHash 2) := by
  refine ⟨by decide, ?_⟩
  intro h addressOf
  have h1 : (storeTwoTags 1).script_id ≠ kNoScriptId := by decide
  have h2 : (storeTwoTags 2).script_id ≠ kNoScriptId := by decide
  rw [GetHash_scripted h1, GetHash_scripted h2]
  have e1 : (storeTwoTags 1).tag = 1 := rfl
  have e2 : (storeTwoTags 2).tag = 2 := rfl
  have e3 : (storeTwoTags 1).script_id = (storeTwoTags 2).script_id := rfl
  have e4 : (storeTwoTags 1).position = (storeTwoTags 2).position := rfl
  rw [e1, e2, e3, e4, Nat.xor_left_inj, Nat.xor_left_inj]

end CodeEntry

/-! ### The ids and the queue of pending nodes -/

namespace ProfileTree

theorem range'_append_range' (a m n : Nat) :
    List.range' a m ++ List.range' (a + m) n = List.range' a (m + n) := by
  have h := List.range'_append a m n 1
  rw [Nat.one_mul] at h
  rw [h, Nat.add_comm]

theorem Extends_refl (t : ProfileTree) : Extends t t :=
  ⟨le_refl _, fun _ _ => rfl, by simp⟩

theorem Extends_trans {t₁ t₂ t₃ : ProfileTree} (h₁ : Extends t₁ t₂) (h₂ : Extends t₂ t₃) :
    Extends t₁ t₃ := by
  refine ⟨le_trans h₁.1 h₂.1, ?_, ?_⟩
  · intro i hi
    rw [h₂.2.1 i (lt_of_lt_of_le hi h₁.1), h₁.2.1 i hi]
  · obtain ⟨a, ha⟩ : ∃ a, t₂.nodes.length = t₁.nodes.length + a :=
      ⟨t₂.nodes.length - t₁.nodes.length, by have := h₁.1; omega⟩
    obtain ⟨b, hb⟩ : ∃ b, t₃.nodes.length = t₂.nodes.length + b :=
      ⟨t₃.nodes.length - t₂.nodes.length, by have := h₂.1; omega⟩
    rw [h₂.2.2, h₁.2.2, List.append_assoc, hb, ha]
    have e1 : t₁.nodes.length + a - t₁.nodes.length = a := by omega
    have e2 : t₁.nodes.length + a + b - (t₁.nodes.length + a) = b := by omega
    have e3 : t₁.nodes.length + a + b - t₁.nodes.length = a + b := by omega
    rw [e1, e2, e3, range'_append_range']

theorem Extends_updateNode (t : ProfileTree) (n : Nat) (f : ProfileNode → ProfileNode)
    (hf : ∀ nd, (f nd).id = nd.id) : Extends t (updateNode t n f) := by
  refine ⟨by rw [length_updateNode], ?_, ?_⟩
  · intro i _
    rw [getElem?_updateNode]
    cases t.nodes[i]? with
    | none => rfl
    | some nd =>
      simp only [Option.map_some', Option.some.injEq]
      split_ifs
      · exact hf nd
      · rfl
  · rw [length_updateNode]
    simp [updateNode]

theorem Extends_FindOrAddChild (t : ProfileTree) (node e : Nat) :
    Extends t (FindOrAddChild t node e).1 := by
  cases hfc : FindChild t node e with
  | some c =>
    have hres : FindOrAddChild t node e = (t, c) := by simp [FindOrAddChild, hfc]
    rw [hres]
    exact Extends_refl t
  | none =>
    rw [FindOrAddChild_of_none hfc]
    have hnew : Extends t (newProfileNode t e (some node)).1 := by
      refine ⟨by simp [newProfileNode], ?_, ?_⟩
      · intro i hi
        simp [newProfileNode, List.getElem?_append_left hi]
      · simp [newProfileNode]
    exact Extends_trans hnew (Extends_updateNode _ _ _ (fun _ => rfl))

theorem Extends_foldl_addPathStep (l : List Nat) :
    ∀ st : PathState, Extends st.tree (l.foldl addPathStep st).tree := by
  induction l with
  | nil => intro st; exact Extends_refl _
  | cons e l ih =>
    intro st
    rw [List.foldl_cons]
    refine Extends_trans ?_ (ih (addPathStep st e))
    unfold addPathStep
    split_ifs
    · exact Extends_refl _
    · exact Extends_FindOrAddChild _ _ _

theorem Extends_IncrementSelfTicks (t : ProfileTree) (n : Nat) :
    Extends t (IncrementSelfTicks t n) :=
  Extends_updateNode _ _ _ (fun _ => rfl)

theorem Extends_IncrementLineTicks (t : ProfileTree) (n : Nat) (src_line : Int) :
    Extends t (IncrementLineTicks t n src_line) := by
  refine Extends_updateNode _ _ _ (fun nd => ?_)
  unfold nodeIncrementLineTicks
  split_ifs
  · rfl
  · cases UnorderedMap.find nd.line_ticks src_line <;> rfl

theorem Extends_pathLoop_AddPathFromEnd (store : CodeEntryStore) (t : ProfileTree)
    (path : List Nat) (src_line : Int) (update_stats : Bool) :
    Extends (pathLoop t path).tree (AddPathFromEnd store t path src_line update_stats).2.1 := by
  have h2 : Extends (pathLoop t path).tree (afterDeopt store t path).2 := by
    unfold afterDeopt
    simp only []
    split_ifs
    · exact Extends_updateNode _ _ _ (fun _ => rfl)
    · exact Extends_refl _
  rw [AddPathFromEnd_tree]
  split_ifs
  · exact Extends_trans (Extends_trans h2 (Extends_IncrementSelfTicks _ _))
      (Extends_IncrementLineTicks _ _ _)
  · exact Extends_trans h2 (Extends_IncrementSelfTicks _ _)
  · exact h2

theorem Extends_AddPathFromEnd (store : CodeEntryStore) (t : ProfileTree) (path : List Nat)
    (src_line : Int) (update_stats : Bool) :
    Extends t (AddPathFromEnd store t path src_line update_stats).2.1 :=
  Extends_trans
    (Extends_foldl_addPathStep path.reverse { tree := t, node := root_, last_entry := nullptr })
    (Extends_pathLoop_AddPathFromEnd store t path src_line update_stats)

theorem nodeId_of_extends {t t' : ProfileTree} (h : Extends t t') {i : Nat}
    (hi : i < t.nodes.length) : nodeId t' i = nodeId t i := by
  have hid := h.2.1 i hi
  unfold nodeId
  cases h1 : t'.nodes[i]? with
  | none =>
    rw [List.getElem?_eq_none_iff] at h1
    have := h.1
    omega
  | some nd' =>
    cases h2 : t.nodes[i]? with
    | none =>
      rw [List.getElem?_eq_none_iff] at h2
      omega
    | some nd =>
      rw [h1, h2] at hid
      simpa using hid

theorem AddPathFromEnd_node_lt {t : ProfileTree} (h : WF t) (store : CodeEntryStore)
    (path : List Nat) (src_line : Int) (update_stats : Bool) :
    (AddPathFromEnd store t path src_line update_stats).2.2
      < (AddPathFromEnd store t path src_line update_stats).2.1.nodes.length := by
  obtain ⟨-, hn1, -, -, -⟩ := pathLoop_spec h path
  rw [AddPathFromEnd_node]
  exact lt_of_lt_of_le hn1
    (Extends_pathLoop_AddPathFromEnd store t path src_line update_stats).1

end ProfileTree

/-! ### The links of a reachable tree -/

namespace UnorderedMap

theorem set_of_find_none {κ V : Type} [DecidableEq κ] (m : UnorderedMap κ V) (k : κ) (v : V)
    (h : find m k = none) : set m k v = m ++ [(k, v)] := by
  induction m with
  | nil => rfl
  | cons p rest ih =>
    unfold find at h
    by_cases hp : p.1 = k
    · rw [if_pos hp] at h
      cases h
    · rw [if_neg hp] at h
      unfold set
      rw [if_neg hp, ih h]
      rfl

theorem not_mem_keys_of_find_none {κ V : Type} [DecidableEq κ] (m : UnorderedMap κ V) (k : κ)
    (h : find m k = none) : k ∉ m.map Prod.fst := by
  induction m with
  | nil => simp
  | cons p rest ih =>
    unfold find at h
    by_cases hp : p.1 = k
    · rw [if_pos hp] at h
      cases h
    · rw [if_neg hp] at h
      rw [List.map_cons, List.mem_cons]
      rintro (hk | hk)
      · exact hp hk.symm
      · exact ih h hk

theorem mem_of_find {κ V : Type} [DecidableEq κ] (m : UnorderedMap κ V) (k : κ) (v : V)
    (h : find m k = some v) : (k, v) ∈ m := by
  induction m with
  | nil => cases h
  | cons p rest ih =>
    unfold find at h
    by_cases hp : p.1 = k
    · rw [if_pos hp] at h
      have hv : p.2 = v := Option.some.inj h
      have : p = (k, v) := Prod.ext hp hv
      rw [this]
      exact List.mem_cons_self _ _
    · rw [if_neg hp] at h
      exact List.mem_cons_of_mem _ (ih h)

theorem find_of_mem_nodup {κ V : Type} [DecidableEq κ] (m : UnorderedMap κ V) (k : κ) (v : V)
    (hn : (m.map Prod.fst).Nodup) (h : (k, v) ∈ m) : find m k = some v := by
  induction m with
  | nil => cases h
  | cons p rest ih =>
    rw [List.map_cons, List.nodup_cons] at hn
    unfold find
    rcases List.mem_cons.mp h with hp | hp
    · rw [← hp]
      simp
    · have hk : k ∈ rest.map Prod.fst := List.mem_map.mpr ⟨(k, v), hp, rfl⟩
      have hne : ¬ p.1 = k := fun he => hn.1 (he ▸ hk)
      rw [if_neg hne]
      exact ih hn.2 hp

end UnorderedMap

namespace ProfileTree

theorem Linked_new (root_entry : Nat) : Linked (new root_entry) := by
  have hnodes : (new root_entry).nodes
      = [ProfileNode.mk root_entry 0 [] [] none 1 [] []] := rfl
  refine ⟨rfl, ?_, ?_, ?_⟩
  · intro i nd hi
    have hlt := lt_length_of_getElem? hi
    rw [hnodes] at hi hlt
    have h0 : i = 0 := by simpa using hlt
    subst h0
    simp at hi
    subst hi
    rfl
  · intro i nd hi hne
    have hlt := lt_length_of_getElem? hi
    rw [hnodes] at hlt
    have h0 : i = 0 := by simpa using hlt
    exact absurd h0 hne
  · intro p pd hp
    have hlt := lt_length_of_getElem? hp
    rw [hnodes] at hp hlt
    have h0 : p = 0 := by simpa using hlt
    subst h0
    simp at hp
    subst hp
    exact ⟨rfl, List.nodup_nil, List.Pairwise.nil⟩

theorem Linked_updateNode {t : ProfileTree} (h : Linked t) (n : Nat)
    (f : ProfileNode → ProfileNode)
    (hf : ∀ nd, (f nd).id = nd.id ∧ (f nd).parent = nd.parent ∧ (f nd).entry = nd.entry ∧
      (f nd).children = nd.children ∧ (f nd).children_list = nd.children_list) :
    Linked (updateNode t n f) := by
  obtain ⟨h1, h2, h3, h4⟩ := h
  have key : ∀ (i : Nat) (nd' : ProfileNode), (updateNode t n f).nodes[i]? = some nd' →
      ∃ nd : ProfileNode, t.nodes[i]? = some nd ∧ nd'.id = nd.id ∧ nd'.parent = nd.parent ∧
        nd'.entry = nd.entry ∧ nd'.children = nd.children ∧
        nd'.children_list = nd.children_list := by
    intro i nd' hi
    rw [getElem?_updateNode] at hi
    cases hnd : t.nodes[i]? with
    | none => rw [hnd] at hi; cases hi
    | some nd =>
      rw [hnd] at hi
      simp only [Option.map_some', Option.some.injEq] at hi
      refine ⟨nd, rfl, ?_⟩
      subst hi
      split_ifs
      · exact hf nd
      · exact ⟨rfl, rfl, rfl, rfl, rfl⟩
  have key' : ∀ (i : Nat) (nd : ProfileNode), t.nodes[i]? = some nd →
      ∃ nd' : ProfileNode, (updateNode t n f).nodes[i]? = some nd' ∧
        nd'.children = nd.children := by
    intro i nd hi
    rw [getElem?_updateNode, hi]
    refine ⟨_, rfl, ?_⟩
    split_ifs
    · exact (hf nd).2.2.2.1
    · rfl
  refine ⟨?_, ?_, ?_, ?_⟩
  · rw [length_updateNode]
    exact h1
  · intro i nd' hi
    obtain ⟨nd, hnd, e1, -⟩ := key i nd' hi
    rw [e1]
    exact h2 i nd hnd
  · intro i nd' hi hne
    obtain ⟨nd, hnd, -, e2, e3, -⟩ := key i nd' hi
    obtain ⟨p, pd, hp1, hp2, hp3⟩ := h3 i nd hnd hne
    obtain ⟨pd', hpd', ec⟩ := key' p pd hp2
    exact ⟨p, pd', by rw [e2]; exact hp1, hpd', by rw [ec, e3]; exact hp3⟩
  · intro p pd' hp
    obtain ⟨pd, hpd, -, -, -, e4, e5⟩ := key p pd' hp
    rw [e4, e5]
    exact h4 p pd hpd

theorem Linked_FindOrAddChild {t : ProfileTree} (hwf : WF t) (h : Linked t) {node : Nat}
    (hn : node < t.nodes.length) (e : Nat) : Linked (FindOrAddChild t node e).1 := by
  cases hfc : FindChild t node e with
  | some c =>
    have hres : FindOrAddChild t node e = (t, c) := by simp [FindOrAddChild, hfc]
    rw [hres]
    exact h
  | none =>
    rw [FindOrAddChild_of_none hfc]
    obtain ⟨h1, h2, h3, h4⟩ := h
    obtain ⟨nd0, hnd0⟩ : ∃ nd0, t.nodes[node]? = some nd0 :=
      ⟨t.nodes[node], List.getElem?_eq_getElem hn⟩
    have hfind0 : UnorderedMap.find nd0.children e = none := by
      unfold FindChild at hfc
      rw [hnd0] at hfc
      exact hfc
    have hnodes : (newProfileNode t e (some node)).1.nodes
        = t.nodes ++ [ProfileNode.mk e 0 [] [] (some node) t.next_node_id [] []] := rfl
    -- the nodes after the call
    have hold : ∀ (i : Nat) (nd : ProfileNode), t.nodes[i]? = some nd →
        (updateNode (newProfileNode t e (some node)).1 node (fun nd =>
            { nd with children := UnorderedMap.set nd.children e t.nodes.length,
                      children_list := nd.children_list ++ [t.nodes.length] })).nodes[i]?
          = some (if node = i then
              { nd with children := UnorderedMap.set nd.children e t.nodes.length,
                        children_list := nd.children_list ++ [t.nodes.length] }
            else nd) := by
      intro i nd hi
      have hlt := lt_length_of_getElem? hi
      rw [getElem?_updateNode, hnodes, List.getElem?_append_left hlt, hi]
      rfl
    have hnew : (updateNode (newProfileNode t e (some node)).1 node (fun nd =>
            { nd with children := UnorderedMap.set nd.children e t.nodes.length,
                      children_list := nd.children_list ++ [t.nodes.length] })).nodes[t.nodes.length]?
          = some (ProfileNode.mk e 0 [] [] (some node) t.next_node_id [] []) := by
      rw [getElem?_updateNode, hnodes, List.getElem?_append_right (le_refl _)]
      have hne : ¬ node = t.nodes.length := by omega
      simp [hne]
    have hlen : (updateNode (newProfileNode t e (some node)).1 node (fun nd =>
            { nd with children := UnorderedMap.set nd.children e t.nodes.length,
                      children_list := nd.children_list ++ [t.nodes.length] })).nodes.length
          = t.nodes.length + 1 := by
      rw [length_updateNode, hnodes]
      simp
    have hcases : ∀ (i : Nat) (nd' : ProfileNode),
        (updateNode (newProfileNode t e (some node)).1 node (fun nd =>
            { nd with children := UnorderedMap.set nd.children e t.nodes.length,
                      children_list := nd.children_list ++ [t.nodes.length] })).nodes[i]?
          = some nd' →
        (∃ nd : ProfileNode, t.nodes[i]? = some nd ∧
          nd' = (if node = i then
              { nd with children := UnorderedMap.set nd.children e t.nodes.length,
                        children_list := nd.children_list ++ [t.nodes.length] }
            else nd)) ∨
        (i = t.nodes.length ∧
          nd' = ProfileNode.mk e 0 [] [] (some node) t.next_node_id [] []) := by
      intro i nd' hi
      have hlt := lt_length_of_getElem? hi
      rw [hlen] at hlt
      by_cases hi' : i < t.nodes.length
      · left
        refine ⟨t.nodes[i], List.getElem?_eq_getElem hi', ?_⟩
        rw [hold i _ (List.getElem?_eq_getElem hi')] at hi
        exact (Option.some.inj hi).symm
      · right
        have hil : i = t.nodes.length := by omega
        subst hil
        rw [hnew] at hi
        exact ⟨rfl, (Option.some.inj hi).symm⟩
    refine ⟨?_, ?_, ?_, ?_⟩
    · rw [hlen]
      show t.next_node_id + 1 = t.nodes.length + 1 + 1
      rw [h1]
    · intro i nd' hi
      rcases hcases i nd' hi with ⟨nd, hnd, rfl⟩ | ⟨rfl, rfl⟩
      · have := h2 i nd hnd
        split_ifs
        · exact this
        · exact this
      · exact h1
    · intro i nd' hi hne
      rcases hcases i nd' hi with ⟨nd, hnd, rfl⟩ | ⟨rfl, rfl⟩
      · obtain ⟨p, pd, hp1, hp2, hp3⟩ := h3 i nd hnd hne
        have hpar : (if node = i then
              { nd with children := UnorderedMap.set nd.children e t.nodes.length,
                        children_list := nd.children_list ++ [t.nodes.length] }
            else nd).parent = some p := by
          split_ifs
          · exact hp1
          · exact hp1
        have hent : (if node = i then
              { nd with children := UnorderedMap.set nd.children e t.nodes.length,
                        children_list := nd.children_list ++ [t.nodes.length] }
            else nd).entry = nd.entry := by
          split_ifs
          · rfl
          · rfl
        refine ⟨p, _, hpar, hold p pd hp2, ?_⟩
        rw [hent]
        by_cases hnp : node = p
        · subst hnp
          rw [if_pos rfl]
          show UnorderedMap.find (UnorderedMap.set pd.children e t.nodes.length) nd.entry
            = some i
          rw [UnorderedMap.find_set]
          have hpd0 : pd = nd0 := by
            rw [hnd0] at hp2
            exact (Option.some.inj hp2).symm
          have hne' : ¬ e = nd.entry := by
            intro he
            rw [← he, hpd0, hfind0] at hp3
            cases hp3
          rw [if_neg hne']
          exact hp3
        · rw [if_neg hnp]
          exact hp3
      · refine ⟨node, _, rfl, hold node nd0 hnd0, ?_⟩
        rw [if_pos rfl]
        show UnorderedMap.find (UnorderedMap.set nd0.children e t.nodes.length) e
          = some t.nodes.length
        rw [UnorderedMap.find_set, if_pos rfl]
    · intro p pd' hp
      rcases hcases p pd' hp with ⟨pd, hpd, rfl⟩ | ⟨rfl, rfl⟩
      · obtain ⟨g1, g2, g3⟩ := h4 p pd hpd
        by_cases hnp : node = p
        · subst hnp
          rw [if_pos rfl]
          have hpd0 : pd = nd0 := by
            rw [hnd0] at hpd
            exact (Option.some.inj hpd).symm
          subst hpd0
          show (UnorderedMap.set pd.children e t.nodes.length).map Prod.snd
              = pd.children_list ++ [t.nodes.length] ∧
            ((UnorderedMap.set pd.children e t.nodes.length).map Prod.fst).Nodup ∧
            (pd.children_list ++ [t.nodes.length]).Pairwise (fun a b => a < b)
          rw [UnorderedMap.set_of_find_none _ _ _ hfind0, List.map_append, List.map_append,
            g1]
          refine ⟨rfl, ?_, ?_⟩
          · rw [List.nodup_append]
            refine ⟨g2, List.nodup_singleton _, ?_⟩
            intro a ha hb
            rw [List.map_singleton, List.mem_singleton] at hb
            subst hb
            exact UnorderedMap.not_mem_keys_of_find_none _ _ hfind0 ha
          · rw [List.pairwise_append]
            refine ⟨g3, List.pairwise_singleton _ _, ?_⟩
            intro a ha b hb
            rw [List.mem_singleton] at hb
            subst hb
            rw [← g1] at ha
            obtain ⟨⟨k, c⟩, hkc, rfl⟩ := List.mem_map.mp ha
            have hf := UnorderedMap.find_of_mem_nodup _ k c g2 hkc
            obtain ⟨cd, hcd, -⟩ := hwf.2.2 node pd k c hpd hf
            exact lt_length_of_getElem? hcd
        · rw [if_neg hnp]
          exact ⟨g1, g2, g3⟩
      · exact ⟨rfl, List.nodup_nil, List.Pairwise.nil⟩

theorem Linked_foldl_addPathStep (l : List Nat) :
    ∀ st : PathState, WF st.tree → Linked st.tree → st.node < st.tree.nodes.length →
      Linked (l.foldl addPathStep st).tree := by
  induction l with
  | nil => intro st _ hl _; exact hl
  | cons e l ih =>
    intro st hwf hl hn
    rw [List.foldl_cons]
    by_cases he : e = nullptr
    · have hst : addPathStep st e = st := by simp [addPathStep, he]
      rw [hst]
      exact ih st hwf hl hn
    · have hst : addPathStep st e
          = { tree := (FindOrAddChild st.tree st.node e).1,
              node := (FindOrAddChild st.tree st.node e).2, last_entry := e } := by
        simp [addPathStep, he]
      obtain ⟨hwf', -, cd, hcd, -⟩ := FindOrAddChild_spec hwf hn e
      rw [hst]
      exact ih _ hwf' (Linked_FindOrAddChild hwf hl hn e) (lt_length_of_getElem? hcd)

theorem Linked_IncrementLineTicks {t : ProfileTree} (h : Linked t) (n : Nat)
    (src_line : Int) : Linked (IncrementLineTicks t n src_line) := by
  refine Linked_updateNode h _ _ (fun nd => ?_)
  unfold nodeIncrementLineTicks
  split_ifs
  · exact ⟨rfl, rfl, rfl, rfl, rfl⟩
  · cases UnorderedMap.find nd.line_ticks src_line <;> exact ⟨rfl, rfl, rfl, rfl, rfl⟩

theorem Linked_IncrementSelfTicks {t : ProfileTree} (h : Linked t) (n : Nat) :
    Linked (IncrementSelfTicks t n) :=
  Linked_updateNode h _ _ (fun _ => ⟨rfl, rfl, rfl, rfl, rfl⟩)

theorem Linked_AddPathFromEnd {t : ProfileTree} (hwf : WF t) (h : Linked t)
    (store : CodeEntryStore) (path : List Nat) (src_line : Int) (update_stats : Bool) :
    Linked (AddPathFromEnd store t path src_line update_stats).2.1 := by
  have hlen : root_ < t.nodes.length := by
    obtain ⟨⟨r, hr, -⟩, -, -⟩ := hwf
    exact lt_length_of_getElem? hr
  have h1 : Linked (pathLoop t path).tree :=
    Linked_foldl_addPathStep path.reverse { tree := t, node := root_, last_entry := nullptr }
      hwf h hlen
  have h2 : Linked (afterDeopt store t path).2 := by
    unfold afterDeopt
    simp only []
    split_ifs
    · exact Linked_updateNode h1 _ _ (fun _ => ⟨rfl, rfl, rfl, rfl, rfl⟩)
    · exact h1
  rw [AddPathFromEnd_tree]
  split_ifs
  · exact Linked_IncrementLineTicks (Linked_IncrementSelfTicks h2 _) _ _
  · exact Linked_IncrementSelfTicks h2 _
  · exact h2

/-- A reachable tree is well shaped and linked. -/
theorem shape_of_reachableTree {t : ProfileTree} (h : ReachableTree t) : WF t ∧ Linked t := by
  induction h with
  | create root_entry => exact ⟨WF_new root_entry, Linked_new root_entry⟩
  | addPath store path src_line update_stats _ ih =>
    exact ⟨(AddPathFromEnd_spec ih.1 store path src_line update_stats).1,
      Linked_AddPathFromEnd ih.1 ih.2 store path src_line update_stats⟩

/-- The child list of a node of a well-shaped, linked tree holds the nodes of its child
map. -/
theorem mem_children_list_iff {t : ProfileTree} (hl : Linked t) {p : Nat} {pd : ProfileNode}
    (hp : t.nodes[p]? = some pd) (c : Nat) :
    c ∈ pd.children_list ↔ ∃ e, UnorderedMap.find pd.children e = some c := by
  obtain ⟨g1, g2, -⟩ := hl.2.2.2 p pd hp
  constructor
  · intro hc
    rw [← g1] at hc
    obtain ⟨⟨k, c'⟩, hkc, rfl⟩ := List.mem_map.mp hc
    exact ⟨k, UnorderedMap.find_of_mem_nodup _ k c' g2 hkc⟩
  · rintro ⟨e, he⟩
    rw [← g1]
    exact List.mem_map.mpr ⟨(e, c), UnorderedMap.mem_of_find _ e c he, rfl⟩

/-- C21: in every profile tree reachable by `AddPathFromEnd` calls, with the nodes numbered
in the order of their creation: every node other than the root has a parent and is in the
child map of its parent, under its entry, and in the child list of its parent; for every
node the child list holds the nodes of the child map, each once, in the order of their
insertion; the ids of two nodes are equal only if the nodes are the same; and the id of
a node is less than the id of another iff the node was created before the other. -/
theorem reachableTree_links (t : ProfileTree) (h : ReachableTree t) :
    (∀ (i : Nat) (nd : ProfileNode), t.nodes[i]? = some nd → i ≠ root_ →
      ∃ (p : Nat) (pd : ProfileNode), nd.parent = some p ∧ t.nodes[p]? = some pd ∧
        UnorderedMap.find pd.children nd.entry = some i ∧ i ∈ pd.children_list) ∧
    (∀ (p : Nat) (pd : ProfileNode), t.nodes[p]? = some pd →
      (∀ c, c ∈ pd.children_list ↔ ∃ e, UnorderedMap.find pd.children e = some c) ∧
      pd.children_list.Nodup ∧ pd.children_list.Pairwise (fun a b => a < b)) ∧
    (∀ (i j : Nat) (ni nj : ProfileNode), t.nodes[i]? = some ni → t.nodes[j]? = some nj →
      ni.id = nj.id → i = j) ∧
    (∀ (i j : Nat) (ni nj : ProfileNode), t.nodes[i]? = some ni → t.nodes[j]? = some nj →
      (ni.id < nj.id ↔ i < j)) := by
  obtain ⟨-, hl⟩ := shape_of_reachableTree h
  refine ⟨?_, ?_, ?_, ?_⟩
  · intro i nd hi hne
    obtain ⟨p, pd, hp1, hp2, hp3⟩ := hl.2.2.1 i nd hi hne
    exact ⟨p, pd, hp1, hp2, hp3, (mem_children_list_iff hl hp2 i).mpr ⟨_, hp3⟩⟩
  · intro p pd hp
    have hpw := (hl.2.2.2 p pd hp).2.2
    exact ⟨mem_children_list_iff hl hp, hpw.imp (fun hab => Nat.ne_of_lt hab), hpw⟩
  · intro i j ni nj hi hj hid
    have e1 := hl.2.1 i ni hi
    have e2 := hl.2.1 j nj hj
    omega
  · intro i j ni nj hi hj
    have e1 := hl.2.1 i ni hi
    have e2 := hl.2.1 j nj hj
    omega

/-- On a new tree the path `[1, 2]` makes the node of the entry `2`, at position `1`, and
below it the node of the entry `1`, at position `2`, which is in the child map and in the
child list of its parent. -/
theorem reachableTree_links_witness :
    ReachableTree (AddPathFromEnd plainStore (new 100) [1, 2] 0 true).2.1 ∧
    ∃ (p : Nat) (pd : ProfileNode),
      (ProfileNode.mk 1 1 [] [] (some 1) 3 [] []).parent = some p ∧
      (AddPathFromEnd plainStore (new 100) [1, 2] 0 true).2.1.nodes[p]? = some pd ∧
      UnorderedMap.find pd.children (ProfileNode.mk 1 1 [] [] (some 1) 3 [] []).entry = some 2 ∧
      2 ∈ pd.children_list :=
  ⟨ReachableTree.addPath plainStore [1, 2] 0 true (ReachableTree.create 100),
   (reachableTree_links (AddPathFromEnd plainStore (new 100) [1, 2] 0 true).2.1
      (ReachableTree.addPath plainStore [1, 2] 0 true (ReachableTree.create 100))).1 2
      (ProfileNode.mk 1 1 [] [] (some 1) 3 [] []) (by decide) (by decide)⟩

end ProfileTree

/-! ### The line ticks of a node -/

namespace UnorderedMap

theorem keys_set_of_find_some {κ V : Type} [DecidableEq κ] (m : UnorderedMap κ V) (k : κ)
    (v w : V) (h : find m k = some w) : (set m k v).map Prod.fst = m.map Prod.fst := by
  induction m with
  | nil => cases h
  | cons p rest ih =>
    unfold find at h
    unfold set
    by_cases hp : p.1 = k
    · rw [if_pos hp, List.map_cons, List.map_cons, hp]
    · rw [if_neg hp] at h
      rw [if_neg hp, List.map_cons, List.map_cons, ih h]

end UnorderedMap

namespace ProfileTree

/-- A list of distinct values of the type `int` other than `0` has fewer than `2^32`
elements. -/
theorem length_lt_of_nodup_int (l : List Int) (hn : l.Nodup)
    (h : ∀ x ∈ l, (-(2 : Int) ^ 31 ≤ x ∧ x < (2 : Int) ^ 31) ∧ x ≠ 0) : l.length < 2 ^ 32 := by
  have hsub : l.toFinset ⊆ (Finset.Icc (-(2 : Int) ^ 31) ((2 : Int) ^ 31 - 1)).erase 0 := by
    intro x hx
    rw [List.mem_toFinset] at hx
    obtain ⟨⟨h1, h2⟩, h3⟩ := h x hx
    rw [Finset.mem_erase, Finset.mem_Icc]
    exact ⟨h3, h1, by omega⟩
  have hcard := Finset.card_le_card hsub
  rw [List.toFinset_card_of_nodup hn,
    Finset.card_erase_of_mem (by rw [Finset.mem_Icc]; norm_num), Int.card_Icc] at hcard
  have hval : ((2 : Int) ^ 31 - 1 + 1 - -(2 : Int) ^ 31).toNat = 2 ^ 32 := by
    norm_num
    rfl
  rw [hval] at hcard
  omega

theorem take_succ_set {α : Type} (l : List α) :
    ∀ (n : Nat) (a : α), n < l.length → (l.set n a).take (n + 1) = l.take n ++ [a] := by
  induction l with
  | nil => intro n a h; simp at h
  | cons x l ih =>
    intro n a h
    cases n with
    | zero => simp
    | succ n =>
      rw [List.length_cons] at h
      rw [List.set_cons_succ, List.take_succ_cons, ih n a (by omega), List.take_succ_cons]
      rfl

/-- The keys of the map of line ticks after a call of `IncrementLineTicks`. -/
theorem keys_nodeIncrementLineTicks (nd : ProfileNode) {x : Int}
    (hx : x ≠ kNoLineNumberInfo) :
    (nodeIncrementLineTicks nd x).line_ticks.map Prod.fst
      = if x ∈ nd.line_ticks.map Prod.fst then nd.line_ticks.map Prod.fst
        else nd.line_ticks.map Prod.fst ++ [x] := by
  unfold nodeIncrementLineTicks
  rw [if_neg hx]
  cases hf : UnorderedMap.find nd.line_ticks x with
  | none =>
    rw [if_neg (UnorderedMap.not_mem_keys_of_find_none _ _ hf)]
    show (UnorderedMap.set _ x 1).map Prod.fst = _
    rw [UnorderedMap.set_of_find_none _ _ _ hf, List.map_append]
    rfl
  | some c =>
    have hm := UnorderedMap.mem_of_find _ _ _ hf
    rw [if_pos (List.mem_map.mpr ⟨(x, c), hm, rfl⟩)]
    exact UnorderedMap.keys_set_of_find_some _ _ _ _ hf

/-- The loop of `GetLineTicks` fills the slots from `entry` on with the pairs, in their
order, and leaves the other slots as they are. -/
theorem writeLineTicks_eq (m : List (Int × Int)) :
    ∀ (entry : Nat) (buffer : List LineTick), entry + m.length ≤ buffer.length →
      writeLineTicks m entry buffer
        = buffer.take entry ++ m.map (fun p => LineTick.mk p.1 p.2)
          ++ buffer.drop (entry + m.length) := by
  induction m with
  | nil =>
    intro entry buffer _
    simp [writeLineTicks]
  | cons p rest ih =>
    intro entry buffer hle
    rw [List.length_cons] at hle
    unfold writeLineTicks
    rw [ih (entry + 1) _ (by rw [List.length_set]; omega)]
    have h1 : (buffer.set entry (LineTick.mk p.1 p.2)).take (entry + 1)
        = buffer.take entry ++ [LineTick.mk p.1 p.2] := take_succ_set _ _ _ (by omega)
    have h2 : (buffer.set entry (LineTick.mk p.1 p.2)).drop (entry + 1 + rest.length)
        = buffer.drop (entry + (rest.length + 1)) := by
      rw [List.drop_set_of_lt _ _ (by omega)]
      congr 1
      omega
    rw [h1, h2]
    simp

/-- The map of line ticks after a sequence of `IncrementLineTicks` calls on a node that
had none: its keys are distinct, they are the lines recorded, and the counter of a line
is the number of the calls made for it. -/
theorem line_ticks_foldl (nd0 : ProfileNode) (hfresh : nd0.line_ticks = []) (lines : List Int) :
    ((lines.foldl nodeIncrementLineTicks nd0).line_ticks.map Prod.fst).Nodup ∧
    (∀ k, k ∈ (lines.foldl nodeIncrementLineTicks nd0).line_ticks.map Prod.fst
      ↔ k ∈ lines ∧ k ≠ kNoLineNumberInfo) ∧
    (∀ k, k ≠ kNoLineNumberInfo →
      (UnorderedMap.find (lines.foldl nodeIncrementLineTicks nd0).line_ticks k).getD 0
        = (lines.count k : Int)) := by
  induction lines using List.reverseRecOn with
  | nil =>
    simp only [List.foldl_nil, hfresh]
    refine ⟨List.nodup_nil, fun k => by simp, fun k _ => by simp [UnorderedMap.find]⟩
  | append_singleton l x ih =>
    obtain ⟨i1, i2, i3⟩ := ih
    rw [List.foldl_append, List.foldl_cons, List.foldl_nil]
    by_cases hx : x = kNoLineNumberInfo
    · have hstep : nodeIncrementLineTicks (l.foldl nodeIncrementLineTicks nd0) x
          = l.foldl nodeIncrementLineTicks nd0 := by
        unfold nodeIncrementLineTicks
        rw [if_pos hx]
      rw [hstep]
      refine ⟨i1, ?_, ?_⟩
      · intro k
        rw [i2 k, List.mem_append, List.mem_singleton]
        constructor
        · rintro ⟨h1, h2⟩
          exact ⟨Or.inl h1, h2⟩
        · rintro ⟨h1 | h1, h2⟩
          · exact ⟨h1, h2⟩
          · exact absurd (h1.trans hx) h2
      · intro k hk
        rw [i3 k hk, List.count_append, List.count_singleton]
        have hne : ¬ (x == k) = true := by
          rw [beq_iff_eq]
          intro h
          exact hk (h ▸ hx)
        rw [if_neg hne, Nat.add_zero]
    · have hkeys := keys_nodeIncrementLineTicks (l.foldl nodeIncrementLineTicks nd0) hx
      refine ⟨?_, ?_, ?_⟩
      · rw [hkeys]
        split_ifs with hmem
        · exact i1
        · rw [List.nodup_append]
          refine ⟨i1, List.nodup_singleton _, ?_⟩
          intro a ha hb
          rw [List.mem_singleton] at hb
          exact hmem (hb ▸ ha)
      · intro k
        rw [hkeys, List.mem_append, List.mem_singleton]
        split_ifs with hmem
        · rw [i2 k]
          constructor
          · rintro ⟨h1, h2⟩
            exact ⟨Or.inl h1, h2⟩
          · rintro ⟨h1 | h1, h2⟩
            · exact ⟨h1, h2⟩
            · rw [h1]
              exact (i2 x).mp hmem
        · rw [List.mem_append, List.mem_singleton, i2 k]
          constructor
          · rintro (⟨h1, h2⟩ | h1)
            · exact ⟨Or.inl h1, h2⟩
            · exact ⟨Or.inr h1, h1 ▸ hx⟩
          · rintro ⟨h1 | h1, h2⟩
            · exact Or.inl ⟨h1, h2⟩
            · exact Or.inr h1
      · intro k hk
        rw [nodeIncrementLineTicks_find _ hx k, i3 k hk, List.count_append,
          List.count_singleton]
        by_cases hkx : k = x
        · subst hkx
          simp
        · have hne : ¬ (x == k) = true := by
            rw [beq_iff_eq]
            exact fun h => hkx h.symm
          rw [if_neg hkx, if_neg hne]
          simp

/-- What `GetLineTicks` does on a node whose map of line ticks has the lines `recorded` as
its keys, up to their order, and fewer than `2^32` pairs. -/
theorem nodeGetLineTicks_eq (nd : ProfileNode) (entries : Nat) (buffer : List LineTick)
    (length : Nat) (hlt : nd.line_ticks.length < 2 ^ 32) :
    nodeGetLineTicks nd entries buffer length
      = if entries = nullptr ∨ length = 0 then (false, buffer)
        else if nd.line_ticks.length = 0 then (true, buffer)
        else if length < nd.line_ticks.length then (false, buffer)
        else (true, writeLineTicks nd.line_ticks 0 buffer) := by
  unfold nodeGetLineTicks
  simp only [Nat.mod_eq_of_lt hlt]

/-- C22: on a node that had no line ticks and then took the calls `IncrementLineTicks(l)` for
the lines `l` of `lines`, values of the type `int`, `GetLineTicks(entries, length)` with an
array of at least `length` slots returns false iff `entries` is null, or `length` is `0`,
or `length` is less than the number of the lines recorded. When it returns true with no
line recorded the array is as it was; and when it returns true, the first `line_count`
slots hold one pair per recorded line, with the number of the calls made for that line as
its `hit_count`, and the other slots are as they were. -/
theorem GetLineTicks_after_IncrementLineTicks (nd0 : ProfileNode) (lines : List Int)
    (entries : Nat) (buffer : List LineTick) (length : Nat)
    (hfresh : nd0.line_ticks = [])
    (hint : ∀ l ∈ lines, -(2 : Int) ^ 31 ≤ l ∧ l < (2 : Int) ^ 31)
    (hbuf : length ≤ buffer.length) :
    ((nodeGetLineTicks (lines.foldl nodeIncrementLineTicks nd0) entries buffer length).1 = false
      ↔ entries = nullptr ∨ length = 0 ∨ length < (recordedLines lines).length) ∧
    ((nodeGetLineTicks (lines.foldl nodeIncrementLineTicks nd0) entries buffer length).1 = true →
      recordedLines lines = [] →
      (nodeGetLineTicks (lines.foldl nodeIncrementLineTicks nd0) entries buffer length).2 = buffer) ∧
    ((nodeGetLineTicks (lines.foldl nodeIncrementLineTicks nd0) entries buffer length).1 = true →
      (nodeGetLineTicks (lines.foldl nodeIncrementLineTicks nd0) entries buffer length).2.length
        = buffer.length ∧
      (nodeGetLineTicks (lines.foldl nodeIncrementLineTicks nd0) entries buffer length).2.drop
          (recordedLines lines).length = buffer.drop (recordedLines lines).length ∧
      (((nodeGetLineTicks (lines.foldl nodeIncrementLineTicks nd0) entries buffer length).2.take
          (recordedLines lines).length).map LineTick.line).Perm (recordedLines lines) ∧
      ∀ tick ∈ (nodeGetLineTicks (lines.foldl nodeIncrementLineTicks nd0) entries buffer length).2.take
          (recordedLines lines).length, tick.hit_count = (lines.count tick.line : Int)) := by
  obtain ⟨i1, i2, i3⟩ := line_ticks_foldl nd0 hfresh lines
  generalize lines.foldl nodeIncrementLineTicks nd0 = nd at i1 i2 i3 ⊢
  have hperm : (nd.line_ticks.map Prod.fst).Perm (recordedLines lines) := by
    unfold recordedLines
    rw [List.perm_ext_iff_of_nodup i1 (List.nodup_dedup _)]
    intro k
    rw [i2 k, List.mem_dedup, List.mem_filter]
    simp
  have hlen : nd.line_ticks.length = (recordedLines lines).length := by
    rw [← hperm.length_eq, List.length_map]
  have hlt : nd.line_ticks.length < 2 ^ 32 := by
    rw [← List.length_map nd.line_ticks Prod.fst]
    refine length_lt_of_nodup_int _ i1 (fun k hk => ?_)
    obtain ⟨h1, h2⟩ := (i2 k).mp hk
    exact ⟨hint k h1, h2⟩
  have hval : ∀ p ∈ nd.line_ticks, p.2 = (lines.count p.1 : Int) := by
    intro p hp
    have hk : p.1 ∈ nd.line_ticks.map Prod.fst := List.mem_map.mpr ⟨p, hp, rfl⟩
    have hf := UnorderedMap.find_of_mem_nodup nd.line_ticks p.1 p.2 i1 hp
    have h3 := i3 p.1 ((i2 p.1).mp hk).2
    rw [hf] at h3
    exact h3
  rw [nodeGetLineTicks_eq nd entries buffer length hlt, ← hlen]
  by_cases h0 : entries = nullptr ∨ length = 0
  · rw [if_pos h0]
    refine ⟨⟨fun _ => ?_, fun _ => rfl⟩, fun h => (by cases h), fun h => (by cases h)⟩
    rcases h0 with h | h
    · exact Or.inl h
    · exact Or.inr (Or.inl h)
  · rw [if_neg h0]
    have hn1 : ¬ entries = nullptr := fun h => h0 (Or.inl h)
    have hn2 : ¬ length = 0 := fun h => h0 (Or.inr h)
    by_cases hm0 : nd.line_ticks.length = 0
    · rw [if_pos hm0]
      refine ⟨⟨fun h => (by cases h), ?_⟩, fun _ _ => rfl, fun _ => ?_⟩
      · rintro (h | h | h)
        · exact absurd h hn1
        · exact absurd h hn2
        · omega
      · rw [hm0]
        have hnil : recordedLines lines = [] := List.length_eq_zero.mp (hlen ▸ hm0)
        exact ⟨rfl, rfl, (by rw [hnil]; exact List.Perm.refl _),
          fun tick ht => (by simp at ht)⟩
    · rw [if_neg hm0]
      by_cases hl : length < nd.line_ticks.length
      · rw [if_pos hl]
        exact ⟨⟨fun _ => Or.inr (Or.inr hl), fun _ => rfl⟩, fun h => (by cases h),
          fun h => (by cases h)⟩
      · rw [if_neg hl]
        have hw := writeLineTicks_eq nd.line_ticks 0 buffer (by omega)
        rw [List.take_zero, List.nil_append, Nat.zero_add] at hw
        have hl1 : (nd.line_ticks.map (fun p => LineTick.mk p.1 p.2)).length
            = nd.line_ticks.length := List.length_map _ _
        refine ⟨⟨fun h => (by cases h), ?_⟩, fun _ hr => ?_, fun _ => ⟨?_, ?_, ?_, ?_⟩⟩
        · rintro (h | h | h)
          · exact absurd h hn1
          · exact absurd h hn2
          · exact absurd h hl
        · rw [hr, List.length_nil] at hlen
          exact absurd hlen hm0
        · show (writeLineTicks nd.line_ticks 0 buffer).length = buffer.length
          rw [hw, List.length_append, hl1, List.length_drop]
          omega
        · show (writeLineTicks nd.line_ticks 0 buffer).drop nd.line_ticks.length = _
          rw [hw, List.drop_left' hl1]
        · show (((writeLineTicks nd.line_ticks 0 buffer).take nd.line_ticks.length).map
            LineTick.line).Perm _
          rw [hw, List.take_left' hl1, List.map_map]
          exact hperm
        · intro tick ht
          have ht' : tick ∈ nd.line_ticks.map (fun p => LineTick.mk p.1 p.2) := by
            have h := ht
            show tick ∈ _
            rw [hw, List.take_left' hl1] at h
            exact h
          obtain ⟨p, hp, rfl⟩ := List.mem_map.mp ht'
          exact hval p hp

/-- A node that took the calls `IncrementLineTicks` for the lines `7`, `9`, `7` fills
the first two slots of an array of three with `(7, 2)` and `(9, 1)`. -/
theorem GetLineTicks_after_IncrementLineTicks_witness :
    (nodeGetLineTicks
        ([7, 9, 7].foldl nodeIncrementLineTicks (ProfileNode.mk 1 0 [] [] none 1 [] []))
        1 [LineTick.mk 0 0, LineTick.mk 0 0, LineTick.mk 5 5] 3)
      = (true, [LineTick.mk 7 2, LineTick.mk 9 1, LineTick.mk 5 5]) ∧
    ((nodeGetLineTicks
        ([7, 9, 7].foldl nodeIncrementLineTicks (ProfileNode.mk 1 0 [] [] none 1 [] []))
        1 [LineTick.mk 0 0, LineTick.mk 0 0, LineTick.mk 5 5] 1).1 = false
      ↔ (1 : Nat) = nullptr ∨ (1 : Nat) = 0 ∨ 1 < (recordedLines [7, 9, 7]).length) :=
  ⟨by decide,
   (GetLineTicks_after_IncrementLineTicks (ProfileNode.mk 1 0 [] [] none 1 [] []) [7, 9, 7] 1
      [LineTick.mk 0 0, LineTick.mk 0 0, LineTick.mk 5 5] 1 rfl (by decide) (by decide)).1⟩

end ProfileTree
/-! ### The depth-first traversal -/

namespace ProfileTree

theorem traverseStep_push (t : ProfileTree) (n k : Nat) (below : List Position)
    (calls : List CallbackCall) (hk : k < (childrenOf t n).length) :
    traverseStep t (Position.mk n k :: below, calls)
      = (Position.mk ((childrenOf t n).getD k nullptr) 0 :: Position.mk n k :: below,
         calls ++ [CallbackCall.BeforeTraversingChild n ((childrenOf t n).getD k nullptr)]) := by
  simp [traverseStep, hk]

theorem traverseStep_pop (t : ProfileTree) (n k : Nat) (below : List Position)
    (calls : List CallbackCall) (hk : ¬ k < (childrenOf t n).length) :
    traverseStep t (Position.mk n k :: below, calls)
      = (match below with
        | [] => ([], calls ++ [CallbackCall.AfterAllChildrenTraversed n])
        | parent :: rest =>
          ({ parent with child_idx := parent.child_idx + 1 } :: rest,
           calls ++ [CallbackCall.AfterAllChildrenTraversed n,
                     CallbackCall.AfterChildTraversed parent.node n])) := by
  cases below <;> simp [traverseStep, hk]

/-- The loop returns what its body makes of the state in `N` rounds, when that has an
empty stack and the loop has at least `N` rounds. -/
theorem traverseLoop_of_iterate (t : ProfileTree) (N : Nat) :
    ∀ (s : List Position × List CallbackCall) (calls : List CallbackCall),
      Nat.iterate (traverseStep t) N s = ([], calls) →
      ∀ fuel, N ≤ fuel → traverseLoop t fuel s = some calls := by
  induction N with
  | zero =>
    intro s calls h fuel _
    rw [Function.iterate_zero, id] at h
    subst h
    cases fuel <;> rfl
  | succ N ih =>
    intro s calls h fuel hf
    rw [Function.iterate_succ_apply] at h
    obtain ⟨stack, cs⟩ := s
    cases stack with
    | nil =>
      have hfix : traverseStep t ([], cs) = ([], cs) := rfl
      rw [hfix] at h
      have hall : ∀ M, Nat.iterate (traverseStep t) M ([], cs) = ([], cs) := by
        intro M
        induction M with
        | zero => rfl
        | succ M ihM => rw [Function.iterate_succ_apply, hfix, ihM]
      rw [hall N] at h
      have hc : cs = calls := (Prod.mk.inj h).2
      subst hc
      cases fuel <;> rfl
    | cons p stack =>
      obtain ⟨f, rfl⟩ : ∃ f, fuel = f + 1 := ⟨fuel - 1, by omega⟩
      show traverseLoop t f (traverseStep t (p :: stack, cs)) = some calls
      exact ih _ calls h f (by omega)

/-- The rounds of the loop over the children of the node on top of the stack, from the child
at the index `k` on, given what the loop does with each child. -/
theorem iterate_children (t : ProfileTree) (n d : Nat) (below : List Position)
    (ih : ∀ c ∈ childrenOf t n, ∀ (k : Nat) (calls : List CallbackCall),
      ∃ N, N ≤ (specPostOrder t d c).length ∧
        Nat.iterate (traverseStep t) N (Position.mk c 0 :: Position.mk n k :: below, calls)
          = (Position.mk n (k + 1) :: below,
             calls ++ specPostOrder t d c ++ [CallbackCall.AfterChildTraversed n c])) :
    ∀ (j k : Nat), k + j = (childrenOf t n).length → ∀ calls : List CallbackCall,
      ∃ N, N ≤ (((childrenOf t n).drop k).flatMap (fun child =>
            CallbackCall.BeforeTraversingChild n child :: specPostOrder t d child
              ++ [CallbackCall.AfterChildTraversed n child])).length + 1 ∧
        Nat.iterate (traverseStep t) N (Position.mk n k :: below, calls)
          = traverseStep t (Position.mk n (childrenOf t n).length :: below,
              calls ++ ((childrenOf t n).drop k).flatMap (fun child =>
                CallbackCall.BeforeTraversingChild n child :: specPostOrder t d child
                  ++ [CallbackCall.AfterChildTraversed n child])) := by
  intro j
  induction j with
  | zero =>
    intro k hk calls
    have hk' : k = (childrenOf t n).length := by omega
    subst hk'
    refine ⟨1, by omega, ?_⟩
    rw [List.drop_length, List.flatMap_nil, List.append_nil]
    rfl
  | succ j ihj =>
    intro k hk calls
    have hlt : k < (childrenOf t n).length := by omega
    have hget : (childrenOf t n).getD k nullptr = (childrenOf t n)[k] := by
      rw [List.getD_eq_getElem?_getD, List.getElem?_eq_getElem hlt]
      rfl
    have hdrop : (childrenOf t n).drop k = (childrenOf t n)[k] :: (childrenOf t n).drop (k + 1) :=
      List.drop_eq_getElem_cons hlt
    obtain ⟨N1, hb1, h1⟩ := ih ((childrenOf t n)[k]) (List.getElem_mem _) k
      (calls ++ [CallbackCall.BeforeTraversingChild n ((childrenOf t n)[k])])
    obtain ⟨N2, hb2, h2⟩ := ihj (k + 1) (by omega)
      (calls ++ [CallbackCall.BeforeTraversingChild n ((childrenOf t n)[k])]
        ++ specPostOrder t d ((childrenOf t n)[k])
        ++ [CallbackCall.AfterChildTraversed n ((childrenOf t n)[k])])
    refine ⟨N2 + (N1 + 1), ?_, ?_⟩
    · rw [hdrop, List.flatMap_cons]
      simp only [List.length_append, List.length_cons, List.length_nil]
      omega
    · rw [Function.iterate_add_apply, Function.iterate_succ_apply, traverseStep_push t n k _ _ hlt,
        hget, h1, h2, hdrop, List.flatMap_cons]
      simp only [List.append_assoc, List.cons_append, List.nil_append]

/-- The loop and the recursive traversal of the node on top of the stack: after some
rounds the node is on top with all its children done, and the calls made are those of the
recursive traversal but for the last. -/
theorem iterate_node (t : ProfileTree) (hch : ∀ p c, c ∈ childrenOf t p → p < c) (d : Nat) :
    ∀ (n : Nat), t.nodes.length ≤ d + n → ∀ (below : List Position) (calls : List CallbackCall),
      ∃ (N : Nat) (body : List CallbackCall),
        N ≤ body.length + 1 ∧
        specPostOrder t d n = body ++ [CallbackCall.AfterAllChildrenTraversed n] ∧
        Nat.iterate (traverseStep t) N (Position.mk n 0 :: below, calls)
          = traverseStep t (Position.mk n (childrenOf t n).length :: below, calls ++ body) := by
  induction d with
  | zero =>
    intro n hn below calls
    have hnone : childrenOf t n = [] := by
      unfold childrenOf
      rw [List.getElem?_eq_none (by omega)]
    refine ⟨1, [], by simp, rfl, ?_⟩
    rw [hnone, List.append_nil]
    rfl
  | succ d ihd =>
    intro n hn below calls
    have ih : ∀ c ∈ childrenOf t n, ∀ (k : Nat) (calls : List CallbackCall),
        ∃ N, N ≤ (specPostOrder t d c).length ∧
          Nat.iterate (traverseStep t) N (Position.mk c 0 :: Position.mk n k :: below, calls)
            = (Position.mk n (k + 1) :: below,
               calls ++ specPostOrder t d c ++ [CallbackCall.AfterChildTraversed n c]) := by
      intro c hc k calls
      have hlt := hch n c hc
      obtain ⟨N, body, hb, hspec, hN⟩ := ihd c (by omega) (Position.mk n k :: below) calls
      refine ⟨N, by rw [hspec, List.length_append, List.length_singleton]; exact hb, ?_⟩
      rw [hN, traverseStep_pop t c _ _ _ (lt_irrefl _), hspec]
      simp only [List.append_assoc, List.cons_append, List.nil_append]
    obtain ⟨N, hb, hN⟩ := iterate_children t n d below ih (childrenOf t n).length 0
      (by omega) calls
    rw [List.drop_zero] at hb hN
    exact ⟨N, _, hb, rfl, hN⟩

theorem visited_append (a b : List CallbackCall) :
    visited (a ++ b) = visited a ++ visited b := by
  induction a with
  | nil => rfl
  | cons x a ih =>
    cases x with
    | BeforeTraversingChild p c =>
      show visited (a ++ b) = visited a ++ visited b
      exact ih
    | AfterAllChildrenTraversed n =>
      show n :: visited (a ++ b) = n :: visited a ++ visited b
      rw [ih, List.cons_append]
    | AfterChildTraversed p c =>
      show visited (a ++ b) = visited a ++ visited b
      exact ih

/-- The nodes that the recursive traversal visits: those that the traversals of the
children visit, and then the node. -/
theorem visited_specPostOrder_succ (t : ProfileTree) (d n : Nat) :
    visited (specPostOrder t (d + 1) n)
      = (childrenOf t n).flatMap (fun c => visited (specPostOrder t d c)) ++ [n] := by
  have hflat : ∀ l : List Nat,
      visited (l.flatMap (fun child =>
        CallbackCall.BeforeTraversingChild n child :: specPostOrder t d child
          ++ [CallbackCall.AfterChildTraversed n child]))
      = l.flatMap (fun c => visited (specPostOrder t d c)) := by
    intro l
    induction l with
    | nil => rfl
    | cons c l ih =>
      rw [List.flatMap_cons, List.flatMap_cons, visited_append, ih]
      congr 1
      show visited (specPostOrder t d c ++ [CallbackCall.AfterChildTraversed n c]) = _
      rw [visited_append]
      exact List.append_nil _
  show visited (_ ++ [CallbackCall.AfterAllChildrenTraversed n]) = _
  rw [visited_append, hflat]
  rfl

theorem self_mem_visited (t : ProfileTree) (d n : Nat) :
    n ∈ visited (specPostOrder t d n) := by
  cases d with
  | zero => exact List.mem_singleton_self n
  | succ d =>
    rw [visited_specPostOrder_succ]
    exact List.mem_append_right _ (List.mem_singleton_self n)

theorem getLast?_visited (t : ProfileTree) (d n : Nat) :
    (visited (specPostOrder t d n)).getLast? = some n := by
  cases d with
  | zero => rfl
  | succ d =>
    rw [visited_specPostOrder_succ]
    exact List.getLast?_concat _

/-- A node that the traversal from `a` visits has `a` on its way up the parent pointers. -/
theorem anc_of_mem_visited (t : ProfileTree)
    (hpar : ∀ p c, c ∈ childrenOf t p → parentOf t c = some p) (d : Nat) :
    ∀ (a j : Nat), j ∈ visited (specPostOrder t d a) →
      Relation.ReflTransGen (fun x y => parentOf t x = some y) j a := by
  induction d with
  | zero =>
    intro a j hj
    have : j = a := List.mem_singleton.mp hj
    rw [this]
  | succ d ih =>
    intro a j hj
    rw [visited_specPostOrder_succ, List.mem_append, List.mem_flatMap] at hj
    rcases hj with ⟨c, hc, hjc⟩ | hj
    · exact (ih c j hjc).tail (hpar a c hc)
    · have : j = a := List.mem_singleton.mp hj
      rw [this]

theorem le_of_anc (t : ProfileTree) (hbelow : ∀ i p, parentOf t i = some p → p < i)
    {j a : Nat} (h : Relation.ReflTransGen (fun x y => parentOf t x = some y) j a) : a ≤ j := by
  induction h with
  | refl => exact le_refl _
  | tail _ hbc ih => exact le_of_lt (lt_of_lt_of_le (hbelow _ _ hbc) ih)

/-- The recursive traversal visits no node twice. -/
theorem nodup_visited (t : ProfileTree)
    (hpar : ∀ p c, c ∈ childrenOf t p → parentOf t c = some p)
    (hbelow : ∀ i p, parentOf t i = some p → p < i)
    (hnodup : ∀ p, (childrenOf t p).Nodup) (d : Nat) :
    ∀ n : Nat, (visited (specPostOrder t d n)).Nodup := by
  have hunique : Relator.RightUnique (fun x y => parentOf t x = some y) := by
    intro x y z hy hz
    rw [hy] at hz
    exact Option.some.inj hz
  induction d with
  | zero => intro n; exact List.nodup_singleton n
  | succ d ih =>
    intro n
    rw [visited_specPostOrder_succ, List.nodup_append]
    refine ⟨?_, List.nodup_singleton n, ?_⟩
    · rw [List.nodup_flatMap]
      refine ⟨fun c _ => ih c, ?_⟩
      refine (hnodup n).pairwise_of_forall_ne (fun a ha b hb hab => ?_)
      show List.Disjoint (visited (specPostOrder t d a)) (visited (specPostOrder t d b))
      rw [List.disjoint_left]
      intro j hja hjb
      have h1 := anc_of_mem_visited t hpar d a j hja
      have h2 := anc_of_mem_visited t hpar d b j hjb
      have hpa := hpar n a ha
      have hpb := hpar n b hb
      rcases Relation.ReflTransGen.total_of_right_unique hunique h1 h2 with h | h
      · rcases h.cases_head with h | ⟨c, hc, hcb⟩
        · exact hab h
        · have hcn : c = n := hunique hc hpa
          rw [hcn] at hcb
          have := le_of_anc t hbelow hcb
          have := hbelow b n hpb
          omega
      · rcases h.cases_head with h | ⟨c, hc, hca⟩
        · exact hab h.symm
        · have hcn : c = n := hunique hc hpb
          rw [hcn] at hca
          have := le_of_anc t hbelow hca
          have := hbelow a n hpa
          omega
    · intro j hj hjn
      rw [List.mem_singleton] at hjn
      rw [List.mem_flatMap] at hj
      obtain ⟨c, hc, hjc⟩ := hj
      have h1 := le_of_anc t hbelow (anc_of_mem_visited t hpar d c j hjc)
      have h2 := hbelow c n (hpar n c hc)
      omega

/-- With a node the recursive traversal visits its children. -/
theorem mem_visited_of_child (t : ProfileTree)
    (hch : ∀ p c, c ∈ childrenOf t p → p < c) (d : Nat) :
    ∀ (n p i : Nat), t.nodes.length ≤ d + n → p ∈ visited (specPostOrder t d n) →
      i ∈ childrenOf t p → i ∈ visited (specPostOrder t d n) := by
  induction d with
  | zero =>
    intro n p i hn hp hi
    have hpn : p = n := List.mem_singleton.mp hp
    subst hpn
    have hnone : childrenOf t p = [] := by
      unfold childrenOf
      rw [List.getElem?_eq_none (by omega)]
    rw [hnone] at hi
    cases hi
  | succ d ih =>
    intro n p i hn hp hi
    rw [visited_specPostOrder_succ, List.mem_append, List.mem_flatMap] at hp ⊢
    rcases hp with ⟨c, hc, hpc⟩ | hp
    · have := hch n c hc
      exact Or.inl ⟨c, hc, ih c p i (by omega) hpc hi⟩
    · have hpn : p = n := List.mem_singleton.mp hp
      subst hpn
      exact Or.inl ⟨i, hi, self_mem_visited t d i⟩

/-- The shape of a tree that the traversal relies on, for a tree that is well shaped and
linked. -/
theorem traversal_shape {t : ProfileTree} (hwf : WF t) (hl : Linked t) :
    (∀ p c, c ∈ childrenOf t p → parentOf t c = some p) ∧
    (∀ i p, parentOf t i = some p → p < i) ∧
    (∀ p, (childrenOf t p).Nodup) ∧
    (∀ i, i < t.nodes.length → i ≠ root_ → ∃ p, parentOf t i = some p ∧ i ∈ childrenOf t p) := by
  refine ⟨?_, ?_, ?_, ?_⟩
  · intro p c hc
    unfold childrenOf at hc
    cases hp : t.nodes[p]? with
    | none => rw [hp] at hc; cases hc
    | some pd =>
      rw [hp] at hc
      obtain ⟨e, he⟩ := (mem_children_list_iff hl hp c).mp hc
      obtain ⟨cd, hcd, hcp, -⟩ := hwf.2.2 p pd e c hp he
      unfold parentOf
      rw [hcd]
      exact hcp
  · intro i p hi
    unfold parentOf at hi
    cases hnd : t.nodes[i]? with
    | none => rw [hnd] at hi; cases hi
    | some nd =>
      rw [hnd] at hi
      exact hwf.2.1 i nd p hnd hi
  · intro p
    unfold childrenOf
    cases hp : t.nodes[p]? with
    | none => exact List.nodup_nil
    | some pd => exact ((hl.2.2.2 p pd hp).2.2).imp (fun hab => Nat.ne_of_lt hab)
  · intro i hi hne
    obtain ⟨p, pd, hp1, hp2, hp3⟩ := hl.2.2.1 i _ (List.getElem?_eq_getElem hi) hne
    refine ⟨p, ?_, ?_⟩
    · unfold parentOf
      rw [List.getElem?_eq_getElem hi]
      exact hp1
    · unfold childrenOf
      rw [hp2]
      exact (mem_children_list_iff hl hp2 i).mpr ⟨_, hp3⟩

/-- The recursive traversal from the root visits every node of the tree once. -/
theorem visited_perm {t : ProfileTree} (hwf : WF t) (hl : Linked t) :
    (visited (specPostOrder t t.nodes.length root_)).Perm (List.range t.nodes.length) := by
  obtain ⟨hpar, hbelow, hnodup, hcover⟩ := traversal_shape hwf hl
  have hch : ∀ p c, c ∈ childrenOf t p → p < c := fun p c hc => hbelow c p (hpar p c hc)
  have hroot : root_ < t.nodes.length := by
    obtain ⟨⟨r, hr, -⟩, -, -⟩ := hwf
    exact lt_length_of_getElem? hr
  rw [List.perm_ext_iff_of_nodup (nodup_visited t hpar hbelow hnodup _ _) (List.nodup_range _)]
  intro j
  rw [List.mem_range]
  constructor
  · intro hj
    rcases (anc_of_mem_visited t hpar _ _ j hj).cases_head with h | ⟨c, hc, -⟩
    · rw [h]
      exact hroot
    · unfold parentOf at hc
      cases hnd : t.nodes[j]? with
      | none => rw [hnd] at hc; cases hc
      | some nd => exact lt_length_of_getElem? hnd
  · intro hj
    induction j using Nat.strong_induction_on with
    | _ j ih =>
      by_cases h0 : j = root_
      · rw [h0]
        exact self_mem_visited t _ _
      · obtain ⟨p, hp, hjp⟩ := hcover j hj h0
        have hlt := hbelow j p hp
        exact mem_visited_of_child t hch _ root_ p j (by omega)
          (ih p hlt (by omega)) hjp

/-- The recursive traversal makes three calls for each node that it visits, but for the
two of the node it starts from. -/
theorem length_specPostOrder (t : ProfileTree) (d : Nat) :
    ∀ n : Nat, (specPostOrder t d n).length + 2 = 3 * (visited (specPostOrder t d n)).length := by
  induction d with
  | zero => intro n; rfl
  | succ d ih =>
    intro n
    have hflat : ∀ l : List Nat,
        (l.flatMap (fun child =>
          CallbackCall.BeforeTraversingChild n child :: specPostOrder t d child
            ++ [CallbackCall.AfterChildTraversed n child])).length
        = 3 * (l.flatMap (fun c => visited (specPostOrder t d c))).length := by
      intro l
      induction l with
      | nil => rfl
      | cons c l ihl =>
        rw [List.flatMap_cons, List.flatMap_cons, List.length_append, List.length_append, ihl]
        have := ih c
        simp only [List.length_cons, List.length_append, List.length_nil]
        omega
    rw [visited_specPostOrder_succ, List.length_append, List.length_singleton]
    show (_ ++ [CallbackCall.AfterAllChildrenTraversed n]).length + 2 = _
    rw [List.length_append, List.length_singleton, hflat]
    omega

/-- C23: for every profile tree that is well shaped and linked, as the reachable trees
are, the loop of `TraverseDepthFirst` with its stack ends, within `3 * n` rounds for a
tree of `n` nodes, and makes the calls of the recursive post-order traversal from the
root: for each child of a node, in the order of insertion, `BeforeTraversingChild`, the
traversal of the child and `AfterChildTraversed`, and then `AfterAllChildrenTraversed`
of the node. `AfterAllChildrenTraversed` is called once for each node of the tree, and
for the root last. -/
theorem TraverseDepthFirst_postorder (t : ProfileTree) (hwf : WF t) (hl : Linked t) :
    (∀ fuel, 3 * t.nodes.length ≤ fuel →
      TraverseDepthFirst t fuel = some (specPostOrder t t.nodes.length root_)) ∧
    (visited (specPostOrder t t.nodes.length root_)).Perm (List.range t.nodes.length) ∧
    (visited (specPostOrder t t.nodes.length root_)).getLast? = some root_ := by
  obtain ⟨hpar, hbelow, -, -⟩ := traversal_shape hwf hl
  have hch : ∀ p c, c ∈ childrenOf t p → p < c := fun p c hc => hbelow c p (hpar p c hc)
  have hperm := visited_perm hwf hl
  refine ⟨?_, hperm, getLast?_visited t _ _⟩
  intro fuel hfuel
  obtain ⟨N, body, hb, hspec, hN⟩ :=
    iterate_node t hch t.nodes.length root_ (by omega) [] []
  have hlen := length_specPostOrder t t.nodes.length root_
  rw [hperm.length_eq, List.length_range] at hlen
  have hN' : N ≤ fuel := by
    have : (specPostOrder t t.nodes.length root_).length = body.length + 1 := by
      rw [hspec, List.length_append, List.length_singleton]
    omega
  rw [traverseStep_pop t root_ _ [] _ (lt_irrefl _), List.nil_append, ← hspec] at hN
  exact traverseLoop_of_iterate t N _ _ hN fuel hN'

/-- The tree made by the paths `[1, 2]` and `[3]` has the root `0`, its children `1` and `3`,
and the child `2` of `1`; twelve rounds are enough for its traversal. -/
theorem TraverseDepthFirst_postorder_witness :
    WF (AddPathFromEnd plainStore (AddPathFromEnd plainStore (new 100) [1, 2] 0 true).2.1 [3] 0 true).2.1 ∧
    Linked (AddPathFromEnd plainStore (AddPathFromEnd plainStore (new 100) [1, 2] 0 true).2.1 [3] 0 true).2.1 ∧
    TraverseDepthFirst (AddPathFromEnd plainStore (AddPathFromEnd plainStore (new 100) [1, 2] 0 true).2.1 [3] 0 true).2.1 12
      = some (specPostOrder (AddPathFromEnd plainStore (AddPathFromEnd plainStore (new 100) [1, 2] 0 true).2.1 [3] 0 true).2.1
          (AddPathFromEnd plainStore (AddPathFromEnd plainStore (new 100) [1, 2] 0 true).2.1 [3] 0 true).2.1.nodes.length root_) ∧
    specPostOrder (AddPathFromEnd plainStore (AddPathFromEnd plainStore (new 100) [1, 2] 0 true).2.1 [3] 0 true).2.1 4 root_
      = [CallbackCall.BeforeTraversingChild 0 1, CallbackCall.BeforeTraversingChild 1 2,
         CallbackCall.AfterAllChildrenTraversed 2, CallbackCall.AfterChildTraversed 1 2,
         CallbackCall.AfterAllChildrenTraversed 1, CallbackCall.AfterChildTraversed 0 1,
         CallbackCall.BeforeTraversingChild 0 3, CallbackCall.AfterAllChildrenTraversed 3,
         CallbackCall.AfterChildTraversed 0 3, CallbackCall.AfterAllChildrenTraversed 0] :=
  ⟨(shape_of_reachableTree (ReachableTree.addPath plainStore [3] 0 true (ReachableTree.addPath plainStore [1, 2] 0 true (ReachableTree.create 100)))).1,
   (shape_of_reachableTree (ReachableTree.addPath plainStore [3] 0 true (ReachableTree.addPath plainStore [1, 2] 0 true (ReachableTree.create 100)))).2,
   (TraverseDepthFirst_postorder (AddPathFromEnd plainStore (AddPathFromEnd plainStore (new 100) [1, 2] 0 true).2.1 [3] 0 true).2.1
      (shape_of_reachableTree (ReachableTree.addPath plainStore [3] 0 true (ReachableTree.addPath plainStore [1, 2] 0 true (ReachableTree.create 100)))).1
      (shape_of_reachableTree (ReachableTree.addPath plainStore [3] 0 true (ReachableTree.addPath plainStore [1, 2] 0 true (ReachableTree.create 100)))).2).1 12 (by decide),
   by decide⟩

end ProfileTree
/-! ### The stream of trace events -/

theorem emissions_append (a b : List TraceEvent) :
    emissions (a ++ b) = emissions a ++ emissions b := by
  unfold emissions
  rw [List.flatMap_append]

theorem emittedIds_append (a b : List Emission) :
    emittedIds (a ++ b) = emittedIds a ++ emittedIds b := by
  induction a with
  | nil => rfl
  | cons x a ih =>
    cases x with
    | node value =>
      show value.id :: emittedIds (a ++ b) = value.id :: emittedIds a ++ emittedIds b
      rw [ih, List.cons_append]
    | sample id =>
      show emittedIds (a ++ b) = emittedIds a ++ emittedIds b
      exact ih

theorem emittedIds_map_node (l : List NodeValue) :
    emittedIds (l.map Emission.node) = l.map (fun value => value.id) := by
  induction l with
  | nil => rfl
  | cons x l ih => simp only [List.map_cons, emittedIds, ih]

theorem emittedIds_map_sample (l : List Nat) : emittedIds (l.map Emission.sample) = [] := by
  induction l with
  | nil => rfl
  | cons x l ih => simp only [List.map_cons, emittedIds, ih]

theorem closedFrom_append (a b : List Emission) :
    ∀ seen : List Nat, closedFrom seen (a ++ b)
      ↔ closedFrom seen a ∧ closedFrom (seen ++ emittedIds a) b := by
  induction a with
  | nil => intro seen; simp [closedFrom, emittedIds]
  | cons x a ih =>
    intro seen
    cases x with
    | node value =>
      show ((∀ pid, value.parent = some pid → pid ∈ seen) ∧
          closedFrom (seen ++ [value.id]) (a ++ b))
        ↔ ((∀ pid, value.parent = some pid → pid ∈ seen) ∧ closedFrom (seen ++ [value.id]) a) ∧
          closedFrom (seen ++ value.id :: emittedIds a) b
      rw [ih, and_assoc, List.append_assoc, List.singleton_append]
    | sample id =>
      show (id ∈ seen ∧ closedFrom seen (a ++ b))
        ↔ (id ∈ seen ∧ closedFrom seen a) ∧ closedFrom (seen ++ emittedIds a) b
      rw [ih, and_assoc]

theorem closedFrom_map_sample (seen l : List Nat) (h : ∀ s ∈ l, s ∈ seen) :
    closedFrom seen (l.map Emission.sample) := by
  induction l with
  | nil => trivial
  | cons x l ih =>
    exact ⟨h x (List.mem_cons_self _ _), ih (fun s hs => h s (List.mem_cons_of_mem _ hs))⟩

/-- In emissions that name emitted nodes only, an item names nodes of the records before
it. -/
theorem closedFrom_split (pre post : List Emission) (x : Emission) (seen : List Nat)
    (h : closedFrom seen (pre ++ x :: post)) :
    (∀ value pid, x = Emission.node value → value.parent = some pid →
      pid ∈ seen ++ emittedIds pre) ∧
    (∀ id, x = Emission.sample id → id ∈ seen ++ emittedIds pre) := by
  rw [closedFrom_append] at h
  obtain ⟨-, h2⟩ := h
  constructor
  · intro value pid hx hp
    subst hx
    exact h2.1 pid hp
  · intro id hx
    subst hx
    exact h2.1

theorem toInt32_toUInt32 (x : Int) (h1 : -(2 : Int) ^ 31 ≤ x) (h2 : x < (2 : Int) ^ 31) :
    toInt32 (toUInt32 x) = x := by
  unfold toInt32 toUInt32
  have hmod : x % 2 ^ 32 = if 0 ≤ x then x else x + 2 ^ 32 := by
    split_ifs with hx
    · exact Int.emod_eq_of_lt hx (by omega)
    · rw [← Int.add_emod_self]
      exact Int.emod_eq_of_lt (by omega) (by omega)
  rw [hmod]
  split_ifs <;> omega

theorem getLast?_cons_getD (t a : Int) (l : List Int) :
    (t :: l).getLast?.getD a = l.getLast?.getD t := by
  cases l with
  | nil => rfl
  | cons u l =>
    rw [List.getLast?_cons_cons]
    cases h : (u :: l).getLast? with
    | none => simp at h
    | some v => rfl

namespace CpuProfile

theorem length_timeDeltas (l : List Int) : ∀ a : Int, (timeDeltas a l).length = l.length := by
  induction l with
  | nil => intro a; rfl
  | cons t l ih => intro a; simp only [timeDeltas, List.length_cons, ih]

theorem timeDeltas_append (l₁ l₂ : List Int) :
    ∀ a : Int, timeDeltas a (l₁ ++ l₂) = timeDeltas a l₁ ++ timeDeltas (l₁.getLast?.getD a) l₂ := by
  induction l₁ with
  | nil => intro a; rfl
  | cons t l₁ ih =>
    intro a
    rw [getLast?_cons_getD]
    show toInt32 (toUInt32 (t - a)) :: timeDeltas t (l₁ ++ l₂)
      = toInt32 (toUInt32 (t - a)) :: timeDeltas t l₁ ++ timeDeltas (l₁.getLast?.getD t) l₂
    rw [ih t, List.cons_append]

/-- The time deltas of the timestamps before the position `n` and those of the rest, from the
timestamp before the position `n`, make the time deltas of the whole. -/
theorem timeDeltas_take_drop (start : Int) (ts : List Int) (n : Nat) (hn : n ≤ ts.length) :
    timeDeltas start (ts.take n)
      ++ timeDeltas (if n ≠ 0 then ts.getD (n - 1) 0 else start) (ts.drop n)
      = timeDeltas start ts := by
  have hlast : (ts.take n).getLast?.getD start = if n ≠ 0 then ts.getD (n - 1) 0 else start := by
    rw [List.getLast?_take]
    by_cases h0 : n = 0
    · simp [h0]
    · have hlt : n - 1 < ts.length := by omega
      simp [h0, List.getD_eq_getElem?_getD, List.getElem?_eq_getElem hlt]
  rw [← hlast, ← timeDeltas_append, List.take_append_drop]

/-- The sum of the time deltas up to a timestamp, when every difference is a value of
the type `int`. -/
theorem sum_timeDeltas (ts : List Int) :
    ∀ (start : Int), gapsFit start ts → ∀ (i : Nat) (t : Int), ts[i]? = some t →
      ((timeDeltas start ts).take (i + 1)).sum = t - start := by
  induction ts with
  | nil => intro start _ i t hi; simp at hi
  | cons u ts ih =>
    intro start hfit i t hi
    obtain ⟨h1, h2, h3⟩ := hfit
    simp only [timeDeltas, List.take_succ_cons, List.sum_cons, toInt32_toUInt32 _ h1 h2]
    cases i with
    | zero =>
      simp only [List.getElem?_cons_zero, Option.some.injEq] at hi
      subst hi
      simp
    | succ i =>
      simp only [List.getElem?_cons_succ] at hi
      rw [ih u h3 i t hi]
      ring

end CpuProfile

/-! ## CpuProfile -/

namespace CpuProfile

/-- With no pending node and no sample at all, `StreamPendingTraceEvents` emits nothing
and leaves the profile as it is. -/
theorem StreamPendingTraceEvents_of_no_samples (store : CodeEntryStore) (p : CpuProfile)
    (hpending : p.top_down.pending_nodes = []) (hsamples : p.samples = []) :
    StreamPendingTraceEvents store p = (p, []) := by
  obtain ⟨title, rs, st, et, td, ts, ss, nx⟩ := p
  obtain ⟨re, nid, nodes, pn, nfid, fids⟩ := td
  simp only at hpending hsamples
  subst hpending
  subst hsamples
  simp [StreamPendingTraceEvents, ProfileTree.TakePendingNodes]

/-- With no pending node and every sample streamed, but with a sample,
`StreamPendingTraceEvents` leaves the profile as it is and emits a `ProfileChunk` event
with an empty value. -/
theorem StreamPendingTraceEvents_of_all_streamed (store : CodeEntryStore) (p : CpuProfile)
    (hpending : p.top_down.pending_nodes = []) (hsamples : p.samples ≠ [])
    (hnext : p.streaming_next_sample = p.samples.length) :
    StreamPendingTraceEvents store p
      = (p, [TraceEvent.ProfileChunk
          { cpuProfile := none, timeDeltas := none, endTime := none }]) := by
  obtain ⟨title, rs, st, et, td, ts, ss, nx⟩ := p
  obtain ⟨re, nid, nodes, pn, nfid, fids⟩ := td
  simp only at hpending hsamples hnext
  subst hpending
  subst hnext
  have hne : ss.isEmpty = false := List.isEmpty_eq_false.mpr hsamples
  simp [StreamPendingTraceEvents, ProfileTree.TakePendingNodes, hne]

/-- C16 (the code departs from it): the first `AddPath` of a new profile, with a path of
nine entries, makes ten nodes pending and so streams them with the one sample. At the
call of `StreamPendingTraceEvents` that follows the list of pending nodes is empty and
`streaming_next_sample` is `samples.size()`, and the call emits a `ProfileChunk` event,
of empty value, where the claim has it emit nothing. -/
theorem StreamPendingTraceEvents_all_streamed_emits :
    (AddPath plainStore (new "p" true 1000 100).1 1100 [1, 2, 3, 4, 5, 6, 7, 8, 9] 0
      true).2.1.top_down.pending_nodes = [] ∧
    (AddPath plainStore (new "p" true 1000 100).1 1100 [1, 2, 3, 4, 5, 6, 7, 8, 9] 0
      true).2.1.streaming_next_sample
      = (AddPath plainStore (new "p" true 1000 100).1 1100 [1, 2, 3, 4, 5, 6, 7, 8, 9] 0
          true).2.1.samples.length ∧
    (StreamPendingTraceEvents plainStore
      (AddPath plainStore (new "p" true 1000 100).1 1100 [1, 2, 3, 4, 5, 6, 7, 8, 9] 0
        true).2.1).2
      = [TraceEvent.ProfileChunk { cpuProfile := none, timeDeltas := none, endTime := none }] := by
  decide

/-! ### The stream of a profile -/

theorem id_BuildNodeValue (store : CodeEntryStore) (t : ProfileTree) (node : Nat) :
    (BuildNodeValue store t node).id = ProfileTree.nodeId t node := by
  unfold BuildNodeValue ProfileTree.nodeId
  cases t.nodes[node]? <;> rfl

theorem parent_BuildNodeValue (store : CodeEntryStore) (t : ProfileTree) (node : Nat)
    (nd : ProfileNode) (h : t.nodes[node]? = some nd) :
    (BuildNodeValue store t node).parent = nd.parent.map (ProfileTree.nodeId t) := by
  unfold BuildNodeValue
  rw [h]

/-- What `StreamPendingTraceEvents` emits and leaves. -/
theorem StreamPendingTraceEvents_spec (store : CodeEntryStore) (p : CpuProfile)
    (hlen : p.timestamps.length = p.samples.length)
    (hnext : p.streaming_next_sample ≤ p.samples.length) :
    (StreamPendingTraceEvents store p).1
      = { p with top_down := { p.top_down with pending_nodes := [] },
                 streaming_next_sample := p.samples.length } ∧
    emissions (StreamPendingTraceEvents store p).2
      = (p.top_down.pending_nodes.map (BuildNodeValue store p.top_down)).map Emission.node
        ++ ((p.samples.drop p.streaming_next_sample).map
            (ProfileTree.nodeId p.top_down)).map Emission.sample ∧
    (StreamPendingTraceEvents store p).2.flatMap chunkSamples
      = (p.samples.drop p.streaming_next_sample).map (ProfileTree.nodeId p.top_down) ∧
    (StreamPendingTraceEvents store p).2.flatMap chunkTimeDeltas
      = timeDeltas
          (if p.streaming_next_sample ≠ 0 then p.timestamps.getD (p.streaming_next_sample - 1) 0
           else p.start_time)
          (p.timestamps.drop p.streaming_next_sample) ∧
    (∀ ev ∈ (StreamPendingTraceEvents store p).2,
      (chunkTimeDeltas ev).length = (chunkSamples ev).length) := by
  obtain ⟨title, rs, st, et, td, ts, ss, nx⟩ := p
  obtain ⟨re, nid, nodes, pn, nfid, fids⟩ := td
  simp only at hlen hnext
  have hb : ∀ pn' : List Nat, BuildNodeValue store ⟨re, nid, nodes, pn', nfid, fids⟩
      = BuildNodeValue store ⟨re, nid, nodes, pn, nfid, fids⟩ := fun _ => rfl
  have hi : ∀ pn' : List Nat, ProfileTree.nodeId ⟨re, nid, nodes, pn', nfid, fids⟩
      = ProfileTree.nodeId ⟨re, nid, nodes, pn, nfid, fids⟩ := fun _ => rfl
  by_cases hnx : nx = ss.length
  · subst hnx
    have hts : ts.drop ss.length = [] := List.drop_eq_nil_of_le (by omega)
    cases pn with
    | nil =>
      cases ss with
      | nil =>
        have hnil : ts = [] := List.length_eq_zero.mp hlen
        subst hnil
        simp [StreamPendingTraceEvents, ProfileTree.TakePendingNodes, emissions, timeDeltas]
      | cons s ss =>
        simp only [List.length_cons] at hts
        simp [StreamPendingTraceEvents, ProfileTree.TakePendingNodes, emissions, hts, timeDeltas,
          chunkNodes, chunkSamples, chunkTimeDeltas]
    | cons n pn =>
      simp [StreamPendingTraceEvents, ProfileTree.TakePendingNodes, emissions, hts, timeDeltas,
          chunkNodes, chunkSamples, chunkTimeDeltas, hb, hi]
  · have hss : ss ≠ [] := by
      intro h
      subst h
      simp at hnext
      exact hnx (by simpa using hnext)
    have hne : ss.isEmpty = false := List.isEmpty_eq_false.mpr hss
    cases pn with
    | nil =>
      simp [StreamPendingTraceEvents, ProfileTree.TakePendingNodes, emissions, timeDeltas,
          chunkNodes, chunkSamples, chunkTimeDeltas, hb, hi, hne, hnx, length_timeDeltas, hlen]
    | cons n pn =>
      simp [StreamPendingTraceEvents, ProfileTree.TakePendingNodes, emissions, timeDeltas,
          chunkNodes, chunkSamples, chunkTimeDeltas, hb, hi, hne, hnx, length_timeDeltas, hlen]

theorem closedFrom_pending (store : CodeEntryStore) (t : ProfileTree)
    (h : ProfileTree.WF t) :
    ∀ (m k : Nat), k + m ≤ t.nodes.length →
      closedFrom ((List.range' 0 k).map (ProfileTree.nodeId t))
        (((List.range' k m).map (BuildNodeValue store t)).map Emission.node) := by
  intro m
  induction m with
  | zero => intro k _; trivial
  | succ m ih =>
    intro k hk
    have hk' : k < t.nodes.length := by omega
    rw [List.range'_succ]
    simp only [List.map_cons]
    refine ⟨?_, ?_⟩
    · intro pid hp
      rw [parent_BuildNodeValue store t k _ (List.getElem?_eq_getElem hk')] at hp
      cases hpar : (t.nodes[k]).parent with
      | none => rw [hpar] at hp; cases hp
      | some pp =>
        rw [hpar] at hp
        simp only [Option.map_some', Option.some.injEq] at hp
        subst hp
        have hlt := h.2.1 k _ pp (List.getElem?_eq_getElem hk') hpar
        exact List.mem_map.mpr ⟨pp, by rw [List.mem_range']; exact ⟨pp, hlt, by omega⟩, rfl⟩
    · rw [id_BuildNodeValue]
      have h1 := ih (k + 1) (by omega)
      have h2 : List.range' 0 (k + 1) = List.range' 0 k ++ [k] := by
        rw [List.range'_concat]
        simp
      rwa [h2, List.map_append] at h1

theorem emittedIds_pending (store : CodeEntryStore) (t : ProfileTree) (l : List Nat) :
    emittedIds ((l.map (BuildNodeValue store t)).map Emission.node)
      = l.map (ProfileTree.nodeId t) := by
  rw [emittedIds_map_node, List.map_map]
  exact List.map_congr_left (fun i _ => id_BuildNodeValue store t i)

/-- The call of `StreamPendingTraceEvents` keeps what holds of a profile and its events. -/
theorem StreamInv_StreamPendingTraceEvents (store : CodeEntryStore) (p : CpuProfile)
    (evs : List TraceEvent) (h : StreamInv p evs) :
    StreamInv (StreamPendingTraceEvents store p).1
      (evs ++ (StreamPendingTraceEvents store p).2) := by
  obtain ⟨hwf, hlen, hnext, hs, hsam, hdel, hev, ⟨k, hk, hpend, hem⟩, hcl⟩ := h
  obtain ⟨e1, e2, e3, e4, e5⟩ := StreamPendingTraceEvents_spec store p hlen hnext
  have hall : (List.range' 0 k).map (ProfileTree.nodeId p.top_down)
      ++ emittedIds ((p.top_down.pending_nodes.map
          (BuildNodeValue store p.top_down)).map Emission.node)
      = (List.range' 0 p.top_down.nodes.length).map (ProfileTree.nodeId p.top_down) := by
    rw [emittedIds_pending, hpend, ← List.map_append]
    have h0 := ProfileTree.range'_append_range' 0 k (p.top_down.nodes.length - k)
    rw [Nat.zero_add] at h0
    rw [h0]
    congr 2
    omega
  rw [e1]
  refine ⟨hwf, hlen, le_refl _, hs, ?_, ?_, ?_, ⟨p.top_down.nodes.length, le_refl _, ?_, ?_⟩, ?_⟩
  · rw [List.flatMap_append, e3, hsam]
    show _ = (p.samples.take p.samples.length).map (ProfileTree.nodeId p.top_down)
    rw [List.take_length, ← List.map_append, List.take_append_drop]
  · rw [List.flatMap_append, e4, hdel]
    show _ = timeDeltas p.start_time (p.timestamps.take p.samples.length)
    rw [← hlen, List.take_length]
    exact timeDeltas_take_drop _ _ _ (by omega)
  · intro ev hev'
    rcases List.mem_append.mp hev' with h | h
    · exact hev ev h
    · exact e5 ev h
  · show [] = List.range' p.top_down.nodes.length (p.top_down.nodes.length - p.top_down.nodes.length)
    simp
  · rw [emissions_append, emittedIds_append, hem, e2, emittedIds_append, emittedIds_map_sample,
      List.append_nil]
    exact hall
  · rw [emissions_append, closedFrom_append]
    refine ⟨hcl, ?_⟩
    rw [List.nil_append, hem, e2, closedFrom_append]
    refine ⟨?_, ?_⟩
    · rw [hpend]
      exact closedFrom_pending store _ hwf _ _ (by omega)
    · rw [hall]
      apply closedFrom_map_sample
      intro s hs'
      obtain ⟨x, hx, rfl⟩ := List.mem_map.mp hs'
      have hx' := hs x (List.mem_of_mem_drop hx)
      exact List.mem_map.mpr ⟨x, by rw [List.mem_range']; exact ⟨x, hx', by omega⟩, rfl⟩

/-- A tree that extends the tree of the profile, with new samples that are nodes of it,
keeps what holds of a profile and its events. -/
theorem StreamInv_extend (p : CpuProfile) (evs : List TraceEvent) (h : StreamInv p evs)
    (t' : ProfileTree) (hwf' : ProfileTree.WF t') (hext : ProfileTree.Extends p.top_down t')
    (new_ts : List Int) (new_ss : List Nat) (hl : new_ts.length = new_ss.length)
    (hnew : ∀ s ∈ new_ss, s < t'.nodes.length) :
    StreamInv { p with top_down := t', timestamps := p.timestamps ++ new_ts,
                       samples := p.samples ++ new_ss } evs := by
  obtain ⟨hwf, hlen, hnext, hs, hsam, hdel, hev, ⟨k, hk, hpend, hem⟩, hcl⟩ := h
  refine ⟨hwf', ?_, ?_, ?_, ?_, ?_, hev, ⟨k, le_trans hk hext.1, ?_, ?_⟩, hcl⟩
  · show (p.timestamps ++ new_ts).length = (p.samples ++ new_ss).length
    rw [List.length_append, List.length_append, hlen, hl]
  · show p.streaming_next_sample ≤ (p.samples ++ new_ss).length
    rw [List.length_append]
    omega
  · intro s hs'
    rcases List.mem_append.mp hs' with h | h
    · exact lt_of_lt_of_le (hs s h) hext.1
    · exact hnew s h
  · show _ = ((p.samples ++ new_ss).take p.streaming_next_sample).map (ProfileTree.nodeId t')
    rw [List.take_append_of_le_length hnext, hsam]
    exact List.map_congr_left (fun s hs' =>
      (ProfileTree.nodeId_of_extends hext (hs s (List.mem_of_mem_take hs'))).symm)
  · show _ = timeDeltas p.start_time ((p.timestamps ++ new_ts).take p.streaming_next_sample)
    rw [List.take_append_of_le_length (by omega), hdel]
  · show t'.pending_nodes = List.range' k (t'.nodes.length - k)
    rw [hext.2.2, hpend]
    have h1 := hext.1
    have h0 := ProfileTree.range'_append_range' k (p.top_down.nodes.length - k)
      (t'.nodes.length - p.top_down.nodes.length)
    have e1 : k + (p.top_down.nodes.length - k) = p.top_down.nodes.length := by omega
    have e2 : p.top_down.nodes.length - k + (t'.nodes.length - p.top_down.nodes.length)
        = t'.nodes.length - k := by omega
    rw [e1, e2] at h0
    exact h0
  · rw [hem]
    refine List.map_congr_left (fun i hi => ?_)
    rw [List.mem_range'] at hi
    obtain ⟨j, hj, rfl⟩ := hi
    exact (ProfileTree.nodeId_of_extends hext (by omega)).symm

/-- The call of `AddPath` keeps what holds of a profile and its events. -/
theorem StreamInv_AddPath (store : CodeEntryStore) (p : CpuProfile) (evs : List TraceEvent)
    (timestamp : Int) (path : List Nat) (src_line : Int) (update_stats : Bool)
    (h : StreamInv p evs) :
    StreamInv (AddPath store p timestamp path src_line update_stats).2.1
      (evs ++ (AddPath store p timestamp path src_line update_stats).2.2) := by
  have hwf' := (ProfileTree.AddPathFromEnd_spec h.1 store path src_line update_stats).1
  have hext := ProfileTree.Extends_AddPathFromEnd store p.top_down path src_line update_stats
  have hlt := ProfileTree.AddPathFromEnd_node_lt h.1 store path src_line update_stats
  have hA := StreamInv_extend p evs h _ hwf' hext [] [] rfl (fun s hs => by cases hs)
  have hB := StreamInv_extend p evs h _ hwf' hext [timestamp]
    [(ProfileTree.AddPathFromEnd store p.top_down path src_line update_stats).2.2] rfl
    (fun s hs => by rw [List.mem_singleton] at hs; rw [hs]; exact hlt)
  simp only [List.append_nil] at hA
  unfold AddPath
  simp only []
  split_ifs
  · exact StreamInv_StreamPendingTraceEvents _ _ _ hB
  · rw [List.append_nil]
    exact hB
  · exact StreamInv_StreamPendingTraceEvents _ _ _ hA
  · rw [List.append_nil]
    exact hA

theorem StreamInv_new (title : String) (record_samples : Bool) (now : Int)
    (root_entry : Nat) :
    StreamInv (new title record_samples now root_entry).1
      (new title record_samples now root_entry).2 :=
  ⟨ProfileTree.WF_new root_entry, rfl, le_refl _, fun s hs => (by cases hs), rfl, rfl,
    fun ev hev => (by rw [List.mem_singleton.mp hev]; rfl), ⟨0, Nat.zero_le _, rfl, rfl⟩,
    trivial⟩

theorem fields_StreamPendingTraceEvents (store : CodeEntryStore) (p : CpuProfile) :
    (StreamPendingTraceEvents store p).1.start_time = p.start_time ∧
    (StreamPendingTraceEvents store p).1.record_samples = p.record_samples ∧
    (StreamPendingTraceEvents store p).1.timestamps = p.timestamps ∧
    (StreamPendingTraceEvents store p).1.samples = p.samples := by
  unfold StreamPendingTraceEvents
  simp only []
  split_ifs <;> exact ⟨rfl, rfl, rfl, rfl⟩

theorem fields_AddPath (store : CodeEntryStore) (p : CpuProfile) (timestamp : Int)
    (path : List Nat) (src_line : Int) (update_stats : Bool) :
    (AddPath store p timestamp path src_line update_stats).2.1.start_time = p.start_time ∧
    (AddPath store p timestamp path src_line update_stats).2.1.record_samples
      = p.record_samples ∧
    (AddPath store p timestamp path src_line update_stats).2.1.timestamps
      = p.timestamps ++ if p.record_samples = true ∧ timestamp ≠ 0 then [timestamp] else [] := by
  unfold AddPath
  simp only []
  split_ifs with h1 h2 h2
  · obtain ⟨e1, e2, e3, -⟩ := fields_StreamPendingTraceEvents
      (ProfileTree.AddPathFromEnd store p.top_down path src_line update_stats).1
      { p with top_down :=
                 (ProfileTree.AddPathFromEnd store p.top_down path src_line update_stats).2.1,
               timestamps := p.timestamps ++ [timestamp],
               samples := p.samples
                 ++ [(ProfileTree.AddPathFromEnd store p.top_down path src_line update_stats).2.2] }
    exact ⟨e1, e2, e3⟩
  · exact ⟨rfl, rfl, rfl⟩
  · obtain ⟨e1, e2, e3, -⟩ := fields_StreamPendingTraceEvents
      (ProfileTree.AddPathFromEnd store p.top_down path src_line update_stats).1
      { p with top_down :=
                 (ProfileTree.AddPathFromEnd store p.top_down path src_line update_stats).2.1 }
    exact ⟨e1, e2, by rw [e3, List.append_nil]⟩
  · exact ⟨rfl, rfl, by rw [List.append_nil]⟩

/-- What holds of a run after a sequence of calls of `AddPath`. -/
theorem foldl_addPath_spec (calls : List PathCall) :
    ∀ r : Run, StreamInv r.profile r.events →
      StreamInv (calls.foldl Run.addPath r).profile (calls.foldl Run.addPath r).events ∧
      (calls.foldl Run.addPath r).profile.start_time = r.profile.start_time ∧
      (calls.foldl Run.addPath r).profile.record_samples = r.profile.record_samples ∧
      (calls.foldl Run.addPath r).profile.timestamps
        = r.profile.timestamps
          ++ (calls.filter (fun c => r.profile.record_samples && decide (c.timestamp ≠ 0))).map
              PathCall.timestamp := by
  induction calls with
  | nil => intro r h; exact ⟨h, rfl, rfl, by simp⟩
  | cons c calls ih =>
    intro r h
    rw [List.foldl_cons]
    obtain ⟨f1, f2, f3⟩ := fields_AddPath r.store r.profile c.timestamp c.path c.src_line
      c.update_stats
    have hstep : StreamInv (Run.addPath r c).profile (Run.addPath r c).events :=
      StreamInv_AddPath r.store r.profile r.events c.timestamp c.path c.src_line
        c.update_stats h
    have g1 : (Run.addPath r c).profile.start_time = r.profile.start_time := f1
    have g2 : (Run.addPath r c).profile.record_samples = r.profile.record_samples := f2
    have g3 : (Run.addPath r c).profile.timestamps
        = r.profile.timestamps
          ++ if r.profile.record_samples = true ∧ c.timestamp ≠ 0 then [c.timestamp] else [] := f3
    obtain ⟨i1, i2, i3, i4⟩ := ih (Run.addPath r c) hstep
    refine ⟨i1, i2.trans g1, i3.trans g2, ?_⟩
    rw [i4, g2, g3, List.append_assoc]
    congr 1
    by_cases hc : r.profile.record_samples = true ∧ c.timestamp ≠ 0
    · have hb : (r.profile.record_samples && decide (c.timestamp ≠ 0)) = true := by
        simpa using hc
      rw [if_pos hc, List.filter_cons, if_pos hb]
      rfl
    · have hb : ¬ (r.profile.record_samples && decide (c.timestamp ≠ 0)) = true := by
        simpa using hc
      rw [if_neg hc, List.filter_cons, if_neg hb]
      rfl

/-- An event without nodes, samples and time deltas keeps what holds of a profile and its
events. -/
theorem StreamInv_append_endTime (p : CpuProfile) (evs : List TraceEvent) (now : Int)
    (h : StreamInv p evs) :
    StreamInv p (evs ++ [TraceEvent.ProfileChunk
      { cpuProfile := none, timeDeltas := none, endTime := some now }]) := by
  obtain ⟨hwf, hlen, hnext, hs, hsam, hdel, hev, ⟨k, hk, hpend, hem⟩, hcl⟩ := h
  refine ⟨hwf, hlen, hnext, hs, ?_, ?_, ?_, ⟨k, hk, hpend, ?_⟩, ?_⟩
  · rw [List.flatMap_append, hsam]
    simp [chunkSamples]
  · rw [List.flatMap_append, hdel]
    simp [chunkTimeDeltas]
  · intro ev hev'
    rcases List.mem_append.mp hev' with h | h
    · exact hev ev h
    · rw [List.mem_singleton.mp h]
      rfl
  · rw [emissions_append, emittedIds_append, hem]
    simp [emissions, chunkNodes, chunkSamples, emittedIds]
  · rw [emissions_append, closedFrom_append]
    exact ⟨hcl, trivial⟩

/-- What holds of a profile and its events after `FinishProfile`. -/
theorem FinishProfile_spec (store : CodeEntryStore) (p : CpuProfile) (evs : List TraceEvent)
    (now : Int) (h : StreamInv p evs) :
    StreamInv (FinishProfile store p now).1 (evs ++ (FinishProfile store p now).2) ∧
    (FinishProfile store p now).1.streaming_next_sample
      = (FinishProfile store p now).1.samples.length ∧
    (FinishProfile store p now).1.start_time = p.start_time ∧
    (FinishProfile store p now).1.timestamps = p.timestamps := by
  have h0 : StreamInv { p with end_time := now } evs := h
  have h1 := StreamInv_StreamPendingTraceEvents store _ evs h0
  obtain ⟨e1, -⟩ := StreamPendingTraceEvents_spec store { p with end_time := now } h.2.1 h.2.2.1
  obtain ⟨f1, -, f3, -⟩ := fields_StreamPendingTraceEvents store { p with end_time := now }
  have h2 := StreamInv_append_endTime _ _ now h1
  rw [List.append_assoc] at h2
  refine ⟨h2, ?_, f1, f3⟩
  show (StreamPendingTraceEvents store { p with end_time := now }).1.streaming_next_sample
      = (StreamPendingTraceEvents store { p with end_time := now }).1.samples.length
  rw [e1]

/-- What holds of the run of a profile. -/
theorem record_spec (store : CodeEntryStore) (title : String) (record_samples : Bool)
    (start : Int) (root_entry : Nat) (calls : List PathCall) (finish : Int) :
    StreamInv (record store title record_samples start root_entry calls finish).profile
      (record store title record_samples start root_entry calls finish).events ∧
    (record store title record_samples start root_entry calls finish).profile.streaming_next_sample
      = (record store title record_samples start root_entry calls finish).profile.samples.length ∧
    (record store title record_samples start root_entry calls finish).profile.start_time
      = start ∧
    (record store title record_samples start root_entry calls finish).profile.timestamps
      = (calls.filter (fun c => record_samples && decide (c.timestamp ≠ 0))).map
          PathCall.timestamp := by
  obtain ⟨i1, i2, -, i4⟩ := foldl_addPath_spec calls
    { store := store, profile := (new title record_samples start root_entry).1,
      events := (new title record_samples start root_entry).2 }
    (StreamInv_new title record_samples start root_entry)
  obtain ⟨j1, j2, j3, j4⟩ := FinishProfile_spec _ _ _ finish i1
  refine ⟨j1, j2, j3.trans i2, j4.trans ?_⟩
  rw [i4]
  rfl

/-- C17 as stated fails: a recording profile that starts at the time `1000` and takes one
sample at the time `2147484648`, that is `2^31` microseconds later, emits the time delta
`-2147483648`, `static_cast<int>` of the difference, and the running sum up to the sample
is not `timestamps[0] - start_time`. -/
theorem time_delta_truncated_counterexample :
    (record plainStore "p" true 1000 100 [⟨2147484648, [1], 0, true⟩] 2147485000).profile.timestamps[0]?
      = some 2147484648 ∧
    (record plainStore "p" true 1000 100 [⟨2147484648, [1], 0, true⟩] 2147485000).profile.start_time
      = 1000 ∧
    (record plainStore "p" true 1000 100 [⟨2147484648, [1], 0, true⟩] 2147485000).events.flatMap
      chunkTimeDeltas = [-2147483648] ∧
    (((record plainStore "p" true 1000 100 [⟨2147484648, [1], 0, true⟩] 2147485000).events.flatMap
      chunkTimeDeltas).take (0 + 1)).sum ≠ 2147484648 - 1000 := by
  decide

/-- Each time delta is `static_cast<int>` of the difference between its timestamp and the
one before it, `lastTimestamp` for the first. -/
theorem getElem?_timeDeltas (l : List Int) :
    ∀ (a : Int) (i : Nat) (t : Int), l[i]? = some t →
      (timeDeltas a l)[i]?
        = some (toInt32 (toUInt32 (t - if i = 0 then a else l.getD (i - 1) 0))) := by
  induction l with
  | nil => intro a i t hi; simp at hi
  | cons u l ih =>
    intro a i t hi
    cases i with
    | zero =>
      simp only [List.getElem?_cons_zero, Option.some.injEq] at hi
      subst hi
      simp [timeDeltas]
    | succ i =>
      simp only [List.getElem?_cons_succ] at hi
      have h := ih u i t hi
      cases i with
      | zero => simpa [timeDeltas] using h
      | succ i => simpa [timeDeltas] using h

/-- C17, amended: for every sequence of `AddPath` calls followed by `FinishProfile`, the
`samples` arrays of the events emitted, put together in the order of emission, are the
node ids of `samples[0]`, `samples[1]`, ... in the order of the index, each sample once,
and the `timeDeltas` array of each event is as long as its `samples` array. The time
deltas put together are, one for each sample, `static_cast<int>` of the microseconds from
the timestamp before (`start_time` for the first) to `timestamps[i]`; so the sum of the
time deltas up to the sample `i` is `timestamps[i] - start_time` provided each of these
differences is a value of the type `int`. The timestamps recorded are the non-null ones
of the calls of a recording profile, and `start_time` is the time of the construction. -/
theorem record_stream_reconstructs_samples (store : CodeEntryStore) (title : String)
    (record_samples : Bool) (start : Int) (root_entry : Nat) (calls : List PathCall)
    (finish : Int) :
    (record store title record_samples start root_entry calls finish).profile.timestamps
      = (calls.filter (fun c => record_samples && decide (c.timestamp ≠ 0))).map
          PathCall.timestamp ∧
    (record store title record_samples start root_entry calls finish).profile.start_time = start ∧
    (record store title record_samples start root_entry calls finish).profile.samples.length
      = (record store title record_samples start root_entry calls finish).profile.timestamps.length ∧
    (record store title record_samples start root_entry calls finish).events.flatMap chunkSamples
      = (record store title record_samples start root_entry calls finish).profile.samples.map
          (ProfileTree.nodeId
            (record store title record_samples start root_entry calls finish).profile.top_down) ∧
    (∀ ev ∈ (record store title record_samples start root_entry calls finish).events,
      (chunkTimeDeltas ev).length = (chunkSamples ev).length) ∧
    (record store title record_samples start root_entry calls finish).events.flatMap chunkTimeDeltas
      = timeDeltas start
          (record store title record_samples start root_entry calls finish).profile.timestamps ∧
    (∀ (i : Nat) (t : Int),
      (record store title record_samples start root_entry calls finish).profile.timestamps[i]? = some t →
      ((record store title record_samples start root_entry calls finish).events.flatMap
          chunkTimeDeltas)[i]?
        = some (toInt32 (toUInt32 (t - if i = 0 then start else
            (record store title record_samples start root_entry calls finish).profile.timestamps.getD
              (i - 1) 0)))) ∧
    (gapsFit start (record store title record_samples start root_entry calls finish).profile.timestamps →
      ∀ (i : Nat) (t : Int),
        (record store title record_samples start root_entry calls finish).profile.timestamps[i]? = some t →
        (((record store title record_samples start root_entry calls finish).events.flatMap
            chunkTimeDeltas).take (i + 1)).sum = t - start) := by
  obtain ⟨hinv, hnx, hst, hts⟩ :=
    record_spec store title record_samples start root_entry calls finish
  obtain ⟨-, hlen, -, -, hsam, hdel, hev, -, -⟩ := hinv
  have hall : (record store title record_samples start root_entry calls finish).events.flatMap chunkTimeDeltas
      = timeDeltas start
          (record store title record_samples start root_entry calls finish).profile.timestamps := by
    rw [hdel, hnx, ← hlen, List.take_length, hst]
  refine ⟨hts, hst, hlen.symm, ?_, hev, hall, ?_, ?_⟩
  · rw [hsam, hnx, List.take_length]
  · intro i t hi
    rw [hall]
    exact getElem?_timeDeltas _ start i t hi
  · intro hfit i t hi
    rw [hall]
    exact sum_timeDeltas _ start hfit i t hi

/-- A profile that starts at the time `1000` and takes samples at the times `1100` and
`1250`: the time deltas are `100` and `150`, and up to the second sample they sum to
`1250 - 1000`. -/
theorem record_stream_reconstructs_samples_witness :
    gapsFit 1000 (record plainStore "p" true 1000 100
        [⟨1100, [1, 2], 0, true⟩, ⟨1250, [1], 0, true⟩] 2000).profile.timestamps ∧
    (record plainStore "p" true 1000 100
        [⟨1100, [1, 2], 0, true⟩, ⟨1250, [1], 0, true⟩] 2000).events.flatMap chunkSamples = [3, 4] ∧
    (record plainStore "p" true 1000 100
        [⟨1100, [1, 2], 0, true⟩, ⟨1250, [1], 0, true⟩] 2000).events.flatMap chunkTimeDeltas = [100, 150] ∧
    (((record plainStore "p" true 1000 100
        [⟨1100, [1, 2], 0, true⟩, ⟨1250, [1], 0, true⟩] 2000).events.flatMap chunkTimeDeltas).take (1 + 1)).sum = 1250 - 1000 :=
  ⟨by decide,
   ((record_stream_reconstructs_samples plainStore "p" true 1000 100
      [⟨1100, [1, 2], 0, true⟩, ⟨1250, [1], 0, true⟩] 2000).2.2.2.1).trans (by decide),
   ((record_stream_reconstructs_samples plainStore "p" true 1000 100
      [⟨1100, [1, 2], 0, true⟩, ⟨1250, [1], 0, true⟩] 2000).2.2.2.2.2.1).trans (by decide),
   (record_stream_reconstructs_samples plainStore "p" true 1000 100
      [⟨1100, [1, 2], 0, true⟩, ⟨1250, [1], 0, true⟩] 2000).2.2.2.2.2.2.2 (by decide) 1 1250 (by decide)⟩

/-- C18: in the events emitted by a profile, through any sequence of `AddPath` calls and
`FinishProfile`, no emission names a node that has not been emitted. With the node
records and sample ids read in the order of emission, the node records of an event
before its sample ids: the `parent` of a node record is the id of a node record before
it, and an id in a `samples` array is the id of a node record before it, that is of the
same or an earlier event. -/
theorem record_stream_references_emitted (store : CodeEntryStore) (title : String)
    (record_samples : Bool) (start : Int) (root_entry : Nat) (calls : List PathCall)
    (finish : Int) (pre post : List Emission) (x : Emission)
    (hsplit : emissions (record store title record_samples start root_entry calls finish).events
      = pre ++ x :: post) :
    (∀ value pid, x = Emission.node value → value.parent = some pid →
      pid ∈ emittedIds pre) ∧
    (∀ id, x = Emission.sample id → id ∈ emittedIds pre) := by
  obtain ⟨hinv, -⟩ := record_spec store title record_samples start root_entry calls finish
  have hcl := hinv.2.2.2.2.2.2.2.2
  rw [hsplit] at hcl
  have h := closedFrom_split pre post x [] hcl
  rw [List.nil_append] at h
  exact h

/-- A profile with one sample of the path `[1, 2]`: the record of the node of the entry
`1`, of id `3`, has the parent id `2`, the id of the record before it, and the sample id
`3` comes after that record. -/
theorem record_stream_references_emitted_witness :
    emissions (record plainStore "p" true 1000 100 [⟨1100, [1, 2], 0, true⟩] 2000).events
      = [Emission.node (NodeValue.mk "f" none 0 none none 1 none none),
         Emission.node (NodeValue.mk "f" none 0 none none 2 (some 1) none)]
        ++ Emission.node (NodeValue.mk "f" none 0 none none 3 (some 2) none)
          :: [Emission.sample 3] ∧
    2 ∈ emittedIds [Emission.node (NodeValue.mk "f" none 0 none none 1 none none),
         Emission.node (NodeValue.mk "f" none 0 none none 2 (some 1) none)] :=
  ⟨by decide,
   (record_stream_references_emitted plainStore "p" true 1000 100 [⟨1100, [1, 2], 0, true⟩] 2000
      [Emission.node (NodeValue.mk "f" none 0 none none 1 none none),
       Emission.node (NodeValue.mk "f" none 0 none none 2 (some 1) none)]
      [Emission.sample 3]
      (Emission.node (NodeValue.mk "f" none 0 none none 3 (some 2) none))
      (by decide)).1 _ 2 rfl rfl⟩

end CpuProfile

/-! ## CpuProfilesCollection -/

namespace CpuProfilesCollection

theorem title_new (title : String) (record_samples : Bool) (now : Int) (root_entry : Nat) :
    (CpuProfile.new title record_samples now root_entry).1.title = title := rfl

/-- C19: `StartProfiling(title, record_samples)` returns false, leaving the list of
current profiles as it is, iff the list already holds `kMaxSimultaneousProfiles`
profiles; otherwise it returns true, leaving the list as it is when a current profile
has the title and appending exactly one new profile, with that title, at the end when
none has. Hence a list of at most `kMaxSimultaneousProfiles` current profiles stays one. -/
theorem StartProfiling_spec (c : CpuProfilesCollection) (title : String)
    (record_samples : Bool) (now : Int) (root_entry : Nat)
    (hmax : c.current_profiles.length ≤ kMaxSimultaneousProfiles) :
    ((StartProfiling c title record_samples now root_entry).2.1 = false ↔
      c.current_profiles.length = kMaxSimultaneousProfiles) ∧
    (c.current_profiles.length = kMaxSimultaneousProfiles →
      (StartProfiling c title record_samples now root_entry).1 = c) ∧
    ((∃ p ∈ c.current_profiles, p.title = title) →
      (StartProfiling c title record_samples now root_entry).1 = c) ∧
    (c.current_profiles.length ≠ kMaxSimultaneousProfiles →
      (∀ p ∈ c.current_profiles, p.title ≠ title) →
      (StartProfiling c title record_samples now root_entry).1.current_profiles
        = c.current_profiles ++ [(CpuProfile.new title record_samples now root_entry).1] ∧
      (CpuProfile.new title record_samples now root_entry).1.title = title ∧
      (StartProfiling c title record_samples now root_entry).1.finished_profiles
        = c.finished_profiles) ∧
    (StartProfiling c title record_samples now root_entry).1.current_profiles.length
      ≤ kMaxSimultaneousProfiles := by
  by_cases hfull : c.current_profiles.length ≥ kMaxSimultaneousProfiles
  · have heq : c.current_profiles.length = kMaxSimultaneousProfiles := le_antisymm hmax hfull
    have hres : StartProfiling c title record_samples now root_entry = (c, false, []) := by
      unfold StartProfiling
      rw [if_pos hfull]
    rw [hres]
    exact ⟨⟨fun _ => heq, fun _ => rfl⟩, fun _ => rfl, fun _ => rfl,
      fun hne => absurd heq hne, hmax⟩
  · have hne : c.current_profiles.length ≠ kMaxSimultaneousProfiles := fun h => hfull (by omega)
    by_cases hany : c.current_profiles.any (fun profile => decide (profile.title = title)) = true
    · have hres : StartProfiling c title record_samples now root_entry = (c, true, []) := by
        unfold StartProfiling
        rw [if_neg hfull, if_pos hany]
      rw [hres]
      refine ⟨⟨fun h => Bool.noConfusion h, fun h => absurd h hne⟩, fun _ => rfl, fun _ => rfl,
        ?_, hmax⟩
      intro _ hall
      obtain ⟨q, hq, hqt⟩ := List.any_eq_true.mp hany
      exact absurd (of_decide_eq_true hqt) (hall q hq)
    · have hres : StartProfiling c title record_samples now root_entry
          = ({ c with current_profiles := c.current_profiles
                ++ [(CpuProfile.new title record_samples now root_entry).1] }, true,
              (CpuProfile.new title record_samples now root_entry).2) := by
        unfold StartProfiling
        rw [if_neg hfull, if_neg hany]
      rw [hres]
      refine ⟨⟨fun h => Bool.noConfusion h, fun h => absurd h hne⟩, fun h => absurd h hne,
        ?_, ?_, ?_⟩
      · rintro ⟨q, hq, hqt⟩
        exact absurd (List.any_eq_true.mpr ⟨q, hq, decide_eq_true hqt⟩) hany
      · intro _ _
        exact ⟨rfl, rfl, rfl⟩
      · show (c.current_profiles
            ++ [(CpuProfile.new title record_samples now root_entry).1]).length
            ≤ kMaxSimultaneousProfiles
        rw [List.length_append, List.length_singleton]
        omega

/-- Starting a profile titled `a` in the empty collection appends one profile. -/
theorem StartProfiling_spec_witness :
    (⟨[], []⟩ : CpuProfilesCollection).current_profiles.length ≤ kMaxSimultaneousProfiles ∧
    (StartProfiling ⟨[], []⟩ "a" true 5 100).2.1 ≠ false ∧
    (StartProfiling ⟨[], []⟩ "a" true 5 100).1.current_profiles.length
      ≤ kMaxSimultaneousProfiles :=
  ⟨by decide,
   fun h => absurd ((StartProfiling_spec ⟨[], []⟩ "a" true 5 100 (by decide)).1.mp h)
     (by decide),
   (StartProfiling_spec ⟨[], []⟩ "a" true 5 100 (by decide)).2.2.2.2⟩

theorem title_StreamPendingTraceEvents (store : CodeEntryStore) (p : CpuProfile) :
    (CpuProfile.StreamPendingTraceEvents store p).1.title = p.title := by
  unfold CpuProfile.StreamPendingTraceEvents
  simp only []
  split_ifs <;> rfl

theorem title_FinishProfile (store : CodeEntryStore) (p : CpuProfile) (now : Int) :
    (CpuProfile.FinishProfile store p now).1.title = p.title := by
  unfold CpuProfile.FinishProfile
  exact title_StreamPendingTraceEvents store _

theorem StopProfiling_of_no_match (store : CodeEntryStore) (c : CpuProfilesCollection)
    (title : String) (now : Int)
    (h : ∀ p ∈ c.current_profiles, matchesTitle title p = false) :
    StopProfiling store c title now = (c, none, []) := by
  have hidx : c.current_profiles.reverse.findIdx (matchesTitle title)
      = c.current_profiles.length := by
    rw [← List.length_reverse]
    exact List.findIdx_eq_length_of_false (fun x hx => h x (List.mem_reverse.mp hx))
  unfold StopProfiling
  simp only [hidx, lt_irrefl, if_false]

theorem StopProfiling_of_last_match (store : CodeEntryStore) (c : CpuProfilesCollection)
    (title : String) (now : Int) (pre post : List CpuProfile) (p : CpuProfile)
    (hsplit : c.current_profiles = pre ++ p :: post) (hp : matchesTitle title p = true)
    (hpost : ∀ q ∈ post, matchesTitle title q = false) :
    StopProfiling store c title now
      = ({ current_profiles := pre ++ post,
           finished_profiles := c.finished_profiles ++ [(CpuProfile.FinishProfile store p now).1] },
         some (CpuProfile.FinishProfile store p now).1,
         (CpuProfile.FinishProfile store p now).2) := by
  have hrev : c.current_profiles.reverse = post.reverse ++ p :: pre.reverse := by
    rw [hsplit]
    simp
  have hidx : c.current_profiles.reverse.findIdx (matchesTitle title) = post.length := by
    rw [hrev, List.findIdx_append]
    have h1 : post.reverse.findIdx (matchesTitle title) = post.reverse.length :=
      List.findIdx_eq_length_of_false (fun x hx => hpost x (List.mem_reverse.mp hx))
    rw [h1, if_neg (lt_irrefl _), List.findIdx_cons, hp]
    simp
  have hlen : c.current_profiles.length = pre.length + (post.length + 1) := by
    rw [hsplit]
    simp
  have hpos : c.current_profiles.length - 1 - post.length = pre.length := by omega
  have hget : c.current_profiles[pre.length]? = some p := by
    rw [hsplit, List.getElem?_append_right (le_refl _)]
    simp
  have herase : c.current_profiles.eraseIdx pre.length = pre ++ post := by
    rw [hsplit, List.eraseIdx_append_of_length_le (le_refl _)]
    simp
  unfold StopProfiling
  simp only [hidx, hpos, hget, herase]
  rw [if_pos (by omega)]

/-- C20: `StopProfiling(title)` returns null and changes neither list iff no current
profile matches, a profile matching when the title asked for is empty or is its title;
otherwise it returns the most recently started profile that matches, finished by
`FinishProfile`, removes exactly that profile from the list of current profiles, the
others keeping their order, and appends it to the end of the list of finished profiles. -/
theorem StopProfiling_spec (store : CodeEntryStore) (c : CpuProfilesCollection)
    (title : String) (now : Int) :
    ((StopProfiling store c title now).2.1 = none ↔
      ∀ p ∈ c.current_profiles, matchesTitle title p = false) ∧
    ((∀ p ∈ c.current_profiles, matchesTitle title p = false) →
      (StopProfiling store c title now).1 = c) ∧
    (∀ (pre post : List CpuProfile) (p : CpuProfile),
      c.current_profiles = pre ++ p :: post → matchesTitle title p = true →
      (∀ q ∈ post, matchesTitle title q = false) →
      (StopProfiling store c title now).2.1 = some (CpuProfile.FinishProfile store p now).1 ∧
      (CpuProfile.FinishProfile store p now).1.title = p.title ∧
      (StopProfiling store c title now).1.current_profiles = pre ++ post ∧
      (StopProfiling store c title now).1.finished_profiles
        = c.finished_profiles ++ [(CpuProfile.FinishProfile store p now).1]) := by
  refine ⟨⟨?_, ?_⟩, ?_, ?_⟩
  · intro hnone
    by_contra hex
    -- some profile matches: split the list at the last one
    have hex' : ∃ x ∈ c.current_profiles.reverse, matchesTitle title x = true := by
      by_contra hno
      apply hex
      intro q hq
      by_contra hq'
      exact hno ⟨q, List.mem_reverse.mpr hq, by simpa using hq'⟩
    have hlt := List.findIdx_lt_length_of_exists hex'
    have hmatch : matchesTitle title
        (c.current_profiles.reverse[c.current_profiles.reverse.findIdx (matchesTitle title)])
        = true := List.findIdx_getElem
    have hsplit : c.current_profiles.reverse
        = (c.current_profiles.reverse.take (c.current_profiles.reverse.findIdx (matchesTitle title)))
          ++ c.current_profiles.reverse[c.current_profiles.reverse.findIdx (matchesTitle title)]
            :: (c.current_profiles.reverse.drop
                (c.current_profiles.reverse.findIdx (matchesTitle title) + 1)) := by
      rw [← List.drop_eq_getElem_cons hlt, List.take_append_drop]
    have hsplit' := congrArg List.reverse hsplit
    rw [List.reverse_reverse, List.reverse_append, List.reverse_cons, List.append_assoc,
      List.singleton_append] at hsplit'
    have hres := StopProfiling_of_last_match store c title now _ _ _ hsplit' hmatch (by
      intro q hq
      rw [List.mem_reverse, List.mem_take_iff_getElem] at hq
      obtain ⟨j, hj, rfl⟩ := hq
      exact List.not_of_lt_findIdx (lt_of_lt_of_le hj (min_le_left _ _)))
    rw [hres] at hnone
    cases hnone
  · intro h
    rw [StopProfiling_of_no_match store c title now h]
  · intro h
    rw [StopProfiling_of_no_match store c title now h]
  · intro pre post p hsplit hp hpost
    rw [StopProfiling_of_last_match store c title now pre post p hsplit hp hpost]
    exact ⟨rfl, title_FinishProfile store p now, rfl, rfl⟩

end CpuProfilesCollection

end V8Profiler
